import Mathlib

/-!
Verification of the local-mixing circuit obfuscator (Rust sources
`src/rust/src/lib.rs` and `src/rust/src/main.rs`).

The Rust crate declares `pub mod circuit;` but the file `circuit.rs` is not
part of the sources; the gate/circuit data model (`BaseGate`, `Circuit`,
`run`, `check_collision`) is therefore modelled from the specification
(spec.md §3, §4.1).  Everything else is translated from `lib.rs` / `main.rs`.

Conventions:
* Rust `HashSet<usize>` values whose observable behaviour is membership are
  modelled as `List Nat` produced in a canonical (increasing) order;
  nondeterministic iteration orders that influence control flow are passed in
  explicitly as parameters, and theorems quantify over them.
* Machine integers (`usize`, `u8`, `u128`) are modelled as `Nat`; no
  arithmetic in the modelled paths overflows.
-/

/-- Modelled from the spec (§3 "Gate", `circuit.rs` is missing from the
sources): a gate `g = (id, target, controls, op)` in the primary `k = 2`
configuration (`BaseGate<2, u8>`), with `op` represented by its op-code
(`control_func` in `main.rs`). -/
structure BaseGate where
  id : Nat
  target : Nat
  control0 : Nat
  control1 : Nat
  controlFunc : Nat
deriving DecidableEq, Repr

instance : Inhabited BaseGate := ⟨⟨0, 0, 0, 0, 0⟩⟩

/-- Modelled from the spec (§3 "Circuit", `circuit.rs` is missing from the
sources): an ordered sequence of gates plus wire count `n`. -/
structure Circuit where
  gates : List BaseGate
  n : Nat
deriving DecidableEq, Repr

/-- Modelled from the spec (§4.1 "run", `circuit.rs` is missing from the
sources): a single gate step computes `inputs[target] ^= op(inputs[controls])`
where for `k = 2` the op is AND. -/
def BaseGate.step (g : BaseGate) (s : List Bool) : List Bool :=
  s.set g.target
    (xor (s.getD g.target false) ((s.getD g.control0 false) && (s.getD g.control1 false)))

/-- Modelled from the spec (§4.1 "run", `circuit.rs` is missing from the
sources): execute gates in order on an `n`-bit state. -/
def Circuit.run (c : Circuit) (s : List Bool) : List Bool :=
  c.gates.foldl (fun st g => g.step st) s

/-- Modelled from the spec (§3 "Collision", `circuit.rs` is missing from the
sources): gates `a` and `b` collide iff `target a ∈ controls b` or
`target b ∈ controls a`. -/
def BaseGate.check_collision (a b : BaseGate) : Bool :=
  (a.target == b.control0 || a.target == b.control1)
    || (b.target == a.control0 || b.target == a.control1)

/-- The gate at position `i` of a circuit (Rust indexing `circuit.gates()[i]`,
always in bounds where used). -/
def Circuit.gateAt (c : Circuit) (i : Nat) : BaseGate :=
  c.gates.getD i default

/-- From `lib.rs` `circuit_to_collision_sets` (lines 843-871): collision sets
`C[i] = { j > i : g_i collides with g_j }`, the transitive-reduction pass
being commented out in the source.  The Rust `HashSet` is modelled as the
increasingly ordered list of its members. -/
def circuit_to_collision_sets (c : Circuit) : List (List Nat) :=
  (List.range c.gates.length).map fun i =>
    (List.range c.gates.length).filter fun j =>
      decide (i < j) && (c.gateAt i).check_collision (c.gateAt j)

/-- A directed graph in `petgraph` style: `nodeWeights` assigns each node
index its weight (a gate id), `edges` is the list of directed edges between
node indices. -/
structure SkeletonGraph where
  nodeWeights : List Nat
  edges : List (Nat × Nat)
deriving DecidableEq, Repr

/-- From `lib.rs` `circuit_to_skeleton_graph` (lines 895-914): one node per
gate carrying the gate id, and one edge `(i, j)` for every `j ∈ C[i]`. -/
def circuit_to_skeleton_graph (c : Circuit) : SkeletonGraph :=
  { nodeWeights := c.gates.map BaseGate.id
    edges :=
      (List.range c.gates.length).flatMap fun i =>
        ((circuit_to_collision_sets c).getD i []).map fun j => (i, j) }

theorem mem_collision_sets_getD (c : Circuit) (i j : Nat) :
    j ∈ (circuit_to_collision_sets c).getD i [] ↔
      (i < j ∧ j < c.gates.length ∧
        (c.gateAt i).check_collision (c.gateAt j) = true) := by
  unfold circuit_to_collision_sets
  by_cases hi : i < c.gates.length
  · rw [List.getD_eq_getElem?_getD, List.getElem?_map, List.getElem?_range hi]
    simp only [Option.map_some', Option.getD_some, List.mem_filter, List.mem_range,
      Bool.and_eq_true, decide_eq_true_eq]
    constructor
    · rintro ⟨hj, hij, hcol⟩
      exact ⟨hij, hj, hcol⟩
    · rintro ⟨hij, hj, hcol⟩
      exact ⟨hj, hij, hcol⟩
  · rw [List.getD_eq_getElem?_getD, List.getElem?_map,
      List.getElem?_eq_none (by simpa using hi)]
    simp only [Option.map_none', Option.getD_none, List.not_mem_nil, false_iff]
    rintro ⟨hij, hj, _⟩
    omega

/-- C6: the skeleton graph of a circuit has one node per gate (carrying the
gate's id), and its edge set is exactly `{ (i, j) : i < j, gate i collides
with gate j }` — no transitive reduction is applied. -/
theorem skeleton_graph_edge_characterization (c : Circuit) :
    (circuit_to_skeleton_graph c).nodeWeights = c.gates.map BaseGate.id ∧
    ∀ i j : Nat,
      ((i, j) ∈ (circuit_to_skeleton_graph c).edges ↔
        (i < j ∧ j < c.gates.length ∧
          (c.gateAt i).check_collision (c.gateAt j) = true)) := by
  refine ⟨rfl, ?_⟩
  intro i j
  unfold circuit_to_skeleton_graph
  simp only [List.mem_flatMap, List.mem_range, List.mem_map]
  constructor
  · rintro ⟨i', _, j', hj'mem, hpair⟩
    have hi'i : i' = i := congrArg Prod.fst hpair
    have hj'j : j' = j := congrArg Prod.snd hpair
    rw [hi'i, hj'j] at hj'mem
    exact (mem_collision_sets_getD c i j).mp hj'mem
  · intro h
    refine ⟨i, ?_, j, (mem_collision_sets_getD c i j).mpr h, rfl⟩
    omega

/-! ## Pretty (JSON) circuit representation, from `main.rs` lines 619-661 -/

/-- From `main.rs` `PrettyCircuit` (lines 619-624): the JSON circuit
representation; each gate is serialized as `[c0, c1, target, op_code]`
(a gate's id is not serialized). -/
structure PrettyCircuit where
  wire_count : Nat
  gate_count : Nat
  gates : List (Nat × Nat × Nat × Nat)
deriving DecidableEq, Repr

/-- From `main.rs` `impl From<&Circuit> for PrettyCircuit` (lines 626-645):
serialization ("stringify"). -/
def prettyOfCircuit (c : Circuit) : PrettyCircuit :=
  { wire_count := c.n
    gate_count := c.gates.length
    gates := c.gates.map fun g => (g.control0, g.control1, g.target, g.controlFunc) }

/-- From `main.rs` `impl From<&PrettyCircuit> for Circuit` (lines 647-661):
parsing; gate ids are (re)assigned as the enumeration index. -/
def circuitOfPretty (p : PrettyCircuit) : Circuit :=
  { gates :=
      ((List.range p.gates.length).zip p.gates).map fun x =>
        { id := x.1, target := x.2.2.2.1, control0 := x.2.1, control1 := x.2.2.1,
          controlFunc := x.2.2.2.2 }
    n := p.wire_count }

/-- C9 (counterexample): the JSON round-trip is not the identity on every
circuit — a circuit whose single gate has id 7 comes back with id 0. -/
theorem pretty_roundtrip_not_identity :
    circuitOfPretty (prettyOfCircuit ⟨[⟨7, 0, 1, 2, 0⟩], 3⟩) ≠ ⟨[⟨7, 0, 1, 2, 0⟩], 3⟩ :=
  by decide

/-- C9 (amended): the JSON round-trip preserves the wire count and every
gate's target, controls and op-code, and it is the identity on exactly those
circuits whose gate ids are the consecutive sequence `0, 1, …, gate_count-1`
(serialization drops ids and parsing re-assigns them consecutively). -/
theorem pretty_roundtrip (c : Circuit) (hid : ∀ i, ∀ h : i < c.gates.length, c.gates[i].id = i) :
    circuitOfPretty (prettyOfCircuit c) = c := by
  unfold circuitOfPretty prettyOfCircuit
  have hlen : ((List.range (c.gates.map fun g =>
      (g.control0, g.control1, g.target, g.controlFunc)).length).zip
      (c.gates.map fun g => (g.control0, g.control1, g.target, g.controlFunc))).length
      = c.gates.length := by
    simp [List.length_zip]
  refine congrArg₂ Circuit.mk ?_ rfl
  refine List.ext_getElem (by simp) ?_
  intro i h1 h2
  simp only [List.getElem_map, List.getElem_zip, List.getElem_range]
  have hi : i < c.gates.length := h2
  have := hid i hi
  cases hg : c.gates[i] with
  | mk gid gt gc0 gc1 gf =>
    simp only [List.length_map, List.length_zip, List.length_range] at h1
    simp only [hg]
    have : gid = i := by rw [hg] at this; exact this
    rw [this]

/-- C9 (witness for the amended round-trip theorem). -/
theorem pretty_roundtrip_witness :
    circuitOfPretty (prettyOfCircuit ⟨[⟨0, 2, 0, 1, 0⟩, ⟨1, 0, 1, 2, 0⟩], 3⟩)
      = ⟨[⟨0, 2, 0, 1, 0⟩, ⟨1, 0, 1, 2, 0⟩], 3⟩ :=
  pretty_roundtrip _ (by decide)

/-! ## Probabilistic equivalence check, from `lib.rs` lines 1305-1341 -/

/-- From `lib.rs` `check_probabilisitic_equivalence` (lines 1317-1320): the
`n`-bit input vector built from a sampled value, `inputs[i] = (value >> i) & 1
== 1`. -/
def value_to_inputs (n value : Nat) : List Bool :=
  (List.range n).map fun i => (value >>> i) % 2 == 1

/-- From `lib.rs` `check_probabilisitic_equivalence` (lines 1305-1341).  The
sampled values are passed in explicitly: in the source they are drawn from
`Uniform::new(0, 1u128 << n - 1)`, i.e. (by precedence `1 << (n-1)`) from the
half range `[0, 2^(n-1))`.  The `assert_eq!` on each pair of outputs is
modelled as the conjunction of the comparisons (`false` = some assertion
fails). -/
def check_probabilisitic_equivalence (c0 c1 : Circuit) (values : List Nat) : Bool :=
  (c0.n == c1.n) &&
    values.all fun value =>
      c0.run (value_to_inputs c0.n value) == c1.run (value_to_inputs c0.n value)

/-- A 3-wire circuit pair agreeing on every input whose top wire is `false`
but differing when it is `true`: the empty circuit versus the single gate
`target 0, controls {1, 2}`. -/
def halfRangeCircuit0 : Circuit := ⟨[], 3⟩

/-- See `halfRangeCircuit0`. -/
def halfRangeCircuit1 : Circuit := ⟨[⟨0, 0, 1, 2, 0⟩], 3⟩

/-- C10: the equivalence check only ever evaluates the circuits on values in
`[0, 2^(n-1))`, whose derived input vector has wire `n-1` equal to `false`;
consequently, for every sample drawn from that range it accepts the pair
`halfRangeCircuit0 / halfRangeCircuit1`, although the two circuits differ on
an input whose top bit is set. -/
theorem check_probabilisitic_equivalence_half_range
    (n value : Nat) (hn : 1 ≤ n) (hv : value < 2 ^ (n - 1))
    (values : List Nat) (hvalues : ∀ v ∈ values, v < 2 ^ (halfRangeCircuit0.n - 1)) :
    (value_to_inputs n value).getD (n - 1) false = false ∧
    check_probabilisitic_equivalence halfRangeCircuit0 halfRangeCircuit1 values = true ∧
    halfRangeCircuit0.run [false, true, true] ≠ halfRangeCircuit1.run [false, true, true] := by
  refine ⟨?_, ?_, by decide⟩
  · unfold value_to_inputs
    rw [List.getD_eq_getElem?_getD, List.getElem?_map, List.getElem?_range (by omega)]
    simp only [Option.map_some', Option.getD_some, beq_iff_eq]
    have : value >>> (n - 1) = 0 := by
      rw [Nat.shiftRight_eq_div_pow]
      exact Nat.div_eq_of_lt hv
    simp [this]
  · unfold check_probabilisitic_equivalence
    rw [Bool.and_eq_true]
    refine ⟨rfl, ?_⟩
    rw [List.all_eq_true]
    intro v hvmem
    have hvlt : v < 4 := hvalues v hvmem
    have hkey : ∀ w < 4,
        (halfRangeCircuit0.run (value_to_inputs halfRangeCircuit0.n w)
          == halfRangeCircuit1.run (value_to_inputs halfRangeCircuit0.n w)) = true := by
      decide
    exact hkey v hvlt

/-- C10 (witness): instantiation at `n = 3`, `value = 2`, a concrete sample. -/
theorem check_probabilisitic_equivalence_half_range_witness :
    (value_to_inputs 3 2).getD 2 false = false ∧
    check_probabilisitic_equivalence halfRangeCircuit0 halfRangeCircuit1 [0, 1, 2, 3] = true ∧
    halfRangeCircuit0.run [false, true, true] ≠ halfRangeCircuit1.run [false, true, true] :=
  check_probabilisitic_equivalence_half_range 3 2 (by decide) (by decide) [0, 1, 2, 3]
    (by decide)

/-! ## Set-as-list helpers

Rust `HashSet`s are modelled as duplicate-free lists; `linsert` is
`HashSet::insert`. -/

/-- `HashSet::insert`: add an element unless already present. -/
def linsert (x : Nat) (l : List Nat) : List Nat :=
  if x ∈ l then l else x :: l

theorem mem_linsert (x y : Nat) (l : List Nat) : y ∈ linsert x l ↔ y = x ∨ y ∈ l := by
  unfold linsert
  by_cases h : x ∈ l
  · simp only [if_pos h]
    constructor
    · exact Or.inr
    · rintro (rfl | hy)
      · exact h
      · exact hy
  · simp [if_neg h]

theorem nodup_linsert (x : Nat) (l : List Nat) (h : l.Nodup) : (linsert x l).Nodup := by
  unfold linsert
  by_cases hx : x ∈ l
  · simpa [if_pos hx]
  · simpa [if_neg hx, h]

theorem mem_foldl_linsert (l acc : List Nat) (y : Nat) :
    y ∈ l.foldl (fun a k => linsert k a) acc ↔ y ∈ acc ∨ y ∈ l := by
  induction l generalizing acc with
  | nil => simp
  | cons x rest ih =>
    simp only [List.foldl_cons, ih, mem_linsert, List.mem_cons]
    tauto

theorem nodup_foldl_linsert (l acc : List Nat) (h : acc.Nodup) :
    (l.foldl (fun a k => linsert k a) acc).Nodup := by
  induction l generalizing acc with
  | nil => simpa
  | cons x rest ih => exact ih _ (nodup_linsert _ _ h)

/-! ## Directed and undirected reachability over adjacency functions -/

/-- One directed step: `v` is an out-neighbour of `u`. -/
def Step (adj : Nat → List Nat) (u v : Nat) : Prop := v ∈ adj u

/-- Directed reachability (reflexive-transitive closure of `Step`). -/
def Reaches (adj : Nat → List Nat) : Nat → Nat → Prop :=
  Relation.ReflTransGen (Step adj)

/-- Strict directed reachability (at least one step). -/
def ReachesPlus (adj : Nat → List Nat) : Nat → Nat → Prop :=
  Relation.TransGen (Step adj)

/-- A set of nodes is convex when every directed path between two of its
members stays inside it (spec glossary "Convex subset"). -/
def IsConvex (adj : Nat → List Nat) (S : List Nat) : Prop :=
  ∀ u ∈ S, ∀ v ∈ S, ∀ z, Reaches adj u z → Reaches adj z v → z ∈ S

/-- A ranking certifying acyclicity: every directed step strictly increases
the rank (such a function exists exactly for DAGs). -/
def IsRanking (adj : Nat → List Nat) (rho : Nat → Nat) : Prop :=
  ∀ u v, v ∈ adj u → rho u < rho v

theorem reaches_rank_le (adj : Nat → List Nat) (rho : Nat → Nat)
    (hr : IsRanking adj rho) (u v : Nat) (h : Reaches adj u v) : rho u ≤ rho v := by
  induction h with
  | refl => exact le_rfl
  | tail _ hstep ih => exact le_trans ih (le_of_lt (hr _ _ hstep))

theorem reachesPlus_rank_lt (adj : Nat → List Nat) (rho : Nat → Nat)
    (hr : IsRanking adj rho) (u v : Nat) (h : ReachesPlus adj u v) : rho u < rho v := by
  induction h with
  | single hstep => exact hr _ _ hstep
  | tail _ hstep ih => exact lt_trans ih (hr _ _ hstep)

theorem reaches_ne_plus (adj : Nat → List Nat) (u v : Nat) (h : Reaches adj u v)
    (hne : u ≠ v) : ReachesPlus adj u v := by
  rcases (Relation.reflTransGen_iff_eq_or_transGen.mp h) with rfl | htg
  · exact absurd rfl hne
  · exact htg

/-! ## Undirected connectivity (for weak connectedness, C8/C3)

`petgraph::algo::connected_components` (an external library call used by the
source's tests) is modelled denotationally: an executable reachability
closure over the undirected adjacency, and the count of canonical component
representatives. -/

/-- One undirected step according to a boolean adjacency. -/
def UStep (adjB : Nat → Nat → Bool) (i j : Nat) : Prop := adjB i j = true

/-- Undirected connectivity: reflexive-transitive closure of `UStep`. -/
def UConn (adjB : Nat → Nat → Bool) : Nat → Nat → Prop :=
  Relation.ReflTransGen (UStep adjB)

/-- One round of reachability expansion inside `{0, …, n-1}`. -/
def uexpand (n : Nat) (adjB : Nat → Nat → Bool) (s : Finset Nat) : Finset Nat :=
  (Finset.range n).filter fun j => j ∈ s ∨ ∃ i ∈ s, adjB i j = true

/-- `k` rounds of expansion. -/
def uclosure (n : Nat) (adjB : Nat → Nat → Bool) : Nat → Finset Nat → Finset Nat
  | 0, s => s
  | k + 1, s => uexpand n adjB (uclosure n adjB k s)

/-- Decidable undirected connectivity on `{0, …, n-1}`. -/
def uconnB (n : Nat) (adjB : Nat → Nat → Bool) (i j : Nat) : Bool :=
  decide (j ∈ uclosure n adjB n {i})

/-- Number of undirected connected components of `{0, …, n-1}`: the count of
nodes not connected to any smaller node. -/
def componentsCount (n : Nat) (adjB : Nat → Nat → Bool) : Nat :=
  ((Finset.range n).filter fun i => ∀ j ∈ Finset.range i, uconnB n adjB j i = false).card

theorem uexpand_subset_range (n : Nat) (adjB : Nat → Nat → Bool) (s : Finset Nat) :
    uexpand n adjB s ⊆ Finset.range n :=
  Finset.filter_subset _ _

theorem subset_uexpand (n : Nat) (adjB : Nat → Nat → Bool) (s : Finset Nat)
    (h : s ⊆ Finset.range n) : s ⊆ uexpand n adjB s := by
  intro j hj
  exact Finset.mem_filter.mpr ⟨h hj, Or.inl hj⟩

theorem uclosure_subset_range (n : Nat) (adjB : Nat → Nat → Bool) (k : Nat) (s : Finset Nat)
    (h : s ⊆ Finset.range n) : uclosure n adjB k s ⊆ Finset.range n := by
  cases k with
  | zero => exact h
  | succ k => exact uexpand_subset_range n adjB _

theorem uclosure_mono_fuel (n : Nat) (adjB : Nat → Nat → Bool) (k : Nat) (s : Finset Nat)
    (h : s ⊆ Finset.range n) : uclosure n adjB k s ⊆ uclosure n adjB (k + 1) s := by
  induction k with
  | zero => exact subset_uexpand n adjB s h
  | succ k ih =>
    show uexpand n adjB _ ⊆ uexpand n adjB _
    unfold uexpand
    intro j hj
    rw [Finset.mem_filter] at hj ⊢
    refine ⟨hj.1, ?_⟩
    rcases hj.2 with hmem | ⟨i, hi, hadj⟩
    · exact Or.inl (ih hmem)
    · exact Or.inr ⟨i, ih hi, hadj⟩

theorem uclosure_stab_step (n : Nat) (adjB : Nat → Nat → Bool) (m : Nat) (s : Finset Nat)
    (hstab : uclosure n adjB (m + 1) s = uclosure n adjB m s) :
    ∀ k, m ≤ k → uclosure n adjB k s = uclosure n adjB m s := by
  intro k hk
  induction k with
  | zero =>
    have : m = 0 := Nat.le_zero.mp hk
    rw [this]
  | succ k ih =>
    rcases Nat.lt_or_ge m (k + 1) with h | h
    · have hmk : m ≤ k := Nat.lt_succ_iff.mp h
      have hk' := ih hmk
      show uexpand n adjB (uclosure n adjB k s) = _
      rw [hk']
      exact hstab
    · have hmk : m = k + 1 := le_antisymm hk h
      rw [hmk]

theorem uclosure_exists_stab (n : Nat) (adjB : Nat → Nat → Bool) (s : Finset Nat)
    (hs : s ⊆ Finset.range n) (hcard : 1 ≤ s.card) :
    uclosure n adjB (n + 1) s = uclosure n adjB n s := by
  by_contra hne
  have hgrow : ∀ m, m ≤ n + 1 → m + s.card ≤ (uclosure n adjB m s).card := by
    intro m hm
    induction m with
    | zero =>
      show 0 + s.card ≤ s.card
      omega
    | succ m ih =>
      have hmn : m ≤ n + 1 := Nat.le_of_succ_le hm
      have h1 := ih hmn
      have hss : uclosure n adjB m s ⊆ uclosure n adjB (m + 1) s :=
        uclosure_mono_fuel n adjB m s hs
      have hne' : uclosure n adjB (m + 1) s ≠ uclosure n adjB m s := by
        intro heq
        apply hne
        rw [uclosure_stab_step n adjB m s heq (n + 1) (by omega),
          uclosure_stab_step n adjB m s heq n (by omega)]
      have hlt : (uclosure n adjB m s).card < (uclosure n adjB (m + 1) s).card :=
        Finset.card_lt_card (Finset.ssubset_iff_subset_ne.mpr ⟨hss, fun h => hne' h.symm⟩)
      omega

  have h1 := hgrow (n + 1) le_rfl
  have h2 : (uclosure n adjB (n + 1) s).card ≤ n := by
    have := Finset.card_le_card (uclosure_subset_range n adjB (n + 1) s hs)
    simpa using this
  omega

theorem uclosure_sound (n : Nat) (adjB : Nat → Nat → Bool) (i j k : Nat)
    (hj : j ∈ uclosure n adjB k {i}) : UConn adjB i j := by
  induction k generalizing j with
  | zero =>
    have : j = i := Finset.mem_singleton.mp hj
    rw [this]
    exact Relation.ReflTransGen.refl
  | succ k ih =>
    have hj' := Finset.mem_filter.mp hj
    rcases hj'.2 with hmem | ⟨i', hi', hadj⟩
    · exact ih j hmem
    · exact Relation.ReflTransGen.tail (ih i' hi') hadj

theorem uclosure_closed (n : Nat) (adjB : Nat → Nat → Bool) (i : Nat) (hi : i < n) :
    uexpand n adjB (uclosure n adjB n {i}) = uclosure n adjB n {i} := by
  have h := uclosure_exists_stab n adjB {i}
    (by simpa using hi) (by simp)
  exact h

theorem singleton_subset_uclosure (n : Nat) (adjB : Nat → Nat → Bool) (i k : Nat)
    (hi : i < n) : ({i} : Finset Nat) ⊆ uclosure n adjB k {i} := by
  have hsub : ({i} : Finset Nat) ⊆ Finset.range n := by simpa using hi
  induction k with
  | zero => exact fun x hx => hx
  | succ p ihp => exact subset_trans ihp (uclosure_mono_fuel n adjB p {i} hsub)

theorem uclosure_complete (n : Nat) (adjB : Nat → Nat → Bool)
    (hbnd : ∀ a b, adjB a b = true → a < n ∧ b < n) (i j : Nat) (hi : i < n)
    (hconn : UConn adjB i j) : j ∈ uclosure n adjB n {i} := by
  induction hconn with
  | refl =>
    exact singleton_subset_uclosure n adjB i n hi (Finset.mem_singleton_self i)
  | @tail x y hxy hstep ih =>
    rw [← uclosure_closed n adjB i hi]
    refine Finset.mem_filter.mpr ⟨?_, Or.inr ⟨x, ih, hstep⟩⟩
    simpa using (hbnd x y hstep).2

theorem uconnB_iff (n : Nat) (adjB : Nat → Nat → Bool)
    (hbnd : ∀ a b, adjB a b = true → a < n ∧ b < n) (i j : Nat) (hi : i < n) :
    uconnB n adjB i j = true ↔ UConn adjB i j := by
  unfold uconnB
  rw [decide_eq_true_iff]
  exact ⟨uclosure_sound n adjB i j n, uclosure_complete n adjB hbnd i j hi⟩

theorem uconn_symm (adjB : Nat → Nat → Bool) (hsym : ∀ a b, adjB a b = adjB b a)
    (i j : Nat) (h : UConn adjB i j) : UConn adjB j i := by
  induction h with
  | refl => exact Relation.ReflTransGen.refl
  | @tail x y hxy hstep ih =>
    have : UStep adjB y x := by
      unfold UStep at hstep ⊢
      rw [hsym]
      exact hstep
    exact Relation.ReflTransGen.trans (Relation.ReflTransGen.single this) ih

theorem componentsCount_eq_one_iff (n : Nat) (adjB : Nat → Nat → Bool)
    (hbnd : ∀ a b, adjB a b = true → a < n ∧ b < n) :
    componentsCount n adjB = 1 ↔ (0 < n ∧ ∀ i, i < n → UConn adjB 0 i) := by
  rcases Nat.eq_zero_or_pos n with rfl | hn
  · unfold componentsCount
    simp
  have h0mem : 0 ∈ (Finset.range n).filter
      (fun i => ∀ j ∈ Finset.range i, uconnB n adjB j i = false) := by
    refine Finset.mem_filter.mpr ⟨Finset.mem_range.mpr hn, ?_⟩
    intro j hj
    exact absurd hj (by simp)
  constructor
  · intro hcount
    refine ⟨hn, ?_⟩
    have hsingle : (Finset.range n).filter
        (fun i => ∀ j ∈ Finset.range i, uconnB n adjB j i = false) = {0} := by
      obtain ⟨a, ha⟩ := Finset.card_eq_one.mp hcount
      rw [ha] at h0mem
      rw [ha, Finset.mem_singleton.mp h0mem]
    intro i hi
    induction i using Nat.strong_induction_on with
    | _ i ihs =>
      rcases Nat.eq_zero_or_pos i with rfl | hipos
      · exact Relation.ReflTransGen.refl
      · have hnotmem : i ∉ (Finset.range n).filter
            (fun k => ∀ j ∈ Finset.range k, uconnB n adjB j k = false) := by
          rw [hsingle]
          simp only [Finset.mem_singleton]
          omega
        have : ¬ ∀ j ∈ Finset.range i, uconnB n adjB j i = false := by
          intro hall
          exact hnotmem (Finset.mem_filter.mpr ⟨Finset.mem_range.mpr hi, hall⟩)
        push_neg at this
        obtain ⟨j, hjmem, hjconn⟩ := this
        have hji : j < i := Finset.mem_range.mp hjmem
        have hconn : UConn adjB j i := by
          have := Bool.not_eq_false _ |>.mp hjconn
          exact (uconnB_iff n adjB hbnd j i (by omega)).mp this
        exact Relation.ReflTransGen.trans (ihs j hji (by omega)) hconn
  · rintro ⟨-, hall⟩
    unfold componentsCount
    have hsingle : (Finset.range n).filter
        (fun i => ∀ j ∈ Finset.range i, uconnB n adjB j i = false) = {0} := by
      apply Finset.ext
      intro i
      simp only [Finset.mem_singleton]
      constructor
      · intro hi
        by_contra hne
        have hmem := Finset.mem_filter.mp hi
        have hin : i < n := Finset.mem_range.mp hmem.1
        have hconn : UConn adjB 0 i := hall i hin
        have h0i : uconnB n adjB 0 i = true := (uconnB_iff n adjB hbnd 0 i hn).mpr hconn
        have := hmem.2 0 (Finset.mem_range.mpr (Nat.pos_of_ne_zero hne))
        rw [h0i] at this
        exact absurd this (by decide)
      · rintro rfl
        exact h0mem
    rw [hsingle]
    exact Finset.card_singleton 0

/-! ## `is_collisions_set_weakly_connected`, from `lib.rs` lines 289-333 -/

/-- The undirected adjacency matrix built by
`is_collisions_set_weakly_connected` (lines 294-305): `i` and `j` are
adjacent iff `j ∈ C[i]` or `i ∈ C[j]`. -/
def collisionAdjB (sets : List (List Nat)) (i j : Nat) : Bool :=
  decide (j ∈ sets.getD i []) || decide (i ∈ sets.getD j [])

/-- The mutable state of the DFS loop of
`is_collisions_set_weakly_connected`: the not-yet-removed node pool
`all_nodes`, the `nodes_visited` set, and the stack (top at the head; the
Rust `Vec` pushes/pops at its end). -/
structure WcSt where
  allNodes : List Nat
  visited : List Nat
  stack : List Nat
deriving Repr

/-- One iteration body of the `while` loop (lines 311-330): pop `cur`, push
every `k ∈ all_nodes` adjacent to `cur` (marking it visited), then mark `cur`
visited and remove it from `all_nodes`. -/
def wcNext (adjB : Nat → Nat → Bool) (st : WcSt) (cur : Nat) (rest : List Nat) : WcSt :=
  let pushes := st.allNodes.filter fun k => adjB cur k
  ⟨st.allNodes.erase cur,
   linsert cur (pushes.foldl (fun a k => linsert k a) st.visited),
   pushes.reverse ++ rest⟩

/-- The `while nodes_visited.len() < gate_count` loop of
`is_collisions_set_weakly_connected` (lines 311-330), fuelled; `none` is
never reached from the initial state (`wc_loop_isSome`). -/
def wc_loop (n : Nat) (adjB : Nat → Nat → Bool) : Nat → WcSt → Option Bool
  | 0, _ => none
  | fuel + 1, st =>
    if n ≤ st.visited.length then some true
    else
      match st.stack with
      | [] => some false
      | cur :: rest => wc_loop n adjB fuel (wcNext adjB st cur rest)

/-- From `lib.rs` `is_collisions_set_weakly_connected` (lines 289-333).  The
fuel is a proven upper bound on the number of loop iterations. -/
def is_collisions_set_weakly_connected (sets : List (List Nat)) : Bool :=
  let n := sets.length
  (wc_loop n (collisionAdjB sets) ((n + 2) * (n + 1) + 1)
    ⟨List.range n, [], [0]⟩).getD false

/-- Loop-iteration bound: `(n+2)·|all_nodes| + |stack| + 1`. -/
def wcMeasure (n : Nat) (st : WcSt) : Nat :=
  (n + 2) * st.allNodes.length + st.stack.length + 1

/-- Loop invariant of the weak-connectivity DFS. -/
def WcInv (n : Nat) (adjB : Nat → Nat → Bool) (st : WcSt) : Prop :=
  st.allNodes.Nodup ∧
  (∀ x ∈ st.allNodes, x < n) ∧
  (∀ x ∈ st.stack, x < n) ∧
  (∀ x ∈ st.visited, x < n) ∧
  st.visited.Nodup ∧
  (∀ x ∈ st.stack, UConn adjB 0 x) ∧
  (∀ x ∈ st.visited, UConn adjB 0 x) ∧
  (∀ x, x < n → x ∉ st.allNodes →
    x ∈ st.visited ∧ UConn adjB 0 x ∧
      ∀ k, k < n → adjB x k = true → (k ∉ st.allNodes ∨ k ∈ st.stack)) ∧
  (∀ a b x, st.stack = a ++ x :: b → x ∉ st.allNodes →
    ∀ k ∈ st.allNodes, adjB x k = true → k ∈ a)

theorem nodup_bounded_length_le (n : Nat) (l : List Nat) (hnd : l.Nodup)
    (hlt : ∀ x ∈ l, x < n) : l.length ≤ n := by
  have hsub : l.toFinset ⊆ Finset.range n := by
    intro x hx
    exact Finset.mem_range.mpr (hlt x (List.mem_toFinset.mp hx))
  have := Finset.card_le_card hsub
  rw [List.toFinset_card_of_nodup hnd] at this
  simpa using this

theorem wcinv_preserved (n : Nat) (adjB : Nat → Nat → Bool)
    (hirr : ∀ x, adjB x x = false)
    (st : WcSt) (cur : Nat) (rest : List Nat)
    (hstack : st.stack = cur :: rest) (hinv : WcInv n adjB st) :
    WcInv n adjB (wcNext adjB st cur rest) ∧
    wcMeasure n (wcNext adjB st cur rest) < wcMeasure n st := by
  obtain ⟨hAnd, hAlt, hSlt, hVlt, hVnd, hSconn, hVconn, hProc, hDead⟩ := hinv
  set pushes := st.allNodes.filter (fun k => adjB cur k) with hpushes
  have hpush_mem : ∀ k ∈ pushes, k ∈ st.allNodes ∧ adjB cur k = true := by
    intro k hk
    have := List.mem_filter.mp hk
    exact ⟨this.1, this.2⟩
  have hcur_not_push : cur ∉ pushes := by
    intro h
    have := (hpush_mem cur h).2
    rw [hirr cur] at this
    exact absurd this (by decide)
  have hcur_lt : cur < n := hSlt cur (by rw [hstack]; exact List.mem_cons_self _ _)
  have hcur_conn : UConn adjB 0 cur :=
    hSconn cur (by rw [hstack]; exact List.mem_cons_self _ _)
  have hmemA' : ∀ x, x ∈ st.allNodes.erase cur ↔ x ≠ cur ∧ x ∈ st.allNodes :=
    fun x => hAnd.mem_erase_iff
  have hmemV' : ∀ x,
      x ∈ linsert cur (pushes.foldl (fun a k => linsert k a) st.visited) ↔
        x = cur ∨ x ∈ st.visited ∨ x ∈ pushes := by
    intro x
    rw [mem_linsert, mem_foldl_linsert]
  have hmemS' : ∀ x, x ∈ pushes.reverse ++ rest ↔ x ∈ pushes ∨ x ∈ rest := by
    intro x
    rw [List.mem_append, List.mem_reverse]
  constructor
  · refine ⟨hAnd.erase cur, ?_, ?_, ?_, ?_, ?_, ?_, ?_, ?_⟩
    · intro x hx
      exact hAlt x ((hmemA' x).mp hx).2
    · intro x hx
      rcases (hmemS' x).mp hx with hp | hr
      · exact hAlt x (hpush_mem x hp).1
      · exact hSlt x (by rw [hstack]; exact List.mem_cons_of_mem _ hr)
    · intro x hx
      rcases (hmemV' x).mp hx with rfl | hv | hp
      · exact hcur_lt
      · exact hVlt x hv
      · exact hAlt x (hpush_mem x hp).1
    · exact nodup_linsert _ _ (nodup_foldl_linsert _ _ hVnd)
    · intro x hx
      rcases (hmemS' x).mp hx with hp | hr
      · exact Relation.ReflTransGen.tail hcur_conn (hpush_mem x hp).2
      · exact hSconn x (by rw [hstack]; exact List.mem_cons_of_mem _ hr)
    · intro x hx
      rcases (hmemV' x).mp hx with rfl | hv | hp
      · exact hcur_conn
      · exact hVconn x hv
      · exact Relation.ReflTransGen.tail hcur_conn (hpush_mem x hp).2
    · intro x hxlt hxA'
      by_cases hxA : x ∈ st.allNodes
      · have hxcur : x = cur := by
          by_contra hne
          exact hxA' ((hmemA' x).mpr ⟨hne, hxA⟩)
        subst hxcur
        refine ⟨(hmemV' x).mpr (Or.inl rfl), hcur_conn, ?_⟩
        intro k hklt hkadj
        by_cases hkA : k ∈ st.allNodes
        · right
          refine (hmemS' k).mpr (Or.inl ?_)
          rw [hpushes]
          exact List.mem_filter.mpr ⟨hkA, hkadj⟩
        · left
          intro hk
          exact hkA ((hmemA' k).mp hk).2
      · obtain ⟨hxV, hxconn, hxcl⟩ := hProc x hxlt hxA
        refine ⟨(hmemV' x).mpr (Or.inr (Or.inl hxV)), hxconn, ?_⟩
        intro k hklt hkadj
        rcases hxcl k hklt hkadj with hkA | hkS
        · left
          intro hk
          exact hkA ((hmemA' k).mp hk).2
        · rw [hstack] at hkS
          rcases List.mem_cons.mp hkS with rfl | hkrest
          · left
            intro hk
            exact ((hmemA' k).mp hk).1 rfl
          · right
            exact (hmemS' k).mpr (Or.inr hkrest)
    · intro a b x hsplit hxA'
      have hmain : ∀ t b', rest = t ++ x :: b' → a = pushes.reverse ++ t →
          ∀ k ∈ st.allNodes.erase cur, adjB x k = true → k ∈ a := by
        intro t b' hrt hat k hk hkadj
        have hkA : k ∈ st.allNodes := ((hmemA' k).mp hk).2
        have hkne : k ≠ cur := ((hmemA' k).mp hk).1
        by_cases hxA : x ∈ st.allNodes
        · have hxcur : x = cur := by
            by_contra hne
            exact hxA' ((hmemA' x).mpr ⟨hne, hxA⟩)
          subst hxcur
          have : k ∈ pushes := by
            rw [hpushes]
            exact List.mem_filter.mpr ⟨hkA, hkadj⟩
          rw [hat, List.mem_append, List.mem_reverse]
          exact Or.inl this
        · have holdstack : st.stack = (cur :: t) ++ x :: b' := by
            rw [hstack, hrt]
            rfl
          have := hDead (cur :: t) b' x holdstack hxA k hkA hkadj
          rcases List.mem_cons.mp this with rfl | ht
          · exact absurd rfl hkne
          · rw [hat, List.mem_append]
            exact Or.inr ht
      rcases List.append_eq_append_iff.mp hsplit with ⟨t, hat, hrt⟩ | ⟨t, hpt, hxbt⟩
      · exact hmain t b hrt hat
      · cases t with
        | nil =>
          simp only [List.nil_append] at hxbt
          simp only [List.append_nil] at hpt
          exact hmain [] b hxbt.symm (by rw [hpt, List.append_nil])
        | cons x' t' =>
          have hx : x = x' := by
            have := congrArg (fun l => l.head?) hxbt
            simpa using this
          have hxpush : x ∈ pushes := by
            rw [← List.mem_reverse, hpt, hx]
            exact List.mem_append.mpr (Or.inr (List.mem_cons_self _ _))
          have hxA : x ∈ st.allNodes := (hpush_mem x hxpush).1
          have hxcur : x = cur := by
            by_contra hne
            exact hxA' ((hmemA' x).mpr ⟨hne, hxA⟩)
          rw [hxcur] at hxpush
          exact absurd hxpush hcur_not_push
  · unfold wcMeasure wcNext
    simp only [hstack, List.length_append, List.length_reverse, List.length_cons]
    rw [← hpushes]
    have hfl : pushes.length ≤ st.allNodes.length := List.length_filter_le _ _
    have hAn : st.allNodes.length ≤ n := nodup_bounded_length_le n st.allNodes hAnd hAlt
    by_cases hcurA : cur ∈ st.allNodes
    · have hlenA' : (st.allNodes.erase cur).length = st.allNodes.length - 1 :=
        List.length_erase_of_mem hcurA
      have hpos : 0 < st.allNodes.length := List.length_pos_of_mem hcurA
      obtain ⟨m, hm⟩ : ∃ m, st.allNodes.length = m + 1 :=
        ⟨st.allNodes.length - 1, (Nat.succ_pred_eq_of_pos hpos).symm⟩
      have hfl' : pushes.length ≤ m + 1 := hm ▸ hfl
      have hAn' : m + 1 ≤ n := hm ▸ hAn
      rw [hlenA', hm]
      simp only [Nat.add_sub_cancel]
      rw [Nat.mul_succ]
      omega
    · have hnoop : st.allNodes.erase cur = st.allNodes := List.erase_of_not_mem hcurA
      have hempty : pushes = [] := by
        rw [hpushes]
        rw [List.filter_eq_nil_iff]
        intro k hkA
        have := hDead [] rest cur (by rw [hstack]; rfl) hcurA k hkA
        intro hkadj
        exact absurd (this (by simpa using hkadj)) (List.not_mem_nil k)
      rw [hnoop, hempty]
      simp

theorem wc_loop_isSome (n : Nat) (adjB : Nat → Nat → Bool)
    (hirr : ∀ x, adjB x x = false) :
    ∀ fuel st, WcInv n adjB st → wcMeasure n st ≤ fuel →
      (wc_loop n adjB fuel st).isSome = true := by
  intro fuel
  induction fuel with
  | zero =>
    intro st _ hle
    unfold wcMeasure at hle
    omega
  | succ fuel ih =>
    intro st hinv hle
    unfold wc_loop
    by_cases hvis : n ≤ st.visited.length
    · rw [if_pos hvis]
      rfl
    · rw [if_neg hvis]
      cases hstack : st.stack with
      | nil => rfl
      | cons cur rest =>
        obtain ⟨hinv', hdec⟩ := wcinv_preserved n adjB hirr st cur rest hstack hinv
        exact ih _ hinv' (by omega)

theorem wc_loop_true_implies (n : Nat) (adjB : Nat → Nat → Bool)
    (hirr : ∀ x, adjB x x = false) :
    ∀ fuel st, WcInv n adjB st → wc_loop n adjB fuel st = some true →
      ∀ i, i < n → UConn adjB 0 i := by
  intro fuel
  induction fuel with
  | zero =>
    intro st _ hres
    exact absurd hres (by unfold wc_loop; exact Option.noConfusion)
  | succ fuel ih =>
    intro st hinv hres i hi
    unfold wc_loop at hres
    by_cases hvis : n ≤ st.visited.length
    · obtain ⟨hAnd, hAlt, hSlt, hVlt, hVnd, hSconn, hVconn, hProc, hDead⟩ := hinv
      have hsub : st.visited.toFinset ⊆ Finset.range n := by
        intro x hx
        exact Finset.mem_range.mpr (hVlt x (List.mem_toFinset.mp hx))
      have hcard : (Finset.range n).card ≤ st.visited.toFinset.card := by
        rw [List.toFinset_card_of_nodup hVnd, Finset.card_range]
        exact hvis
      have heq : st.visited.toFinset = Finset.range n :=
        Finset.eq_of_subset_of_card_le hsub hcard
      have : i ∈ st.visited := by
        rw [← List.mem_toFinset, heq]
        exact Finset.mem_range.mpr hi
      exact hVconn i this
    · rw [if_neg hvis] at hres
      cases hstack : st.stack with
      | nil =>
        rw [hstack] at hres
        exact absurd (Option.some.inj hres) (by decide)
      | cons cur rest =>
        rw [hstack] at hres
        obtain ⟨hinv', _⟩ := wcinv_preserved n adjB hirr st cur rest hstack hinv
        exact ih _ hinv' hres i hi

theorem wc_loop_false_implies (n : Nat) (adjB : Nat → Nat → Bool)
    (hirr : ∀ x, adjB x x = false)
    (hbnd : ∀ a b, adjB a b = true → a < n ∧ b < n) :
    ∀ fuel st, WcInv n adjB st → (0 ∉ st.allNodes ∨ 0 ∈ st.stack) →
      wc_loop n adjB fuel st = some false →
      ∃ i, i < n ∧ ¬ UConn adjB 0 i := by
  intro fuel
  induction fuel with
  | zero =>
    intro st _ _ hres
    exact absurd hres (by unfold wc_loop; exact Option.noConfusion)
  | succ fuel ih =>
    intro st hinv hzero hres
    unfold wc_loop at hres
    by_cases hvis : n ≤ st.visited.length
    · rw [if_pos hvis] at hres
      exact absurd (Option.some.inj hres) (by decide)
    · rw [if_neg hvis] at hres
      cases hstack : st.stack with
      | nil =>
        obtain ⟨hAnd, hAlt, hSlt, hVlt, hVnd, hSconn, hVconn, hProc, hDead⟩ := hinv
        have h0A : 0 ∉ st.allNodes := by
          rcases hzero with h | h
          · exact h
          · rw [hstack] at h
            exact absurd h (List.not_mem_nil 0)
        have hreach_dead : ∀ x, UConn adjB 0 x → x ∉ st.allNodes := by
          intro x hconn
          induction hconn with
          | refl => exact h0A
          | @tail y z hyz hstep ihd =>
            have hy_lt : y < n := (hbnd y z hstep).1
            have hz_lt : z < n := (hbnd y z hstep).2
            have := (hProc y hy_lt ihd).2.2 z hz_lt hstep
            rcases this with h | h
            · exact h
            · rw [hstack] at h
              exact absurd h (List.not_mem_nil z)
        have hnlt : st.visited.length < n := Nat.lt_of_not_le hvis
        have hexists : ∃ y, y < n ∧ y ∉ st.visited := by
          by_contra hall
          push_neg at hall
          have hsub : Finset.range n ⊆ st.visited.toFinset := by
            intro x hx
            exact List.mem_toFinset.mpr (hall x (Finset.mem_range.mp hx))
          have := Finset.card_le_card hsub
          rw [List.toFinset_card_of_nodup hVnd, Finset.card_range] at this
          omega
        obtain ⟨y, hy_lt, hy_nvis⟩ := hexists
        refine ⟨y, hy_lt, ?_⟩
        intro hconn
        have hyA : y ∉ st.allNodes := hreach_dead y hconn
        exact hy_nvis (hProc y hy_lt hyA).1
      | cons cur rest =>
        rw [hstack] at hres
        obtain ⟨hinv', _⟩ := wcinv_preserved n adjB hirr st cur rest hstack hinv
        refine ih _ hinv' ?_ hres
        unfold wcNext
        by_cases h0cur : 0 = cur
        · left
          intro hmem
          have := (hinv.1.mem_erase_iff).mp hmem
          exact this.1 h0cur
        · rcases hzero with h | h
          · left
            intro hmem
            exact h ((hinv.1.mem_erase_iff).mp hmem).2
          · right
            rw [hstack] at h
            rcases List.mem_cons.mp h with h' | h'
            · exact absurd h' h0cur
            · exact List.mem_append.mpr (Or.inr h')

theorem collision_sets_length (c : Circuit) :
    (circuit_to_collision_sets c).length = c.gates.length := by
  unfold circuit_to_collision_sets
  simp

theorem collisionAdjB_bnd (c : Circuit) (a b : Nat)
    (h : collisionAdjB (circuit_to_collision_sets c) a b = true) :
    a < c.gates.length ∧ b < c.gates.length := by
  unfold collisionAdjB at h
  rw [Bool.or_eq_true, decide_eq_true_iff, decide_eq_true_iff] at h
  rcases h with h | h
  · have := (mem_collision_sets_getD c a b).mp h
    exact ⟨by omega, this.2.1⟩
  · have := (mem_collision_sets_getD c b a).mp h
    exact ⟨this.2.1, by omega⟩

theorem collisionAdjB_irr (c : Circuit) (x : Nat) :
    collisionAdjB (circuit_to_collision_sets c) x x = false := by
  unfold collisionAdjB
  simp only [Bool.or_eq_false_iff, decide_eq_false_iff_not]
  constructor <;>
    · intro h
      have := (mem_collision_sets_getD c x x).mp h
      omega

theorem collisionAdjB_symm (sets : List (List Nat)) (a b : Nat) :
    collisionAdjB sets a b = collisionAdjB sets b a := by
  unfold collisionAdjB
  exact Bool.or_comm _ _

theorem wcinv_init (n : Nat) (adjB : Nat → Nat → Bool) (hn : 0 < n) :
    WcInv n adjB ⟨List.range n, [], [0]⟩ := by
  refine ⟨?_, ?_, ?_, ?_, ?_, ?_, ?_, ?_, ?_⟩
  · exact List.nodup_range n
  · intro x hx
    exact List.mem_range.mp hx
  · intro x hx
    have : x = 0 := by simpa using hx
    omega
  · intro x hx
    exact absurd hx (List.not_mem_nil x)
  · exact List.nodup_nil
  · intro x hx
    have : x = 0 := by simpa using hx
    rw [this]
    exact Relation.ReflTransGen.refl
  · intro x hx
    exact absurd hx (List.not_mem_nil x)
  · intro x hlt hmem
    exact absurd (List.mem_range.mpr hlt) hmem
  · intro a b x hsplit hxmem
    have hlen := congrArg List.length hsplit
    simp only [List.length_cons, List.length_append] at hlen
    have ha : a = [] := by
      cases a with
      | nil => rfl
      | cons y t => simp at hlen; omega
    rw [ha, List.nil_append] at hsplit
    have hx0 : x = 0 := (List.cons.injEq _ _ _ _).mp hsplit.symm |>.1
    rw [hx0] at hxmem
    exact absurd (List.mem_range.mpr hn) hxmem

theorem wc_iff_general (sets : List (List Nat))
    (hirr2 : ∀ x, collisionAdjB sets x x = false)
    (hbnd2 : ∀ a b, collisionAdjB sets a b = true → a < sets.length ∧ b < sets.length)
    (hmpos : 0 < sets.length) :
    is_collisions_set_weakly_connected sets = true ↔
      componentsCount sets.length (collisionAdjB sets) = 1 := by
  have hinv0 : WcInv sets.length (collisionAdjB sets) ⟨List.range sets.length, [], [0]⟩ :=
    wcinv_init sets.length _ hmpos
  have hmeas : wcMeasure sets.length ⟨List.range sets.length, [], [0]⟩ ≤
      (sets.length + 2) * (sets.length + 1) + 1 := by
    unfold wcMeasure
    simp only [List.length_range, List.length_cons, List.length_nil]
    nlinarith
  have hsome := wc_loop_isSome sets.length (collisionAdjB sets) hirr2
    ((sets.length + 2) * (sets.length + 1) + 1) ⟨List.range sets.length, [], [0]⟩ hinv0 hmeas
  unfold is_collisions_set_weakly_connected
  cases hres : wc_loop sets.length (collisionAdjB sets)
      ((sets.length + 2) * (sets.length + 1) + 1) ⟨List.range sets.length, [], [0]⟩ with
  | none =>
    rw [hres] at hsome
    exact absurd hsome (by decide)
  | some b =>
    cases b with
    | true =>
      simp only [hres, Option.getD_some, true_iff]
      rw [componentsCount_eq_one_iff sets.length (collisionAdjB sets) hbnd2]
      exact ⟨hmpos,
        wc_loop_true_implies sets.length (collisionAdjB sets) hirr2 _ _ hinv0 hres⟩
    | false =>
      simp only [hres, Option.getD_some]
      constructor
      · intro h
        exact absurd h (by decide)
      · intro hcount
        obtain ⟨i, hilt, hnconn⟩ :=
          wc_loop_false_implies sets.length (collisionAdjB sets) hirr2 hbnd2
            _ _ hinv0 (Or.inr (List.mem_cons_self _ _)) hres
        have := (componentsCount_eq_one_iff sets.length (collisionAdjB sets) hbnd2).mp hcount
        exact absurd (this.2 i hilt) hnconn

/-- C8 (amended, for a nonempty circuit): the weak-connectedness predicate
returns `true` iff the undirected collision graph has exactly one connected
component. -/
theorem is_collisions_set_weakly_connected_iff (c : Circuit) (hne : c.gates ≠ []) :
    is_collisions_set_weakly_connected (circuit_to_collision_sets c) = true ↔
      componentsCount (circuit_to_collision_sets c).length
        (collisionAdjB (circuit_to_collision_sets c)) = 1 := by
  refine wc_iff_general (circuit_to_collision_sets c) (collisionAdjB_irr c) ?_ ?_
  · intro a b h
    have := collisionAdjB_bnd c a b h
    rw [collision_sets_length c]
    exact this
  · rw [collision_sets_length c]
    exact List.length_pos.mpr hne

/-- C8 (counterexample): on the empty circuit the predicate returns `true`
although the (empty) undirected collision graph has zero components, not
one. -/
theorem is_collisions_set_weakly_connected_empty :
    is_collisions_set_weakly_connected (circuit_to_collision_sets ⟨[], 3⟩) = true ∧
      componentsCount (circuit_to_collision_sets ⟨[], 3⟩).length
        (collisionAdjB (circuit_to_collision_sets ⟨[], 3⟩)) ≠ 1 := by
  constructor
  · rfl
  · decide

/-- C8 (witness): a concrete 2-gate circuit whose gates collide: the
predicate and the component count agree on it. -/
theorem is_collisions_set_weakly_connected_iff_witness :
    is_collisions_set_weakly_connected
        (circuit_to_collision_sets ⟨[⟨0, 0, 1, 2, 0⟩, ⟨1, 1, 0, 2, 0⟩], 3⟩) = true ↔
      componentsCount (circuit_to_collision_sets ⟨[⟨0, 0, 1, 2, 0⟩, ⟨1, 1, 0, 2, 0⟩], 3⟩).length
        (collisionAdjB (circuit_to_collision_sets ⟨[⟨0, 0, 1, 2, 0⟩, ⟨1, 1, 0, 2, 0⟩], 3⟩)) = 1 :=
  is_collisions_set_weakly_connected_iff ⟨[⟨0, 0, 1, 2, 0⟩, ⟨1, 1, 0, 2, 0⟩], 3⟩ (by decide)

/-! ## Convex subgraph finder, from `lib.rs` lines 575-841

The graph is given through its out-neighbour function `adj` (petgraph
`neighbors_directed(·, Outgoing)`) and in-neighbour function `padj`
(`Incoming`); iteration orders of `HashSet`s that influence the control flow
are explicit parameters (`pick` for the candidate selection of `blah`,
`enumS` for the source iteration), and the theorems quantify over them. -/

/-- The mutable state threaded through `dfs2` (lib.rs 575-625):
`visited_with_path`, `visited` and the recursion `path` stack (top at the
end, as in the Rust `Vec`). -/
structure Dfs2St where
  vwp : List Nat
  vis : List Nat
  path : List Nat
deriving Repr

mutual

/-- From `lib.rs` `dfs2` (lines 575-625), fuelled (the Rust recursion
terminates on the DAGs it is applied to; exhausted fuel is reported as a
break, i.e. `false`). -/
def dfs2 (adj : Nat → List Nat) (level : Nat → Nat) (breakWhen maxLevel : Nat) :
    Nat → Nat → Dfs2St → Bool × Dfs2St
  | 0, _, st => (false, st)
  | fuel + 1, cur, st =>
    if st.vwp.length > breakWhen then (false, st)
    else if cur ∈ st.vwp then
      (true, { st with vwp := st.path.foldl (fun a k => linsert k a) st.vwp })
    else if cur ∈ st.vis ∨ level cur ≥ maxLevel then (true, st)
    else
      match dfs2Loop adj level breakWhen maxLevel fuel (adj cur)
          { st with path := st.path ++ [cur] } with
      | (true, st2) =>
        (true, { st2 with path := st2.path.dropLast, vis := linsert cur st2.vis })
      | (false, st2) => (false, st2)
termination_by fuel _ _ => (fuel, 0)

/-- The `for v in graph.neighbors_directed(...)` loop of `dfs2` (lines
603-620), with its early `return false`. -/
def dfs2Loop (adj : Nat → List Nat) (level : Nat → Nat) (breakWhen maxLevel : Nat) :
    Nat → List Nat → Dfs2St → Bool × Dfs2St
  | _, [], st => (true, st)
  | fuel, v :: rest, st =>
    match dfs2 adj level breakWhen maxLevel fuel v st with
    | (true, stv) => dfs2Loop adj level breakWhen maxLevel fuel rest stv
    | (false, stv) => (false, stv)
termination_by fuel l _ => (fuel, l.length + 1)

end

/-- The `union_visited_with_path.retain(|n| !convex_set.contains(n))` and the
insertion of the retained nodes into the convex set (lib.rs 706-711). -/
def blahExtend (S vwp : List Nat) : List Nat :=
  (vwp.filter fun x => decide (x ∉ S)).foldl
    (fun acc x => if x ∈ acc then acc else acc ++ [x]) S

/-- From `lib.rs` `blah` (lines 627-720), fuelled.  `pick` models the
candidate selection (lines 638-677: iterate the convex set in `HashSet`
order, take the first outgoing neighbour not in the set); `enumS` models the
`HashSet` iteration order of the `for source in convex_set.iter()` loop
(lines 688-704). -/
def blah (adj : Nat → List Nat) (level : Nat → Nat)
    (pick : List Nat → Option Nat) (enumS : List Nat → List Nat) :
    Nat → Nat → Nat → List Nat → Bool × List Nat
  | 0, _, _, S => (false, S)
  | fuel + 1, dfsFuel, desire, S =>
    if S.length = desire then (true, S)
    else
      match pick S with
      | none => (false, S)
      | some cand =>
        match dfs2Loop adj level desire (level cand) dfsFuel (enumS S) ⟨[cand], [], []⟩ with
        | (true, st2) =>
          if (st2.vwp.filter fun x => decide (x ∉ S)).length + S.length ≤ desire then
            if (blahExtend S st2.vwp).length < desire then
              blah adj level pick enumS fuel dfsFuel desire (blahExtend S st2.vwp)
            else (true, blahExtend S st2.vwp)
          else (false, S)
        | (false, _) => (false, S)

/-- A concrete candidate selection: first outgoing neighbour outside the set,
scanning the set in its list order (one admissible `HashSet` order). -/
def pickFirst (adj : Nat → List Nat) (S : List Nat) : Option Nat :=
  S.findSome? fun s => (adj s).find? fun x => decide (x ∉ S)

/-- Bounded longest-path level: `levelB padj f v` is the length of the
longest predecessor chain of `v` of length at most `f`. -/
def levelB (padj : Nat → List Nat) : Nat → Nat → Nat
  | 0, _ => 0
  | fuel + 1, v => ((padj v).map fun u => levelB padj fuel u + 1).foldl max 0

/-- From `lib.rs` `graph_level` (lines 722-785).  The source computes
longest-path-from-source levels with a parallel work-stealing wavefront over
atomic in-degree counters; the concurrent schedule itself is not
representable in a shallow embedding, so the function is modelled by its
result (spec §4.3): `level v = 1 + max of predecessor levels`, obtained here
as the stabilised bounded recursion `levelB` (`N` iterations suffice on a
graph whose ranks are below `N`). -/
def graph_level (N : Nat) (padj : Nat → List Nat) (v : Nat) : Nat :=
  levelB padj N v

/-- From `lib.rs` `find_convex_fast` (lines 787-841): try seeds drawn from
the shuffled node pool (`seeds`, covering both the shuffle and the
worker-interleaving), run `blah` on the singleton `{seed}`, first success
wins.  The `assert!(convex_set.len() == ell_out)` of line 825 is proved,
not assumed, in `find_convex_fast_spec`. -/
def find_convex_fast (adj padj : Nat → List Nat) (N : Nat)
    (pick : List Nat → Option Nat) (enumS : List Nat → List Nat)
    (dfsFuel : Nat) (seeds : List Nat) (ell_out : Nat) :
    Option (Nat × List Nat) :=
  seeds.findSome? fun seed =>
    let r := blah adj (graph_level N padj) pick enumS (ell_out + 1) dfsFuel ell_out [seed]
    if r.1 then some (seed, r.2) else none

/-- `w`'s neighbours that can reach the candidate are already recorded in
`visited_with_path`. -/
def DfsClosed (adj : Nat → List Nat) (cand : Nat) (st : Dfs2St) (w : Nat) : Prop :=
  ∀ y ∈ adj w, Reaches adj y cand → y ∈ st.vwp

/-- The `dfs2` state invariant (relative to candidate `cand` and the convex
set `S0` whose members are the DFS sources). -/
def DfsInv (adj : Nat → List Nat) (cand : Nat) (S0 : List Nat) (st : Dfs2St) : Prop :=
  cand ∈ st.vwp ∧
  st.vwp.Nodup ∧
  (∀ w ∈ st.vis, Reaches adj w cand → w ∈ st.vwp) ∧
  (∀ w ∈ st.vis, DfsClosed adj cand st w) ∧
  (∀ w ∈ st.vwp, w ∉ st.path → DfsClosed adj cand st w) ∧
  (∀ w ∈ st.vwp, Reaches adj w cand) ∧
  (∀ w ∈ st.vwp, w = cand ∨ ∃ s ∈ S0, Reaches adj s w) ∧
  (∀ w ∈ st.path, ∃ s ∈ S0, Reaches adj s w)

/-- Precondition of a `dfs2` call on node `cur`. -/
def DfsPre (adj : Nat → List Nat) (cand : Nat) (S0 : List Nat) (cur : Nat)
    (st : Dfs2St) : Prop :=
  DfsInv adj cand S0 st ∧
  (∀ w ∈ st.path, ReachesPlus adj w cur) ∧
  (∃ s ∈ S0, Reaches adj s cur)

/-- Postcondition of a `dfs2` call returning `true`. -/
def DfsPost (adj : Nat → List Nat) (cand : Nat) (S0 : List Nat) (cur : Nat)
    (st out : Dfs2St) : Prop :=
  DfsInv adj cand S0 out ∧
  out.path = st.path ∧
  (∀ x ∈ st.vwp, x ∈ out.vwp) ∧
  (∀ x ∈ st.vis, x ∈ out.vis) ∧
  (Reaches adj cur cand → (cur ∈ out.vwp ∧ ∀ w ∈ st.path, w ∈ out.vwp)) ∧
  (cur ∈ out.vis ∨ cur ∈ out.vwp ∨ ¬ Reaches adj cur cand)

/-- Precondition of a `dfs2` neighbour loop over `l`. -/
def DfsPreL (adj : Nat → List Nat) (cand : Nat) (S0 : List Nat) (l : List Nat)
    (st : Dfs2St) : Prop :=
  DfsInv adj cand S0 st ∧
  ∀ v ∈ l, (∀ w ∈ st.path, ReachesPlus adj w v) ∧ (∃ s ∈ S0, Reaches adj s v)

/-- Postcondition of a `dfs2` neighbour loop over `l` returning `true`. -/
def DfsPostL (adj : Nat → List Nat) (cand : Nat) (S0 : List Nat) (l : List Nat)
    (st out : Dfs2St) : Prop :=
  DfsInv adj cand S0 out ∧
  out.path = st.path ∧
  (∀ x ∈ st.vwp, x ∈ out.vwp) ∧
  (∀ x ∈ st.vis, x ∈ out.vis) ∧
  ∀ v ∈ l, (Reaches adj v cand → (v ∈ out.vwp ∧ ∀ w ∈ st.path, w ∈ out.vwp)) ∧
    (v ∈ out.vis ∨ v ∈ out.vwp ∨ ¬ Reaches adj v cand)

theorem dfs2_post_transfer (adj : Nat → List Nat) (cand : Nat) (S0 : List Nat)
    (cur : Nat) (st : Dfs2St) (hpre : DfsPre adj cand S0 cur st) (hcur : cur ∈ st.vwp) :
    DfsPost adj cand S0 cur st
      { st with vwp := st.path.foldl (fun a k => linsert k a) st.vwp } := by
  obtain ⟨⟨hcand, hnd, hA, hBvis, hBvwp, hCr, hCf, hD⟩, hpath, hfrom⟩ := hpre
  have hmem : ∀ x, x ∈ st.path.foldl (fun a k => linsert k a) st.vwp ↔
      x ∈ st.vwp ∨ x ∈ st.path := fun x => mem_foldl_linsert st.path st.vwp x
  refine ⟨⟨(hmem cand).mpr (Or.inl hcand), nodup_foldl_linsert _ _ hnd, ?_, ?_, ?_, ?_, ?_, ?_⟩,
    rfl, ?_, ?_, ?_, ?_⟩
  · intro w hw hr
    exact (hmem w).mpr (Or.inl (hA w hw hr))
  · intro w hw y hy hr
    exact (hmem y).mpr (Or.inl (hBvis w hw y hy hr))
  · intro w hw hnp
    rcases (hmem w).mp hw with hwv | hwp
    · intro y hy hr
      exact (hmem y).mpr (Or.inl (hBvwp w hwv hnp y hy hr))
    · exact absurd hwp hnp
  · intro w hw
    rcases (hmem w).mp hw with hwv | hwp
    · exact hCr w hwv
    · exact Relation.ReflTransGen.trans
        (Relation.TransGen.to_reflTransGen (hpath w hwp)) (hCr cur hcur)
  · intro w hw
    rcases (hmem w).mp hw with hwv | hwp
    · exact hCf w hwv
    · exact Or.inr (hD w hwp)
  · exact hD
  · intro x hx
    exact (hmem x).mpr (Or.inl hx)
  · intro x hx
    exact hx
  · intro _
    exact ⟨(hmem cur).mpr (Or.inl hcur), fun w hw => (hmem w).mpr (Or.inr hw)⟩
  · exact Or.inr (Or.inl ((hmem cur).mpr (Or.inl hcur)))

theorem dfs2_post_skip (adj : Nat → List Nat) (level : Nat → Nat) (cand : Nat)
    (S0 : List Nat) (cur : Nat) (st : Dfs2St)
    (hlev : ∀ u v, v ∈ adj u → level u < level v)
    (hpre : DfsPre adj cand S0 cur st) (hnvwp : cur ∉ st.vwp)
    (hskip : cur ∈ st.vis ∨ level cur ≥ level cand) :
    DfsPost adj cand S0 cur st st := by
  obtain ⟨hinv, hpath, hfrom⟩ := hpre
  rcases hskip with hvis | hlvl
  · refine ⟨hinv, rfl, fun x h => h, fun x h => h, ?_, Or.inl hvis⟩
    intro hr
    exact absurd (hinv.2.2.1 cur hvis hr) hnvwp
  · have hnr : ¬ Reaches adj cur cand := by
      intro hr
      rcases Relation.reflTransGen_iff_eq_or_transGen.mp hr with heq | hplus
      · exact hnvwp (heq ▸ hinv.1)
      · have := reachesPlus_rank_lt adj level hlev cur cand hplus
        omega
    exact ⟨hinv, rfl, fun x h => h, fun x h => h,
      fun hr => absurd hr hnr, Or.inr (Or.inr hnr)⟩

theorem dfs2_post_main (adj : Nat → List Nat) (cand : Nat) (S0 : List Nat)
    (cur : Nat) (st st2 : Dfs2St)
    (hpre : DfsPre adj cand S0 cur st) (hnvwp : cur ∉ st.vwp)
    (hloop : DfsPostL adj cand S0 (adj cur) { st with path := st.path ++ [cur] } st2) :
    DfsPost adj cand S0 cur st
      { st2 with path := st2.path.dropLast, vis := linsert cur st2.vis } := by
  obtain ⟨⟨hcand, hnd, hA, hBvis, hBvwp, hCr, hCf, hD⟩, hpath, hfrom⟩ := hpre
  obtain ⟨⟨hcand2, hnd2, hA2, hBvis2, hBvwp2, hCr2, hCf2, hD2⟩,
    hpath2, hmvwp, hmvis, hproc⟩ := hloop
  have hdrop : st2.path.dropLast = st.path := by
    rw [hpath2]
    exact List.dropLast_concat
  have hcurproc : ∀ y ∈ adj cur, Reaches adj y cand → y ∈ st2.vwp := by
    intro y hy hr
    rcases (hproc y hy).2 with hv | hv | hnr
    · exact hA2 y hv hr
    · exact hv
    · exact absurd hr hnr
  have hcurvwp : Reaches adj cur cand → cur ∈ st2.vwp ∧ ∀ w ∈ st.path, w ∈ st2.vwp := by
    intro hr
    rcases Relation.ReflTransGen.cases_head hr with heq | ⟨y, hstep, hyr⟩
    · rw [heq] at hnvwp
      exact absurd hcand hnvwp
    · have := (hproc y hstep).1 hyr
      refine ⟨this.2 cur (by simp), ?_⟩
      intro w hw
      exact this.2 w (by simp [hw])
  refine ⟨⟨hcand2, hnd2, ?_, ?_, ?_, hCr2, hCf2, ?_⟩, hdrop, ?_, ?_, hcurvwp, ?_⟩
  · intro w hw hr
    rcases (mem_linsert cur w st2.vis).mp hw with rfl | hv
    · exact (hcurvwp hr).1
    · exact hA2 w hv hr
  · intro w hw y hy hr
    rcases (mem_linsert cur w st2.vis).mp hw with rfl | hv
    · exact hcurproc y hy hr
    · exact hBvis2 w hv y hy hr
  · intro w hw hnp
    rw [hdrop] at hnp
    by_cases hwc : w = cur
    · rw [hwc]
      intro y hy hr
      exact hcurproc y hy hr
    · refine hBvwp2 w hw ?_
      rw [hpath2]
      intro hmem
      rcases List.mem_append.mp hmem with h | h
      · exact hnp h
      · exact hwc (by simpa using h)
  · intro w hw
    rw [hdrop] at hw
    exact hD w hw
  · exact hmvwp
  · intro x hx
    exact (mem_linsert cur x st2.vis).mpr (Or.inr (hmvis x hx))
  · exact Or.inl ((mem_linsert cur cur st2.vis).mpr (Or.inl rfl))

theorem dfs2_spec (adj : Nat → List Nat) (level : Nat → Nat) (cand : Nat)
    (S0 : List Nat) (breakWhen : Nat)
    (hlev : ∀ u v, v ∈ adj u → level u < level v) :
    ∀ fuel,
      (∀ cur st out, DfsPre adj cand S0 cur st →
        dfs2 adj level breakWhen (level cand) fuel cur st = (true, out) →
        DfsPost adj cand S0 cur st out) ∧
      (∀ l st out, DfsPreL adj cand S0 l st →
        dfs2Loop adj level breakWhen (level cand) fuel l st = (true, out) →
        DfsPostL adj cand S0 l st out) := by
  intro fuel
  induction fuel with
  | zero =>
    constructor
    · intro cur st out _ heq
      rw [dfs2] at heq
      exact Bool.noConfusion (congrArg Prod.fst heq)
    · intro l st out hpre heq
      cases l with
      | nil =>
        rw [dfs2Loop] at heq
        have hout : out = st := (Prod.mk.injEq _ _ _ _).mp heq |>.2.symm
        rw [hout]
        exact ⟨hpre.1, rfl, fun x h => h, fun x h => h, fun v hv => absurd hv (List.not_mem_nil v)⟩
      | cons v rest =>
        rw [dfs2Loop, dfs2] at heq
        exact Bool.noConfusion (congrArg Prod.fst heq)
  | succ fuel ih =>
    have hP : ∀ cur st out, DfsPre adj cand S0 cur st →
        dfs2 adj level breakWhen (level cand) (fuel + 1) cur st = (true, out) →
        DfsPost adj cand S0 cur st out := by
      intro cur st out hpre heq
      rw [dfs2] at heq
      by_cases h1 : st.vwp.length > breakWhen
      · rw [if_pos h1] at heq
        exact Bool.noConfusion (congrArg Prod.fst heq)
      · rw [if_neg h1] at heq
        by_cases h2 : cur ∈ st.vwp
        · rw [if_pos h2] at heq
          have hout := (Prod.mk.injEq _ _ _ _).mp heq |>.2.symm
          rw [hout]
          exact dfs2_post_transfer adj cand S0 cur st hpre h2
        · rw [if_neg h2] at heq
          by_cases h3 : cur ∈ st.vis ∨ level cur ≥ level cand
          · rw [if_pos h3] at heq
            have hout := (Prod.mk.injEq _ _ _ _).mp heq |>.2.symm
            rw [hout]
            exact dfs2_post_skip adj level cand S0 cur st hlev hpre h2 h3
          · rw [if_neg h3] at heq
            cases hr : dfs2Loop adj level breakWhen (level cand) fuel (adj cur)
                { st with path := st.path ++ [cur] } with
            | mk b st2 =>
              rw [hr] at heq
              cases b with
              | false =>
                exact Bool.noConfusion (congrArg Prod.fst heq)
              | true =>
                have hout := (Prod.mk.injEq _ _ _ _).mp heq |>.2.symm
                rw [hout]
                have hpreL : DfsPreL adj cand S0 (adj cur)
                    { st with path := st.path ++ [cur] } := by
                  obtain ⟨⟨hcand, hnd, hA, hBvis, hBvwp, hCr, hCf, hD⟩, hpath, hfrom⟩ := hpre
                  refine ⟨⟨hcand, hnd, hA, hBvis, ?_, hCr, hCf, ?_⟩, ?_⟩
                  · intro w hw hnp
                    refine hBvwp w hw ?_
                    intro hmem
                    exact hnp (List.mem_append.mpr (Or.inl hmem))
                  · intro w hw
                    rcases List.mem_append.mp hw with h | h
                    · exact hD w h
                    · have : w = cur := by simpa using h
                      rw [this]
                      exact hfrom
                  · intro v hv
                    constructor
                    · intro w hw
                      rcases List.mem_append.mp hw with h | h
                      · exact Relation.TransGen.tail (hpath w h) hv
                      · have : w = cur := by simpa using h
                        rw [this]
                        exact Relation.TransGen.single hv
                    · obtain ⟨s, hs, hsr⟩ := hfrom
                      exact ⟨s, hs, Relation.ReflTransGen.tail hsr hv⟩
                exact dfs2_post_main adj cand S0 cur st st2 hpre h2 (ih.2 _ _ _ hpreL hr)
    refine ⟨hP, ?_⟩
    intro l
    induction l with
    | nil =>
      intro st out hpre heq
      rw [dfs2Loop] at heq
      have hout : out = st := (Prod.mk.injEq _ _ _ _).mp heq |>.2.symm
      rw [hout]
      exact ⟨hpre.1, rfl, fun x h => h, fun x h => h, fun v hv => absurd hv (List.not_mem_nil v)⟩
    | cons v rest ihl =>
      intro st out hpre heq
      rw [dfs2Loop] at heq
      cases hr : dfs2 adj level breakWhen (level cand) (fuel + 1) v st with
      | mk b stv =>
        rw [hr] at heq
        cases b with
        | false =>
          exact Bool.noConfusion (congrArg Prod.fst heq)
        | true =>
          have hpostv := hP v st stv
            ⟨hpre.1, (hpre.2 v (List.mem_cons_self _ _)).1, (hpre.2 v (List.mem_cons_self _ _)).2⟩ hr
          obtain ⟨hinv_v, hpath_v, hmvwp_v, hmvis_v, hreach_v, hproc_v⟩ := hpostv
          have hpreL' : DfsPreL adj cand S0 rest stv := by
            refine ⟨hinv_v, ?_⟩
            intro v' hv'
            rw [hpath_v]
            exact hpre.2 v' (List.mem_cons_of_mem _ hv')
          have hpostL := ihl stv out hpreL' heq
          obtain ⟨hinv', hpath', hmvwp', hmvis', hclauses'⟩ := hpostL
          refine ⟨hinv', by rw [hpath', hpath_v], fun x hx => hmvwp' x (hmvwp_v x hx),
            fun x hx => hmvis' x (hmvis_v x hx), ?_⟩
          intro v' hv'
          rcases List.mem_cons.mp hv' with rfl | hv'rest
          · constructor
            · intro hrch
              obtain ⟨hvin, hpsub⟩ := hreach_v hrch
              exact ⟨hmvwp' _ hvin, fun w hw => hmvwp' w (hpsub w hw)⟩
            · rcases hproc_v with h | h | h
              · exact Or.inl (hmvis' _ h)
              · exact Or.inr (Or.inl (hmvwp' _ h))
              · exact Or.inr (Or.inr h)
          · have := hclauses' v' hv'rest
            rw [hpath_v] at this
            exact this

/-- Reachability through nodes of `S` only (the target of each step lies in
`S`). -/
def ReachesIn (adj : Nat → List Nat) (S : List Nat) : Nat → Nat → Prop :=
  Relation.ReflTransGen fun u v => v ∈ adj u ∧ v ∈ S

theorem reachesIn_mono (adj : Nat → List Nat) (S S' : List Nat)
    (hss : ∀ x ∈ S, x ∈ S') (u v : Nat) (h : ReachesIn adj S u v) :
    ReachesIn adj S' u v := by
  induction h with
  | refl => exact Relation.ReflTransGen.refl
  | @tail x y hxy hstep ih =>
    exact Relation.ReflTransGen.tail ih ⟨hstep.1, hss y hstep.2⟩

theorem reachesIn_to_reaches (adj : Nat → List Nat) (S : List Nat) (u v : Nat)
    (h : ReachesIn adj S u v) : Reaches adj u v := by
  induction h with
  | refl => exact Relation.ReflTransGen.refl
  | @tail x y hxy hstep ih => exact Relation.ReflTransGen.tail ih hstep.1

theorem mem_foldl_appendInsert (l acc : List Nat) (y : Nat) :
    y ∈ l.foldl (fun acc x => if x ∈ acc then acc else acc ++ [x]) acc ↔
      y ∈ acc ∨ y ∈ l := by
  induction l generalizing acc with
  | nil => simp
  | cons x rest ih =>
    simp only [List.foldl_cons, ih, List.mem_cons]
    by_cases hx : x ∈ acc
    · rw [if_pos hx]
      constructor
      · rintro (h | h)
        · exact Or.inl h
        · exact Or.inr (Or.inr h)
      · rintro (h | rfl | h)
        · exact Or.inl h
        · exact Or.inl hx
        · exact Or.inr h
    · rw [if_neg hx]
      simp only [List.mem_append, List.mem_singleton]
      tauto

theorem nodup_foldl_appendInsert (l acc : List Nat) (h : acc.Nodup) :
    (l.foldl (fun acc x => if x ∈ acc then acc else acc ++ [x]) acc).Nodup := by
  induction l generalizing acc with
  | nil => exact h
  | cons x rest ih =>
    simp only [List.foldl_cons]
    by_cases hx : x ∈ acc
    · rw [if_pos hx]
      exact ih acc h
    · rw [if_neg hx]
      refine ih _ ?_
      rw [List.nodup_append]
      exact ⟨h, List.nodup_singleton x, by simpa using hx⟩

theorem length_foldl_appendInsert (l acc : List Nat) (hnd : l.Nodup)
    (hdisj : ∀ x ∈ l, x ∉ acc) :
    (l.foldl (fun acc x => if x ∈ acc then acc else acc ++ [x]) acc).length =
      acc.length + l.length := by
  induction l generalizing acc with
  | nil => simp
  | cons x rest ih =>
    simp only [List.foldl_cons]
    rw [if_neg (hdisj x (List.mem_cons_self _ _))]
    have hrest : ∀ y ∈ rest, y ∉ acc ++ [x] := by
      intro y hy hmem
      rcases List.mem_append.mp hmem with h | h
      · exact hdisj y (List.mem_cons_of_mem _ hy) h
      · have : y = x := by simpa using h
        rw [this] at hy
        exact (List.nodup_cons.mp hnd).1 hy
    rw [ih (acc ++ [x]) (List.nodup_cons.mp hnd).2 hrest]
    simp only [List.length_append, List.length_cons, List.length_nil]
    omega

theorem dfsinv_init (adj : Nat → List Nat) (level : Nat → Nat) (cand : Nat) (S0 : List Nat)
    (hlev : ∀ u v, v ∈ adj u → level u < level v) :
    DfsInv adj cand S0 ⟨[cand], [], []⟩ := by
  refine ⟨List.mem_singleton_self cand, List.nodup_singleton cand, ?_, ?_, ?_, ?_, ?_, ?_⟩
  · intro w hw
    exact absurd hw (List.not_mem_nil w)
  · intro w hw
    exact absurd hw (List.not_mem_nil w)
  · intro w hw _
    have hwc : w = cand := by simpa using hw
    rw [hwc]
    intro y hy hr
    rcases Relation.reflTransGen_iff_eq_or_transGen.mp hr with heq | hplus
    · simp [heq]
    · have h1 : level cand < level y := hlev cand y hy
      have h2 : level y < level cand := reachesPlus_rank_lt adj level hlev y cand hplus
      omega
  · intro w hw
    have hwc : w = cand := by simpa using hw
    rw [hwc]
    exact Relation.ReflTransGen.refl
  · intro w hw
    exact Or.inl (by simpa using hw)
  · intro w hw
    exact absurd hw (List.not_mem_nil w)

theorem dfs2_final_complete (adj : Nat → List Nat) (cand : Nat) (S0 : List Nat)
    (out : Dfs2St) (hinv : DfsInv adj cand S0 out) (hpath0 : out.path = [])
    (hproc : ∀ s ∈ S0, s ∈ out.vis ∨ s ∈ out.vwp ∨ ¬ Reaches adj s cand) :
    ∀ s ∈ S0, ∀ y, Reaches adj s y → Reaches adj y cand → y ∈ out.vwp := by
  obtain ⟨hcand, hnd, hA, hBvis, hBvwp, hCr, hCf, hD⟩ := hinv
  have hclosed : ∀ w, w ∈ out.vis ∨ w ∈ out.vwp →
      ∀ y ∈ adj w, Reaches adj y cand → y ∈ out.vwp := by
    intro w hw y hy hr
    rcases hw with h | h
    · exact hBvis w h y hy hr
    · exact hBvwp w h (by rw [hpath0]; exact List.not_mem_nil w) y hy hr
  intro s hs y hsy hyc
  have hmain : ∀ z, Reaches adj s z → Reaches adj z cand →
      (z ∈ out.vis ∨ z ∈ out.vwp) := by
    intro z hsz
    induction hsz with
    | refl =>
      intro hsc
      rcases hproc s hs with h | h | h
      · exact Or.inl h
      · exact Or.inr h
      · exact absurd hsc h
    | @tail a b hsa hab ih =>
      intro hbc
      have hac : Reaches adj a cand := Relation.ReflTransGen.trans
        (Relation.ReflTransGen.single hab) hbc
      exact Or.inr (hclosed a (ih hac) b hab hbc)
  rcases hmain y hsy hyc with h | h
  · exact hA y h hyc
  · exact h

theorem mem_blahExtend (S vwp : List Nat) (x : Nat) :
    x ∈ blahExtend S vwp ↔ x ∈ S ∨ (x ∈ vwp ∧ x ∉ S) := by
  unfold blahExtend
  rw [mem_foldl_appendInsert]
  constructor
  · rintro (h | h)
    · exact Or.inl h
    · have := List.mem_filter.mp h
      exact Or.inr ⟨this.1, by simpa using this.2⟩
  · rintro (h | ⟨h1, h2⟩)
    · exact Or.inl h
    · exact Or.inr (List.mem_filter.mpr ⟨h1, by simpa using h2⟩)

theorem blah_extend_spec (adj : Nat → List Nat) (S : List Nat) (cand seed : Nat)
    (st2 : Dfs2St)
    (hSnd : S.Nodup) (hconv : IsConvex adj S)
    (hseed : ∀ x ∈ S, ReachesIn adj S seed x)
    (hcand : cand ∉ S) (hcadj : ∃ s ∈ S, cand ∈ adj s)
    (hinv : DfsInv adj cand S st2)
    (hcomplete : ∀ s ∈ S, ∀ y, Reaches adj s y → Reaches adj y cand → y ∈ st2.vwp) :
    (blahExtend S st2.vwp).Nodup ∧
    (blahExtend S st2.vwp).length =
      S.length + (st2.vwp.filter fun x => decide (x ∉ S)).length ∧
    IsConvex adj (blahExtend S st2.vwp) ∧
    (∀ x ∈ S, x ∈ blahExtend S st2.vwp) ∧
    (∀ x ∈ blahExtend S st2.vwp, ReachesIn adj (blahExtend S st2.vwp) seed x) ∧
    cand ∈ blahExtend S st2.vwp := by
  obtain ⟨hcandv, hnd, hA, hBvis, hBvwp, hCr, hCf, hD⟩ := hinv
  have hWfrom : ∀ x, x ∈ st2.vwp → x ∉ S → ∃ s ∈ S, Reaches adj s x := by
    intro x hx hxS
    rcases hCf x hx with rfl | h
    · obtain ⟨s, hs, hadj⟩ := hcadj
      exact ⟨s, hs, Relation.ReflTransGen.single hadj⟩
    · exact h
  have hmemS' : ∀ x, x ∈ blahExtend S st2.vwp ↔ x ∈ S ∨ (x ∈ st2.vwp ∧ x ∉ S) :=
    mem_blahExtend S st2.vwp
  have hsub : ∀ x ∈ S, x ∈ blahExtend S st2.vwp := by
    intro x hx
    exact (hmemS' x).mpr (Or.inl hx)
  have hconv' : IsConvex adj (blahExtend S st2.vwp) := by
    intro u hu v hv z huz hzv
    rcases (hmemS' u).mp hu with huS | ⟨huv, huS⟩
    · rcases (hmemS' v).mp hv with hvS | ⟨hvv, hvS⟩
      · exact hsub z (hconv u huS v hvS z huz hzv)
      · have hzc : Reaches adj z cand :=
          Relation.ReflTransGen.trans hzv (hCr v hvv)
        have hzvwp : z ∈ st2.vwp := hcomplete u huS z huz hzc
        by_cases hzS : z ∈ S
        · exact hsub z hzS
        · exact (hmemS' z).mpr (Or.inr ⟨hzvwp, hzS⟩)
    · obtain ⟨s, hs, hsu⟩ := hWfrom u huv huS
      rcases (hmemS' v).mp hv with hvS | ⟨hvv, hvS⟩
      · exact absurd (hconv s hs v hvS u hsu (Relation.ReflTransGen.trans huz hzv)) huS
      · have hzc : Reaches adj z cand :=
          Relation.ReflTransGen.trans hzv (hCr v hvv)
        have hzvwp : z ∈ st2.vwp :=
          hcomplete s hs z (Relation.ReflTransGen.trans hsu huz) hzc
        by_cases hzS : z ∈ S
        · exact hsub z hzS
        · exact (hmemS' z).mpr (Or.inr ⟨hzvwp, hzS⟩)
  refine ⟨nodup_foldl_appendInsert _ _ hSnd, ?_, hconv', hsub, ?_, ?_⟩
  · unfold blahExtend
    rw [length_foldl_appendInsert _ _ (hnd.filter _) ?_]
    · intro x hx
      have := List.mem_filter.mp hx
      simpa using this.2
  · intro x hx
    rcases (hmemS' x).mp hx with hxS | ⟨hxv, hxS⟩
    · exact reachesIn_mono adj S _ hsub seed x (hseed x hxS)
    · obtain ⟨s, hs, hsx⟩ := hWfrom x hxv hxS
      have hxc : Reaches adj x cand := hCr x hxv
      have hin : ∀ y, Reaches adj s y → Reaches adj y cand →
          ReachesIn adj (blahExtend S st2.vwp) s y := by
        intro y hsy
        induction hsy with
        | refl =>
          intro _
          exact Relation.ReflTransGen.refl
        | @tail a b hsa hab ih =>
          intro hbc
          have hac : Reaches adj a cand :=
            Relation.ReflTransGen.trans (Relation.ReflTransGen.single hab) hbc
          have hbvwp : b ∈ st2.vwp :=
            hcomplete s hs b (Relation.ReflTransGen.tail hsa hab) hbc
          have hbmem : b ∈ blahExtend S st2.vwp := by
            by_cases hbS : b ∈ S
            · exact hsub b hbS
            · exact (hmemS' b).mpr (Or.inr ⟨hbvwp, hbS⟩)
          exact Relation.ReflTransGen.tail (ih hac) ⟨hab, hbmem⟩
      exact Relation.ReflTransGen.trans
        (reachesIn_mono adj S _ hsub seed s (hseed s hs)) (hin x hsx hxc)
  · exact (hmemS' cand).mpr (Or.inr ⟨hcandv, hcand⟩)

theorem blah_spec (adj : Nat → List Nat) (level : Nat → Nat)
    (pick : List Nat → Option Nat) (enumS : List Nat → List Nat)
    (hlev : ∀ u v, v ∈ adj u → level u < level v)
    (hpick : ∀ S c, pick S = some c → c ∉ S ∧ ∃ s ∈ S, c ∈ adj s)
    (henum : ∀ l x, x ∈ enumS l ↔ x ∈ l) (seed : Nat) :
    ∀ fuel dfsFuel desire S out,
      S.Nodup → IsConvex adj S → (∀ x ∈ S, ReachesIn adj S seed x) →
      blah adj level pick enumS fuel dfsFuel desire S = (true, out) →
      out.Nodup ∧ out.length = desire ∧ IsConvex adj out ∧
      (∀ x ∈ S, x ∈ out) ∧ (∀ x ∈ out, ReachesIn adj out seed x) := by
  intro fuel
  induction fuel with
  | zero =>
    intro dfsFuel desire S out _ _ _ heq
    rw [blah] at heq
    exact Bool.noConfusion (congrArg Prod.fst heq)
  | succ fuel ih =>
    intro dfsFuel desire S out hnd hconv hreach heq
    rw [blah] at heq
    by_cases hlen : S.length = desire
    · rw [if_pos hlen] at heq
      have hout : out = S := (Prod.mk.injEq _ _ _ _).mp heq |>.2.symm
      rw [hout]
      exact ⟨hnd, hlen, hconv, fun x h => h, hreach⟩
    · rw [if_neg hlen] at heq
      cases hp : pick S with
      | none =>
        simp only [hp] at heq
        exact Bool.noConfusion (congrArg Prod.fst heq)
      | some cand =>
        simp only [hp] at heq
        obtain ⟨hcand, hcadj⟩ := hpick S cand hp
        cases hre : dfs2Loop adj level desire (level cand) dfsFuel (enumS S)
            ⟨[cand], [], []⟩ with
        | mk b st2 =>
          simp only [hre] at heq
          cases b with
          | false => exact Bool.noConfusion (congrArg Prod.fst heq)
          | true =>
            have hpreL : DfsPreL adj cand S (enumS S) ⟨[cand], [], []⟩ := by
              refine ⟨dfsinv_init adj level cand S hlev, ?_⟩
              intro v hv
              refine ⟨?_, ⟨v, (henum S v).mp hv, Relation.ReflTransGen.refl⟩⟩
              intro w hw
              exact absurd hw (List.not_mem_nil w)
            have hpostL := (dfs2_spec adj level cand S desire hlev dfsFuel).2
              (enumS S) ⟨[cand], [], []⟩ st2 hpreL hre
            obtain ⟨hinv2, hpath2, _, _, hclauses⟩ := hpostL
            have hcomplete := dfs2_final_complete adj cand S st2 hinv2 hpath2 ?_
            · have hext := blah_extend_spec adj S cand seed st2 hnd hconv hreach
                hcand hcadj hinv2 hcomplete
              obtain ⟨hnd', hlen', hconv', hsub', hreach', hcandmem'⟩ := hext
              dsimp only at heq
              by_cases hle : (st2.vwp.filter fun x => decide (x ∉ S)).length + S.length ≤ desire
              · rw [if_pos hle] at heq
                by_cases hlt : (blahExtend S st2.vwp).length < desire
                · rw [if_pos hlt] at heq
                  have := ih dfsFuel desire (blahExtend S st2.vwp) out hnd' hconv' hreach' heq
                  exact ⟨this.1, this.2.1, this.2.2.1,
                    fun x hx => this.2.2.2.1 x (hsub' x hx), this.2.2.2.2⟩
                · rw [if_neg hlt] at heq
                  have hout : out = blahExtend S st2.vwp :=
                    (Prod.mk.injEq _ _ _ _).mp heq |>.2.symm
                  rw [hout]
                  refine ⟨hnd', ?_, hconv', hsub', hreach'⟩
                  omega
              · rw [if_neg hle] at heq
                exact Bool.noConfusion (congrArg Prod.fst heq)
            · intro s hs
              have := (hclauses s ((henum S s).mpr hs)).2
              exact this

theorem le_foldl_max (l : List Nat) (a : Nat) : a ≤ l.foldl max a := by
  induction l generalizing a with
  | nil => exact le_rfl
  | cons x rest ih => exact le_trans (le_max_left a x) (ih (max a x))

theorem mem_le_foldl_max (l : List Nat) (a x : Nat) (h : x ∈ l) : x ≤ l.foldl max a := by
  induction l generalizing a with
  | nil => exact absurd h (List.not_mem_nil x)
  | cons y rest ih =>
    rcases List.mem_cons.mp h with rfl | hrest
    · exact le_trans (le_max_right a x) (le_foldl_max rest (max a x))
    · exact ih (max a y) hrest

theorem foldl_max_le (l : List Nat) (a c : Nat) (ha : a ≤ c) (h : ∀ x ∈ l, x ≤ c) :
    l.foldl max a ≤ c := by
  induction l generalizing a with
  | nil => exact ha
  | cons x rest ih =>
    exact ih (max a x) (max_le ha (h x (List.mem_cons_self _ _)))
      (fun y hy => h y (List.mem_cons_of_mem _ hy))

theorem levelB_mono_fuel (padj : Nat → List Nat) :
    ∀ f v, levelB padj f v ≤ levelB padj (f + 1) v := by
  intro f
  induction f with
  | zero =>
    intro v
    exact Nat.zero_le _
  | succ g ih =>
    intro v
    show ((padj v).map fun u => levelB padj g u + 1).foldl max 0 ≤
      ((padj v).map fun u => levelB padj (g + 1) u + 1).foldl max 0
    refine foldl_max_le _ _ _ (Nat.zero_le _) ?_
    intro x hx
    obtain ⟨u, hu, rfl⟩ := List.mem_map.mp hx
    calc levelB padj g u + 1 ≤ levelB padj (g + 1) u + 1 := by
          have := ih u
          omega
      _ ≤ _ := mem_le_foldl_max _ _ _ (List.mem_map.mpr ⟨u, hu, rfl⟩)

theorem levelB_stab (padj : Nat → List Nat) (rho : Nat → Nat)
    (hrho : ∀ v u, u ∈ padj v → rho u < rho v) :
    ∀ g v, rho v ≤ g → levelB padj (g + 1) v = levelB padj g v := by
  intro g
  induction g with
  | zero =>
    intro v hv
    have hempty : padj v = [] := by
      rw [List.eq_nil_iff_forall_not_mem]
      intro u hu
      have := hrho v u hu
      omega
    show ((padj v).map fun u => levelB padj 0 u + 1).foldl max 0 = 0
    rw [hempty]
    rfl
  | succ g ih =>
    intro v hv
    show ((padj v).map fun u => levelB padj (g + 1) u + 1).foldl max 0 =
      ((padj v).map fun u => levelB padj g u + 1).foldl max 0
    have : ((padj v).map fun u => levelB padj (g + 1) u + 1) =
        ((padj v).map fun u => levelB padj g u + 1) := by
      refine List.map_congr_left ?_
      intro u hu
      have hru : rho u ≤ g := by
        have := hrho v u hu
        omega
      rw [ih u hru]
    rw [this]

theorem graph_level_strict (adj padj : Nat → List Nat) (N : Nat) (rho : Nat → Nat)
    (hcoh : ∀ u v, v ∈ adj u ↔ u ∈ padj v)
    (hrho : ∀ u v, v ∈ adj u → rho u < rho v)
    (hbnd : ∀ u v, v ∈ adj u → u < N ∧ v < N)
    (hrhobnd : ∀ v, v < N → rho v < N) :
    ∀ u v, v ∈ adj u → graph_level N padj u < graph_level N padj v := by
  intro u v huv
  have hNpos : 0 < N := by
    have := (hbnd u v huv).1
    omega
  obtain ⟨M, hM⟩ : ∃ M, N = M + 1 := ⟨N - 1, by omega⟩
  have hrho' : ∀ w x, x ∈ padj w → rho x < rho w := by
    intro w x hx
    exact hrho x w ((hcoh x w).mpr hx)
  have hstabu : levelB padj (M + 1) u = levelB padj M u := by
    refine levelB_stab padj rho hrho' M u ?_
    have h1 := hrhobnd u (hbnd u v huv).1
    omega
  have hlow : levelB padj M u + 1 ≤ levelB padj (M + 1) v := by
    show levelB padj M u + 1 ≤ ((padj v).map fun w => levelB padj M w + 1).foldl max 0
    exact mem_le_foldl_max _ _ _ (List.mem_map.mpr ⟨u, (hcoh u v).mp huv, rfl⟩)
  unfold graph_level
  rw [hM]
  omega

theorem pickFirst_spec (adj : Nat → List Nat) (S : List Nat) (c : Nat)
    (h : pickFirst adj S = some c) : c ∉ S ∧ ∃ s ∈ S, c ∈ adj s := by
  unfold pickFirst at h
  obtain ⟨s, hs, hfind⟩ := List.exists_of_findSome?_eq_some h
  have h1 := List.find?_some hfind
  have h2 := List.mem_of_find?_eq_some hfind
  exact ⟨by simpa using h1, ⟨s, hs, h2⟩⟩

/-- C2: whenever `find_convex_fast` returns `Some (start, S)` on a DAG (here
witnessed by the rank function `rho`), the set `S` has exactly `ell_out`
elements and is convex; moreover every member of `S` is reachable from
`start` through nodes of `S` (the property `local_mixing_step` relies on when
topologically sorting the subcircuit from `start`). -/
theorem find_convex_fast_spec (adj padj : Nat → List Nat) (N : Nat) (rho : Nat → Nat)
    (pick : List Nat → Option Nat) (enumS : List Nat → List Nat)
    (hcoh : ∀ u v, v ∈ adj u ↔ u ∈ padj v)
    (hrho : ∀ u v, v ∈ adj u → rho u < rho v)
    (hbnd : ∀ u v, v ∈ adj u → u < N ∧ v < N)
    (hrhobnd : ∀ v, v < N → rho v < N)
    (hpick : ∀ S c, pick S = some c → c ∉ S ∧ ∃ s ∈ S, c ∈ adj s)
    (henum : ∀ l x, x ∈ enumS l ↔ x ∈ l)
    (dfsFuel : Nat) (seeds : List Nat) (ell_out : Nat) (start : Nat) (S : List Nat)
    (hres : find_convex_fast adj padj N pick enumS dfsFuel seeds ell_out
      = some (start, S)) :
    S.length = ell_out ∧ S.Nodup ∧ IsConvex adj S ∧ start ∈ S ∧
      (∀ x ∈ S, ReachesIn adj S start x) := by
  have hlev : ∀ u v, v ∈ adj u → graph_level N padj u < graph_level N padj v :=
    graph_level_strict adj padj N rho hcoh hrho hbnd hrhobnd
  unfold find_convex_fast at hres
  obtain ⟨seed, hseed, hif⟩ := List.exists_of_findSome?_eq_some hres
  by_cases hb : (blah adj (graph_level N padj) pick enumS (ell_out + 1) dfsFuel
      ell_out [seed]).1
  · rw [if_pos hb] at hif
    have hpair := Option.some.inj hif
    have hstart : seed = start := congrArg Prod.fst hpair
    have hS : (blah adj (graph_level N padj) pick enumS (ell_out + 1) dfsFuel
        ell_out [seed]).2 = S := congrArg Prod.snd hpair
    have hblah : blah adj (graph_level N padj) pick enumS (ell_out + 1) dfsFuel
        ell_out [seed] = (true, S) := by
      rw [← hS]
      exact (Prod.mk.injEq _ _ _ _).mpr ⟨hb, rfl⟩ |>.symm ▸ (Prod.mk.eta).symm ▸ rfl
    have hsingle_conv : IsConvex adj [seed] := by
      intro u hu v hv z huz hzv
      have hu' : u = seed := by simpa using hu
      have hv' : v = seed := by simpa using hv
      rw [hu'] at huz
      rw [hv'] at hzv
      by_cases hz : z = seed
      · simp [hz]
      · exfalso
        rcases Relation.reflTransGen_iff_eq_or_transGen.mp huz with heq | hplus
        · exact hz heq
        · have h1 := reachesPlus_rank_lt adj _ hlev seed z hplus
          have h2 := reaches_rank_le adj _ hlev z seed hzv
          omega
    have hspec := blah_spec adj (graph_level N padj) pick enumS hlev hpick henum seed
      (ell_out + 1) dfsFuel ell_out [seed] S (List.nodup_singleton seed) hsingle_conv
      (by
        intro x hx
        have : x = seed := by simpa using hx
        rw [this]
        exact Relation.ReflTransGen.refl) hblah
    obtain ⟨hnd, hlen, hconv, hsub, hreach⟩ := hspec
    rw [← hstart]
    exact ⟨hlen, hnd, hconv, hsub seed (List.mem_singleton_self seed), hreach⟩
  · rw [if_neg hb] at hif
    exact Option.noConfusion hif

/-- A concrete 3-node chain graph `0 → 1 → 2` used to witness the convex
finder specification. -/
def cvxAdjI : Nat → List Nat := fun u => if u = 0 then [1] else if u = 1 then [2] else []

/-- In-neighbours of `cvxAdjI`. -/
def cvxPadjI : Nat → List Nat := fun v => if v = 1 then [0] else if v = 2 then [1] else []

/-- C2 (witness): on the 3-node chain, `find_convex_fast` returns the convex
set `{0, 1}` of the requested size 2. -/
theorem find_convex_fast_spec_witness :
    ([0, 1] : List Nat).length = 2 ∧ ([0, 1] : List Nat).Nodup ∧
      IsConvex cvxAdjI [0, 1] ∧ 0 ∈ ([0, 1] : List Nat) ∧
      (∀ x ∈ ([0, 1] : List Nat), ReachesIn cvxAdjI [0, 1] 0 x) :=
  find_convex_fast_spec cvxAdjI cvxPadjI 3 (fun v => v) (pickFirst cvxAdjI) id
    (by
      intro u v
      unfold cvxAdjI cvxPadjI
      split_ifs <;> simp_all)
    (by
      intro u v
      unfold cvxAdjI
      split_ifs <;> simp_all)
    (by
      intro u v
      unfold cvxAdjI
      split_ifs <;> simp_all)
    (fun v hv => hv)
    (fun S c h => pickFirst_spec cvxAdjI S c h)
    (fun l x => Iff.rfl)
    10 [0] 2 0 [0, 1]
    (by
      simp [find_convex_fast, blah, dfs2, dfs2Loop, pickFirst, graph_level, levelB,
        blahExtend, linsert, cvxAdjI, cvxPadjI])

/-! ## Replacement search, from `lib.rs` lines 335-546

The per-candidate acceptance test is shared by `find_replacement_circuit`
(with `WC = true`, lines 376-422) and by the monomorphised fast path
`find_replacement_circuit_fast::inner` (lines 496-536): the candidate must
match the truth table of `C_out` on all `2^ω` inputs, differ from `C_out`,
and have a weakly connected collision set.  The randomly sampled candidates
(and the division of the iteration budget among workers) are modelled by the
explicit stream `candidates`; the per-worker shuffle of the truth table only
permutes the rows checked and cannot change the acceptance result. -/

def replacement_check (cOut cand : Circuit) : Bool :=
  ((List.range (2 ^ cOut.n)).all fun i =>
      cand.run (value_to_inputs cOut.n i) == cOut.run (value_to_inputs cOut.n i))
    && !(cand == cOut)
    && is_collisions_set_weakly_connected (circuit_to_collision_sets cand)

/-- The sampling loop: first candidate passing `replacement_check` wins,
`none` after the budget (the stream's length). -/
def find_replacement_circuit_fast (cOut : Circuit) (candidates : List Circuit) :
    Option Circuit :=
  candidates.find? (replacement_check cOut)

/-- From `lib.rs` lines 453-464: the `match n` dispatch of
`find_replacement_circuit_fast`; the outer `none` models the
`unimplemented!()` panic taken for every active-wire count outside
`{3, …, 11}`. -/
def find_replacement_circuit_fast_dispatch (cOut : Circuit) (n : Nat)
    (candidates : List Circuit) : Option (Option Circuit) :=
  if 3 ≤ n ∧ n ≤ 11 then some (find_replacement_circuit_fast cOut candidates) else none

/-- The little-endian numeric value of a bit vector (inverse of
`value_to_inputs`). -/
def bitsToNat : List Bool → Nat
  | [] => 0
  | b :: rest => (if b then 1 else 0) + 2 * bitsToNat rest

theorem value_to_inputs_succ (n v : Nat) :
    value_to_inputs (n + 1) v = ((v % 2 == 1) :: value_to_inputs n (v / 2)) := by
  unfold value_to_inputs
  rw [List.range_succ_eq_map, List.map_cons, List.map_map]
  rw [List.cons.injEq]
  constructor
  · rw [Nat.shiftRight_zero]
  · refine List.map_congr_left ?_
    intro i _
    have hsh : v >>> (i + 1) = (v / 2) >>> i := by
      rw [Nat.add_comm i 1, Nat.shiftRight_add, Nat.shiftRight_one]
    show ((v >>> (i + 1)) % 2 == 1) = (((v / 2) >>> i) % 2 == 1)
    rw [hsh]

theorem value_to_inputs_bitsToNat (x : List Bool) :
    value_to_inputs x.length (bitsToNat x) = x ∧ bitsToNat x < 2 ^ x.length := by
  induction x with
  | nil =>
    constructor
    · rfl
    · decide
  | cons b rest ih =>
    constructor
    · rw [List.length_cons, value_to_inputs_succ]
      have h2 : bitsToNat (b :: rest) / 2 = bitsToNat rest := by
        show ((if b then 1 else 0) + 2 * bitsToNat rest) / 2 = bitsToNat rest
        cases b with
        | false =>
          show (0 + 2 * bitsToNat rest) / 2 = bitsToNat rest
          omega
        | true =>
          show (1 + 2 * bitsToNat rest) / 2 = bitsToNat rest
          omega
      have h1 : (bitsToNat (b :: rest) % 2 == 1) = b := by
        show (((if b then 1 else 0) + 2 * bitsToNat rest) % 2 == 1) = b
        cases b <;> · simp [Nat.mul_mod_right, Nat.add_mul_mod_self_left]
      rw [h2, h1, ih.1]
    · have hb := ih.2
      rw [List.length_cons, pow_succ]
      show ((if b then 1 else 0) + 2 * bitsToNat rest) < 2 ^ rest.length * 2
      cases b with
      | false =>
        show (0 + 2 * bitsToNat rest) < 2 ^ rest.length * 2
        omega
      | true =>
        show (1 + 2 * bitsToNat rest) < 2 ^ rest.length * 2
        omega

/-- C3 (amended): whenever the replacement search returns `Some cIn`, then
(a) `cIn` computes the same function as `cOut` on every `ω`-bit input,
(b) `cIn` differs from `cOut` as a gate sequence, and (c) provided `cIn` is
nonempty (`ℓ_in ≥ 1`) its collision graph has exactly one undirected
component. -/
theorem find_replacement_circuit_fast_spec (cOut : Circuit) (cands : List Circuit)
    (cIn : Circuit) (hres : find_replacement_circuit_fast cOut cands = some cIn) :
    (∀ x : List Bool, x.length = cOut.n → cIn.run x = cOut.run x) ∧
    cIn ≠ cOut ∧
    (cIn.gates ≠ [] →
      componentsCount (circuit_to_collision_sets cIn).length
        (collisionAdjB (circuit_to_collision_sets cIn)) = 1) := by
  unfold find_replacement_circuit_fast at hres
  have hcheck : replacement_check cOut cIn = true := List.find?_some hres
  unfold replacement_check at hcheck
  rw [Bool.and_eq_true, Bool.and_eq_true] at hcheck
  obtain ⟨⟨hall, hne⟩, hwc⟩ := hcheck
  refine ⟨?_, ?_, ?_⟩
  · intro x hx
    have hrt := value_to_inputs_bitsToNat x
    rw [hx] at hrt
    have hmem : bitsToNat x ∈ List.range (2 ^ cOut.n) := List.mem_range.mpr hrt.2
    have := (List.all_eq_true.mp hall) (bitsToNat x) hmem
    rw [beq_iff_eq] at this
    rw [← hrt.1]
    exact this
  · intro heq
    rw [heq] at hne
    simp at hne
  · intro hgne
    exact (is_collisions_set_weakly_connected_iff cIn hgne).mp hwc

/-- C3 (counterexample): with `ℓ_in = 0` the search can return the empty
circuit (here for a `C_out` that computes the identity), whose collision
graph has zero undirected components, not one. -/
theorem find_replacement_circuit_fast_empty :
    find_replacement_circuit_fast ⟨[⟨0, 0, 1, 2, 0⟩, ⟨1, 0, 1, 2, 0⟩], 3⟩ [⟨[], 3⟩]
        = some ⟨[], 3⟩ ∧
      componentsCount (circuit_to_collision_sets (⟨[], 3⟩ : Circuit)).length
        (collisionAdjB (circuit_to_collision_sets (⟨[], 3⟩ : Circuit))) ≠ 1 := by
  constructor
  · rfl
  · decide

/-- C3 (witness): a 3-gate candidate over 5 wires equivalent to, and
different from, the given `C_out`, with a weakly connected collision set. -/
theorem find_replacement_circuit_fast_spec_witness :
    (∀ x : List Bool,
        x.length = (Circuit.mk [⟨0, 0, 1, 3, 0⟩, ⟨1, 3, 2, 4, 0⟩, ⟨2, 3, 2, 4, 0⟩] 5).n →
        (Circuit.mk [⟨0, 0, 1, 3, 0⟩, ⟨1, 1, 0, 4, 0⟩, ⟨2, 1, 0, 4, 0⟩] 5).run x =
          (Circuit.mk [⟨0, 0, 1, 3, 0⟩, ⟨1, 3, 2, 4, 0⟩, ⟨2, 3, 2, 4, 0⟩] 5).run x) ∧
    (Circuit.mk [⟨0, 0, 1, 3, 0⟩, ⟨1, 1, 0, 4, 0⟩, ⟨2, 1, 0, 4, 0⟩] 5) ≠
      (Circuit.mk [⟨0, 0, 1, 3, 0⟩, ⟨1, 3, 2, 4, 0⟩, ⟨2, 3, 2, 4, 0⟩] 5) ∧
    ((Circuit.mk [⟨0, 0, 1, 3, 0⟩, ⟨1, 1, 0, 4, 0⟩, ⟨2, 1, 0, 4, 0⟩] 5).gates ≠ [] →
      componentsCount (circuit_to_collision_sets
          (Circuit.mk [⟨0, 0, 1, 3, 0⟩, ⟨1, 1, 0, 4, 0⟩, ⟨2, 1, 0, 4, 0⟩] 5)).length
        (collisionAdjB (circuit_to_collision_sets
          (Circuit.mk [⟨0, 0, 1, 3, 0⟩, ⟨1, 1, 0, 4, 0⟩, ⟨2, 1, 0, 4, 0⟩] 5))) = 1) :=
  find_replacement_circuit_fast_spec
    (Circuit.mk [⟨0, 0, 1, 3, 0⟩, ⟨1, 3, 2, 4, 0⟩, ⟨2, 3, 2, 4, 0⟩] 5)
    [Circuit.mk [⟨0, 0, 1, 3, 0⟩, ⟨1, 1, 0, 4, 0⟩, ⟨2, 1, 0, 4, 0⟩] 5]
    (Circuit.mk [⟨0, 0, 1, 3, 0⟩, ⟨1, 1, 0, 4, 0⟩, ⟨2, 1, 0, 4, 0⟩] 5)
    (by decide)

/-! ## The splice operation of `local_mixing_step`, from `lib.rs` lines 1061-1227

Graph nodes are identified by their gate ids (stable across splices); this
abstracts petgraph's internal index reuse, which the source itself argues is
safe only because `C_in` is inserted before `C_out` is removed (comment at
lines 1218-1220). -/

/-- The working skeleton graph: gate-id nodes plus directed edges. -/
structure GGraph where
  nodes : List Nat
  edges : List (Nat × Nat)
deriving DecidableEq, Repr

/-- Out-neighbours (`neighbors_directed(·, Outgoing)`). -/
def gadj (G : GGraph) (u : Nat) : List Nat :=
  (G.edges.filter fun e => e.1 == u).map Prod.snd

/-- In-neighbours (`neighbors_directed(·, Incoming)`). -/
def gpadj (G : GGraph) (v : Nat) : List Nat :=
  (G.edges.filter fun e => e.2 == v).map Prod.fst

theorem mem_gadj (G : GGraph) (u v : Nat) : v ∈ gadj G u ↔ (u, v) ∈ G.edges := by
  unfold gadj
  constructor
  · intro h
    obtain ⟨e, he, hsnd⟩ := List.mem_map.mp h
    have := List.mem_filter.mp he
    have h1 : e.1 = u := by simpa using this.2
    have : e = (u, v) := by
      rw [Prod.ext_iff]
      exact ⟨h1, hsnd⟩
    rw [← this]
    exact (List.mem_filter.mp he).1
  · intro h
    exact List.mem_map.mpr ⟨(u, v), List.mem_filter.mpr ⟨h, by simp⟩, rfl⟩

theorem mem_gpadj (G : GGraph) (u v : Nat) : u ∈ gpadj G v ↔ (u, v) ∈ G.edges := by
  unfold gpadj
  constructor
  · intro h
    obtain ⟨e, he, hfst⟩ := List.mem_map.mp h
    have := List.mem_filter.mp he
    have h2 : e.2 = v := by simpa using this.2
    have : e = (u, v) := by
      rw [Prod.ext_iff]
      exact ⟨hfst, h2⟩
    rw [← this]
    exact (List.mem_filter.mp he).1
  · intro h
    exact List.mem_map.mpr ⟨(u, v), List.mem_filter.mpr ⟨h, by simp⟩, rfl⟩

mutual

/-- From `lib.rs` `dfs` (lines 548-573), fuelled.  In the splice it is always
called with an empty `visited_with_path`, which therefore never grows. -/
def dfsR (adj : Nat → List Nat) : Nat → Nat → Dfs2St → Dfs2St
  | 0, _, st => st
  | fuel + 1, cur, st =>
    if cur ∈ st.vwp then { st with vwp := st.path.foldl (fun a k => linsert k a) st.vwp }
    else if cur ∈ st.vis then st
    else
      match dfsRLoop adj fuel (adj cur) { st with path := st.path ++ [cur] } with
      | st2 => { st2 with path := st2.path.dropLast, vis := linsert cur st2.vis }
termination_by fuel _ _ => (fuel, 0)

/-- The neighbour loop of `dfs`. -/
def dfsRLoop (adj : Nat → List Nat) : Nat → List Nat → Dfs2St → Dfs2St
  | _, [], st => st
  | fuel, v :: rest, st => dfsRLoop adj fuel rest (dfsR adj fuel v st)
termination_by fuel l _ => (fuel, l.length + 1)

end

/-- The accumulated `visited` set of running `dfs` from each start in turn
with a shared `visited` set (lib.rs 1112-1121 / 1147-1157). -/
def dfsAll (adj : Nat → List Nat) (fuel : Nat) (starts : List Nat) : List Nat :=
  (starts.foldl (fun st p => dfsR adj fuel p st) ⟨[], [], []⟩).vis

/-- Immediate predecessors of the convex set (lib.rs 1064-1078). -/
def immPreds (G : GGraph) (S : List Nat) : List Nat :=
  G.nodes.filter fun p => decide (p ∉ S) && decide (∃ s ∈ S, (p, s) ∈ G.edges)

/-- Immediate successors of the convex set (lib.rs 1064-1078). -/
def immSuccs (G : GGraph) (S : List Nat) : List Nat :=
  G.nodes.filter fun q => decide (q ∉ S) && decide (∃ s ∈ S, (s, q) ∈ G.edges)

/-- Edges from each source into the colliding gates of `C_in`
(lib.rs 1123-1141 and 1197-1212). -/
def colliding_edges_from (gateOf : Nat → BaseGate) (newIds : List Nat)
    (cinGates : List BaseGate) (srcs : List Nat) : List (Nat × Nat) :=
  srcs.flatMap fun p => (newIds.zip cinGates).filterMap fun nc =>
    if (gateOf p).check_collision nc.2 then some (p, nc.1) else none

/-- Edges from the colliding gates of `C_in` to each successor
(lib.rs 1159-1176). -/
def colliding_edges_to (gateOf : Nat → BaseGate) (newIds : List Nat)
    (cinGates : List BaseGate) (dsts : List Nat) : List (Nat × Nat) :=
  dsts.flatMap fun q => (newIds.zip cinGates).filterMap fun nc =>
    if (gateOf q).check_collision nc.2 then some (nc.1, q) else none

/-- The internal collision edges of `C_in` (lib.rs 1091-1096). -/
def cin_internal_edges (newIds : List Nat) (cinCollisions : List (List Nat)) :
    List (Nat × Nat) :=
  (List.range newIds.length).flatMap fun i =>
    (cinCollisions.getD i []).map fun j => (newIds.getD i 0, newIds.getD j 0)

/-- The `predecessors` set of the splice: the shared `visited` set after
running `dfs` in direction `Incoming` from every immediate predecessor
(lib.rs 1110-1121). -/
def predsOf (G : GGraph) (S : List Nat) (fuel : Nat) : List Nat :=
  dfsAll (gpadj G) fuel (immPreds G S)

/-- The `successors` set of the splice: `dfs` in direction `Outgoing` from
every immediate successor (lib.rs 1146-1157). -/
def succsOf (G : GGraph) (S : List Nat) (fuel : Nat) : List Nat :=
  dfsAll (gadj G) fuel (immSuccs G S)

/-- The `outsiders`: nodes in neither closure, outside `S` and outside
`C_in` (lib.rs 1185-1192). -/
def outsidersOf (G : GGraph) (S newIds : List Nat) (fuel : Nat) : List Nat :=
  G.nodes.filter fun x =>
    decide (x ∉ predsOf G S fuel) && decide (x ∉ succsOf G S fuel) &&
    decide (x ∉ S) && decide (x ∉ newIds)

/-- All edges inserted by the splice (`new_edges`, lib.rs 1091-1212). -/
def spliceNewEdges (G : GGraph) (S newIds : List Nat) (cinGates : List BaseGate)
    (cinCollisions : List (List Nat)) (gateOf : Nat → BaseGate) (fuel : Nat) :
    List (Nat × Nat) :=
  cin_internal_edges newIds cinCollisions
    ++ colliding_edges_from gateOf newIds cinGates (predsOf G S fuel)
    ++ colliding_edges_to gateOf newIds cinGates (succsOf G S fuel)
    ++ colliding_edges_from gateOf newIds cinGates (outsidersOf G S newIds fuel)

/-- The splice of `local_mixing_step` (lib.rs 1061-1227): compute the
predecessor and successor closures of the convex set `S`, derive the new
boundary and internal edges, add the `C_in` nodes, and remove the nodes of
`S` together with their incident edges. -/
def local_mixing_splice (G : GGraph) (S : List Nat) (newIds : List Nat)
    (cinGates : List BaseGate) (cinCollisions : List (List Nat))
    (gateOf : Nat → BaseGate) (fuel : Nat) : GGraph :=
  { nodes := G.nodes.filter (fun x => decide (x ∉ S)) ++ newIds
    edges := (G.edges ++ spliceNewEdges G S newIds cinGates cinCollisions gateOf fuel).filter
      fun e => decide (e.1 ∉ S) && decide (e.2 ∉ S) }

/-- Invariant of the plain `dfs`: every neighbour of a finished node is
finished or still on the current path. -/
def DfsRInv (adj : Nat → List Nat) (st : Dfs2St) : Prop :=
  ∀ w ∈ st.vis, ∀ y ∈ adj w, y ∈ st.vis ∨ y ∈ st.path

/-- Soundness and completeness of one `dfs` call (and its neighbour loop)
on a rank-bounded DAG, given enough fuel. -/
theorem dfsR_spec (adj : Nat → List Nat) (rho : Nat → Nat) (Nb : Nat)
    (hr : ∀ u v, v ∈ adj u → rho u < rho v) (hrb : ∀ v, rho v ≤ Nb) :
    ∀ fuel : Nat,
      (∀ cur st, st.vwp = [] → DfsRInv adj st → Nb + 1 - rho cur ≤ fuel →
        ((dfsR adj fuel cur st).vwp = [] ∧
         (dfsR adj fuel cur st).path = st.path ∧
         (∀ x ∈ st.vis, x ∈ (dfsR adj fuel cur st).vis) ∧
         DfsRInv adj (dfsR adj fuel cur st) ∧
         cur ∈ (dfsR adj fuel cur st).vis ∧
         (∀ x ∈ (dfsR adj fuel cur st).vis, x ∈ st.vis ∨ Reaches adj cur x))) ∧
      (∀ l st, st.vwp = [] → DfsRInv adj st → (∀ v ∈ l, Nb + 1 - rho v ≤ fuel) →
        ((dfsRLoop adj fuel l st).vwp = [] ∧
         (dfsRLoop adj fuel l st).path = st.path ∧
         (∀ x ∈ st.vis, x ∈ (dfsRLoop adj fuel l st).vis) ∧
         DfsRInv adj (dfsRLoop adj fuel l st) ∧
         (∀ v ∈ l, v ∈ (dfsRLoop adj fuel l st).vis) ∧
         (∀ x ∈ (dfsRLoop adj fuel l st).vis,
            x ∈ st.vis ∨ ∃ v ∈ l, Reaches adj v x))) := by
  intro fuel
  induction fuel with
  | zero =>
    constructor
    · intro cur st _ _ hfuel
      exact absurd hfuel (by have := hrb cur; omega)
    · intro l st hvwp hinv hfuel
      cases l with
      | nil =>
        have heq : dfsRLoop adj 0 [] st = st := by simp only [dfsRLoop]
        rw [heq]
        exact ⟨hvwp, rfl, fun x hx => hx, hinv, by simp, fun x hx => Or.inl hx⟩
      | cons v rest =>
        exact absurd (hfuel v (by simp)) (by have := hrb v; omega)
  | succ fuel ih =>
    have hR : ∀ cur st, st.vwp = [] → DfsRInv adj st → Nb + 1 - rho cur ≤ fuel + 1 →
        ((dfsR adj (fuel + 1) cur st).vwp = [] ∧
         (dfsR adj (fuel + 1) cur st).path = st.path ∧
         (∀ x ∈ st.vis, x ∈ (dfsR adj (fuel + 1) cur st).vis) ∧
         DfsRInv adj (dfsR adj (fuel + 1) cur st) ∧
         cur ∈ (dfsR adj (fuel + 1) cur st).vis ∧
         (∀ x ∈ (dfsR adj (fuel + 1) cur st).vis,
            x ∈ st.vis ∨ Reaches adj cur x)) := by
      intro cur st hvwp hinv hfuel
      have h1 : cur ∉ st.vwp := by rw [hvwp]; simp
      by_cases h2 : cur ∈ st.vis
      · have heq : dfsR adj (fuel + 1) cur st = st := by
          simp only [dfsR, if_neg h1, if_pos h2]
        rw [heq]
        exact ⟨hvwp, rfl, fun x hx => hx, hinv, h2, fun x hx => Or.inl hx⟩
      · have hinv1 : DfsRInv adj { st with path := st.path ++ [cur] } := by
          intro w hw y hy
          rcases hinv w hw y hy with h | h
          · exact Or.inl h
          · exact Or.inr (List.mem_append_left _ h)
        have hf1 : ∀ v ∈ adj cur, Nb + 1 - rho v ≤ fuel := by
          intro v hv
          have := hr cur v hv
          omega
        obtain ⟨hvwp2, hpath2, hmono2, hinv2, hall2, hsnd2⟩ :=
          ih.2 (adj cur) { st with path := st.path ++ [cur] } hvwp hinv1 hf1
        have heq : dfsR adj (fuel + 1) cur st =
            { dfsRLoop adj fuel (adj cur) { st with path := st.path ++ [cur] } with
              path := (dfsRLoop adj fuel (adj cur)
                { st with path := st.path ++ [cur] }).path.dropLast,
              vis := linsert cur (dfsRLoop adj fuel (adj cur)
                { st with path := st.path ++ [cur] }).vis } := by
          simp only [dfsR, if_neg h1, if_neg h2]
        rw [heq]
        refine ⟨hvwp2, ?_, ?_, ?_, ?_, ?_⟩
        · show (dfsRLoop adj fuel (adj cur)
            { st with path := st.path ++ [cur] }).path.dropLast = st.path
          rw [hpath2]
          simp
        · intro x hx
          exact (mem_linsert _ _ _).mpr (Or.inr (hmono2 x hx))
        · intro w hw y hy
          rcases (mem_linsert _ _ _).mp hw with hwc | hwv
        -- the two cases of membership in the extended visited set
          · subst hwc
            exact Or.inl ((mem_linsert _ _ _).mpr (Or.inr (hall2 y hy)))
          · rcases hinv2 w hwv y hy with h | h
            · exact Or.inl ((mem_linsert _ _ _).mpr (Or.inr h))
            · rw [hpath2] at h
              rcases List.mem_append.mp h with h | h
              · exact Or.inr (by rw [hpath2]; simpa using h)
              · have : y = cur := by simpa using h
                exact Or.inl ((mem_linsert _ _ _).mpr (Or.inl this))
        · exact (mem_linsert _ _ _).mpr (Or.inl rfl)
        · intro x hx
          rcases (mem_linsert _ _ _).mp hx with hxc | hxv
          · exact Or.inr (hxc ▸ Relation.ReflTransGen.refl)
          · rcases hsnd2 x hxv with h | ⟨v, hv, hreach⟩
            · exact Or.inl h
            · exact Or.inr (Relation.ReflTransGen.head hv hreach)
    refine ⟨hR, ?_⟩
    intro l
    induction l with
    | nil =>
      intro st hvwp hinv _
      have heq : dfsRLoop adj (fuel + 1) [] st = st := by simp only [dfsRLoop]
      rw [heq]
      exact ⟨hvwp, rfl, fun x hx => hx, hinv, by simp, fun x hx => Or.inl hx⟩
    | cons v rest ihl =>
      intro st hvwp hinv hfuel
      have hv := hR v st hvwp hinv (hfuel v (by simp))
      have heq : dfsRLoop adj (fuel + 1) (v :: rest) st =
          dfsRLoop adj (fuel + 1) rest (dfsR adj (fuel + 1) v st) := by
        simp only [dfsRLoop]
      obtain ⟨hvwp2, hpath2, hmono2, hinv2, hall2, hsnd2⟩ :=
        ihl (dfsR adj (fuel + 1) v st) hv.1 hv.2.2.2.1
          (fun w hw => hfuel w (List.mem_cons_of_mem _ hw))
      rw [heq]
      refine ⟨hvwp2, by rw [hpath2, hv.2.1], ?_, hinv2, ?_, ?_⟩
      · intro x hx
        exact hmono2 x (hv.2.2.1 x hx)
      · intro w hw
        rcases List.mem_cons.mp hw with hwv | hwr
        · exact hwv ▸ hmono2 v hv.2.2.2.2.1
        · exact hall2 w hwr
      · intro x hx
        rcases hsnd2 x hx with h | ⟨w, hw, hreach⟩
        · rcases hv.2.2.2.2.2 x h with h' | h'
          · exact Or.inl h'
          · exact Or.inr ⟨v, by simp, h'⟩
        · exact Or.inr ⟨w, List.mem_cons_of_mem _ hw, hreach⟩

/-- A set of nodes closed under one step is closed under reachability. -/
theorem reaches_closed (adj : Nat → List Nat) (V : List Nat)
    (hcl : ∀ w ∈ V, ∀ y ∈ adj w, y ∈ V) :
    ∀ x y, Reaches adj x y → x ∈ V → y ∈ V := by
  intro x y h
  induction h with
  | refl => exact id
  | tail _ hbc ih => exact fun hx => hcl _ (ih hx) _ hbc

/-- `dfsAll` computes exactly the forward closure of its start set:
it contains the starts, only reachable nodes, and is reachability-closed. -/
theorem dfsAll_spec (adj : Nat → List Nat) (rho : Nat → Nat) (Nb : Nat)
    (hr : ∀ u v, v ∈ adj u → rho u < rho v) (hrb : ∀ v, rho v ≤ Nb)
    (fuel : Nat) (hfuel : Nb + 1 ≤ fuel) (starts : List Nat) :
    (∀ p ∈ starts, p ∈ dfsAll adj fuel starts) ∧
    (∀ x ∈ dfsAll adj fuel starts, ∃ p ∈ starts, Reaches adj p x) ∧
    (∀ x ∈ dfsAll adj fuel starts, ∀ y, Reaches adj x y →
       y ∈ dfsAll adj fuel starts) := by
  have hfold : ∀ (ss : List Nat) (st : Dfs2St), st.vwp = [] → st.path = [] →
      DfsRInv adj st →
      ((ss.foldl (fun s p => dfsR adj fuel p s) st).vwp = [] ∧
       (ss.foldl (fun s p => dfsR adj fuel p s) st).path = [] ∧
       DfsRInv adj (ss.foldl (fun s p => dfsR adj fuel p s) st) ∧
       (∀ x ∈ st.vis, x ∈ (ss.foldl (fun s p => dfsR adj fuel p s) st).vis) ∧
       (∀ p ∈ ss, p ∈ (ss.foldl (fun s p => dfsR adj fuel p s) st).vis) ∧
       (∀ x ∈ (ss.foldl (fun s p => dfsR adj fuel p s) st).vis,
          x ∈ st.vis ∨ ∃ p ∈ ss, Reaches adj p x)) := by
    intro ss
    induction ss with
    | nil =>
      intro st hvwp hpath hinv
      exact ⟨hvwp, hpath, hinv, fun x hx => hx, by simp, fun x hx => Or.inl hx⟩
    | cons p rest ihs =>
      intro st hvwp hpath hinv
      have hp := (dfsR_spec adj rho Nb hr hrb fuel).1 p st hvwp hinv
        (by have := hrb p; omega)
      have hstep : (p :: rest).foldl (fun s q => dfsR adj fuel q s) st =
          rest.foldl (fun s q => dfsR adj fuel q s) (dfsR adj fuel p st) := by
        simp
      obtain ⟨hvwp2, hpath2, hinv2, hmono2, hall2, hsnd2⟩ :=
        ihs (dfsR adj fuel p st) hp.1 (by rw [hp.2.1, hpath]) hp.2.2.2.1
      rw [hstep]
      refine ⟨hvwp2, hpath2, hinv2, ?_, ?_, ?_⟩
      · intro x hx
        exact hmono2 x (hp.2.2.1 x hx)
      · intro q hq
        rcases List.mem_cons.mp hq with hqp | hqr
        · exact hqp ▸ hmono2 p hp.2.2.2.2.1
        · exact hall2 q hqr
      · intro x hx
        rcases hsnd2 x hx with h | ⟨q, hq, hreach⟩
        · rcases hp.2.2.2.2.2 x h with h' | h'
          · exact Or.inl h'
          · exact Or.inr ⟨p, by simp, h'⟩
        · exact Or.inr ⟨q, List.mem_cons_of_mem _ hq, hreach⟩
  obtain ⟨hvwp, hpath, hinv, _, hall, hsnd⟩ :=
    hfold starts ⟨[], [], []⟩ rfl rfl (by intro w hw; simp at hw)
  refine ⟨hall, ?_, ?_⟩
  · intro x hx
    rcases hsnd x hx with h | h
    · simp at h
    · exact h
  · intro x hx y hy
    refine reaches_closed adj _ ?_ x y hy hx
    intro w hw z hz
    rcases hinv w hw z hz with h | h
    · exact h
    · rw [hpath] at h
      simp at h

theorem step_gpadj_iff (G : GGraph) (x y : Nat) :
    Step (gpadj G) x y ↔ Step (gadj G) y x := by
  unfold Step
  rw [mem_gpadj, mem_gadj]

/-- Walking `Incoming` edges is reversed reachability. -/
theorem reaches_gpadj_iff (G : GGraph) (a b : Nat) :
    Reaches (gpadj G) a b ↔ Reaches (gadj G) b a := by
  constructor
  · intro h
    apply Relation.reflTransGen_swap.mp
    exact Relation.ReflTransGen.mono (fun x y hxy => (step_gpadj_iff G x y).mp hxy) h
  · intro h
    apply Relation.reflTransGen_swap.mp
    exact Relation.ReflTransGen.mono (fun x y hxy => (step_gpadj_iff G y x).mpr hxy) h

theorem reaches_gadj_mem (G : GGraph)
    (hen : ∀ e ∈ G.edges, e.1 ∈ G.nodes ∧ e.2 ∈ G.nodes) :
    ∀ a b, Reaches (gadj G) a b → a ∈ G.nodes → b ∈ G.nodes := by
  intro a b h
  induction h with
  | refl => exact id
  | tail _ hstep _ =>
    intro _
    exact (hen _ ((mem_gadj G _ _).mp hstep)).2

theorem reaches_gpadj_mem (G : GGraph)
    (hen : ∀ e ∈ G.edges, e.1 ∈ G.nodes ∧ e.2 ∈ G.nodes) :
    ∀ a b, Reaches (gpadj G) a b → a ∈ G.nodes → b ∈ G.nodes := by
  intro a b h
  induction h with
  | refl => exact id
  | tail _ hstep _ =>
    intro _
    exact (hen _ ((mem_gpadj G _ _).mp hstep)).1

theorem mem_immPreds (G : GGraph) (S : List Nat) (p : Nat) :
    p ∈ immPreds G S ↔ p ∈ G.nodes ∧ p ∉ S ∧ ∃ s ∈ S, (p, s) ∈ G.edges := by
  unfold immPreds
  rw [List.mem_filter]
  simp

theorem mem_immSuccs (G : GGraph) (S : List Nat) (q : Nat) :
    q ∈ immSuccs G S ↔ q ∈ G.nodes ∧ q ∉ S ∧ ∃ s ∈ S, (s, q) ∈ G.edges := by
  unfold immSuccs
  rw [List.mem_filter]
  simp

theorem mem_outsidersOf (G : GGraph) (S newIds : List Nat) (fuel x : Nat) :
    x ∈ outsidersOf G S newIds fuel ↔
      x ∈ G.nodes ∧ x ∉ predsOf G S fuel ∧ x ∉ succsOf G S fuel ∧
      x ∉ S ∧ x ∉ newIds := by
  unfold outsidersOf
  rw [List.mem_filter]
  simp [and_assoc]

theorem mem_colliding_edges_from (gateOf : Nat → BaseGate) (newIds : List Nat)
    (cinGates : List BaseGate) (srcs : List Nat) (e : Nat × Nat) :
    e ∈ colliding_edges_from gateOf newIds cinGates srcs ↔
      ∃ p ∈ srcs, ∃ nc ∈ newIds.zip cinGates,
        (gateOf p).check_collision nc.2 = true ∧ e = (p, nc.1) := by
  unfold colliding_edges_from
  rw [List.mem_flatMap]
  constructor
  · rintro ⟨p, hp, hmem⟩
    obtain ⟨nc, hnc, hsome⟩ := List.mem_filterMap.mp hmem
    by_cases hc : (gateOf p).check_collision nc.2 = true
    · rw [if_pos hc] at hsome
      exact ⟨p, hp, nc, hnc, hc, (Option.some.injEq _ _ ▸ hsome).symm⟩
    · rw [if_neg hc] at hsome
      exact absurd hsome (by simp)
  · rintro ⟨p, hp, nc, hnc, hc, rfl⟩
    exact ⟨p, hp, List.mem_filterMap.mpr ⟨nc, hnc, by rw [if_pos hc]⟩⟩

theorem mem_colliding_edges_to (gateOf : Nat → BaseGate) (newIds : List Nat)
    (cinGates : List BaseGate) (dsts : List Nat) (e : Nat × Nat) :
    e ∈ colliding_edges_to gateOf newIds cinGates dsts ↔
      ∃ q ∈ dsts, ∃ nc ∈ newIds.zip cinGates,
        (gateOf q).check_collision nc.2 = true ∧ e = (nc.1, q) := by
  unfold colliding_edges_to
  rw [List.mem_flatMap]
  constructor
  · rintro ⟨q, hq, hmem⟩
    obtain ⟨nc, hnc, hsome⟩ := List.mem_filterMap.mp hmem
    by_cases hc : (gateOf q).check_collision nc.2 = true
    · rw [if_pos hc] at hsome
      exact ⟨q, hq, nc, hnc, hc, (Option.some.injEq _ _ ▸ hsome).symm⟩
    · rw [if_neg hc] at hsome
      exact absurd hsome (by simp)
  · rintro ⟨q, hq, nc, hnc, hc, rfl⟩
    exact ⟨q, hq, List.mem_filterMap.mpr ⟨nc, hnc, by rw [if_pos hc]⟩⟩

theorem mem_cin_internal_edges (newIds : List Nat) (cinCollisions : List (List Nat))
    (e : Nat × Nat) :
    e ∈ cin_internal_edges newIds cinCollisions ↔
      ∃ i < newIds.length, ∃ j ∈ cinCollisions.getD i [],
        e = (newIds.getD i 0, newIds.getD j 0) := by
  unfold cin_internal_edges
  simp [List.mem_flatMap, List.mem_range, eq_comm]

theorem splice_edges_mem (G : GGraph) (S newIds : List Nat)
    (cinGates : List BaseGate) (cinCollisions : List (List Nat))
    (gateOf : Nat → BaseGate) (fuel : Nat) (e : Nat × Nat) :
    e ∈ (local_mixing_splice G S newIds cinGates cinCollisions gateOf fuel).edges ↔
      ((e ∈ G.edges ∨
        e ∈ cin_internal_edges newIds cinCollisions ∨
        e ∈ colliding_edges_from gateOf newIds cinGates (predsOf G S fuel) ∨
        e ∈ colliding_edges_to gateOf newIds cinGates (succsOf G S fuel) ∨
        e ∈ colliding_edges_from gateOf newIds cinGates (outsidersOf G S newIds fuel)) ∧
       e.1 ∉ S ∧ e.2 ∉ S) := by
  unfold local_mixing_splice spliceNewEdges
  rw [List.mem_filter]
  simp [List.mem_append, or_assoc]

/-- Soundness and closedness of the `successors` closure. -/
theorem succsOf_spec (G : GGraph) (S : List Nat) (rho : Nat → Nat) (Nb fuel : Nat)
    (hrk : ∀ e ∈ G.edges, rho e.1 < rho e.2) (hrb : ∀ v, rho v ≤ Nb)
    (hfuel : Nb + 1 ≤ fuel) :
    (∀ x ∈ succsOf G S fuel, ∃ q ∈ immSuccs G S, Reaches (gadj G) q x) ∧
    (∀ x ∈ succsOf G S fuel, ∀ y, Reaches (gadj G) x y → y ∈ succsOf G S fuel) := by
  have h := dfsAll_spec (gadj G) rho Nb
    (fun u v hv => hrk (u, v) ((mem_gadj G u v).mp hv)) hrb fuel hfuel (immSuccs G S)
  exact ⟨h.2.1, h.2.2⟩

/-- Soundness and closedness of the `predecessors` closure, phrased with
forward reachability. -/
theorem predsOf_spec (G : GGraph) (S : List Nat) (rho : Nat → Nat) (Nb fuel : Nat)
    (hrk : ∀ e ∈ G.edges, rho e.1 < rho e.2) (hrb : ∀ v, rho v ≤ Nb)
    (hfuel : Nb + 1 ≤ fuel) :
    (∀ x ∈ predsOf G S fuel, ∃ p ∈ immPreds G S, Reaches (gadj G) x p) ∧
    (∀ x ∈ predsOf G S fuel, ∀ y, Reaches (gadj G) y x → y ∈ predsOf G S fuel) := by
  have hr' : ∀ u v, v ∈ gpadj G u → Nb - rho u < Nb - rho v := by
    intro u v hv
    have h1 := hrk (v, u) ((mem_gpadj G v u).mp hv)
    have h2 := hrb u
    simp only at h1
    omega
  have h := dfsAll_spec (gpadj G) (fun v => Nb - rho v) Nb hr'
    (fun v => Nat.sub_le Nb (rho v)) fuel hfuel (immPreds G S)
  refine ⟨?_, ?_⟩
  · intro x hx
    obtain ⟨p, hp, hreach⟩ := h.2.1 x hx
    exact ⟨p, hp, (reaches_gpadj_iff G p x).mp hreach⟩
  · intro x hx y hy
    exact h.2.2 x hx y ((reaches_gpadj_iff G x y).mpr hy)

/-- With `S` convex, no node lies in both closures. -/
theorem preds_succs_disjoint (G : GGraph) (S : List Nat) (rho : Nat → Nat)
    (Nb fuel : Nat)
    (hrk : ∀ e ∈ G.edges, rho e.1 < rho e.2) (hrb : ∀ v, rho v ≤ Nb)
    (hfuel : Nb + 1 ≤ fuel) (hconv : IsConvex (gadj G) S) :
    ∀ x, x ∈ predsOf G S fuel → x ∈ succsOf G S fuel → False := by
  intro x hxp hxs
  obtain ⟨ip, hip, hxip⟩ := (predsOf_spec G S rho Nb fuel hrk hrb hfuel).1 x hxp
  obtain ⟨isq, his, hisx⟩ := (succsOf_spec G S rho Nb fuel hrk hrb hfuel).1 x hxs
  obtain ⟨_, hipS, s, hs, hips⟩ := (mem_immPreds G S ip).mp hip
  obtain ⟨_, _, s', hs', hsis⟩ := (mem_immSuccs G S isq).mp his
  have h1 : Reaches (gadj G) s' ip :=
    Relation.ReflTransGen.head ((mem_gadj G s' isq).mpr hsis) (hisx.trans hxip)
  have h2 : Reaches (gadj G) ip s :=
    Relation.ReflTransGen.single ((mem_gadj G ip s).mpr hips)
  exact hipS (hconv s' hs' s hs ip h1 h2)

/-- Both closures consist of nodes of the graph. -/
theorem closures_subset_nodes (G : GGraph) (S : List Nat) (rho : Nat → Nat)
    (Nb fuel : Nat)
    (hrk : ∀ e ∈ G.edges, rho e.1 < rho e.2) (hrb : ∀ v, rho v ≤ Nb)
    (hfuel : Nb + 1 ≤ fuel)
    (hen : ∀ e ∈ G.edges, e.1 ∈ G.nodes ∧ e.2 ∈ G.nodes) :
    (∀ x ∈ predsOf G S fuel, x ∈ G.nodes) ∧
    (∀ x ∈ succsOf G S fuel, x ∈ G.nodes) := by
  constructor
  · intro x hx
    obtain ⟨p, hp, hreach⟩ := (predsOf_spec G S rho Nb fuel hrk hrb hfuel).1 x hx
    have hpn : p ∈ G.nodes := ((mem_immPreds G S p).mp hp).1
    exact reaches_gpadj_mem G hen p x ((reaches_gpadj_iff G p x).mpr hreach) hpn
  · intro x hx
    obtain ⟨q, hq, hreach⟩ := (succsOf_spec G S rho Nb fuel hrk hrb hfuel).1 x hx
    have hqn : q ∈ G.nodes := ((mem_immSuccs G S q).mp hq).1
    exact reaches_gadj_mem G hen q x hreach hqn

/-- The explicit rank function for the spliced graph: `C_in` nodes sit in a
middle band ordered by position, successors above, everyone else keeps the
old rank. -/
def spliceSigma (rho : Nat → Nat) (Nb : Nat) (newIds succs : List Nat) :
    Nat → Nat := fun x =>
  if x ∈ newIds then Nb + 1 + newIds.indexOf x
  else if x ∈ succs then Nb + 2 + newIds.length + rho x
  else rho x

/-- `spliceSigma` strictly increases along every edge of the spliced graph. -/
theorem spliceSigma_strict
    (G : GGraph) (S newIds : List Nat) (cinGates : List BaseGate)
    (cinCollisions : List (List Nat)) (gateOf : Nat → BaseGate)
    (rho : Nat → Nat) (Nb fuel : Nat)
    (hrk : ∀ e ∈ G.edges, rho e.1 < rho e.2)
    (hrb : ∀ v, rho v ≤ Nb)
    (hfuel : Nb + 1 ≤ fuel)
    (hconv : IsConvex (gadj G) S)
    (hen : ∀ e ∈ G.edges, e.1 ∈ G.nodes ∧ e.2 ∈ G.nodes)
    (hfresh : ∀ c ∈ newIds, c ∉ G.nodes)
    (hnd : newIds.Nodup)
    (hcc : ∀ i j, j ∈ cinCollisions.getD i [] → i < j ∧ j < newIds.length) :
    ∀ e ∈ (local_mixing_splice G S newIds cinGates cinCollisions gateOf fuel).edges,
      spliceSigma rho Nb newIds (succsOf G S fuel) e.1 <
        spliceSigma rho Nb newIds (succsOf G S fuel) e.2 := by
  classical
  intro e he
  simp only [spliceSigma]
  obtain ⟨hcase, _, _⟩ :=
    (splice_edges_mem G S newIds cinGates cinCollisions gateOf fuel e).mp he
  have hsubn := closures_subset_nodes G S rho Nb fuel hrk hrb hfuel hen
  have hdisj := preds_succs_disjoint G S rho Nb fuel hrk hrb hfuel hconv
  have hsC := (succsOf_spec G S rho Nb fuel hrk hrb hfuel).2
  rcases hcase with hold | hint | hfromP | htoS | hfromO
  · have h1n : e.1 ∈ G.nodes := (hen e hold).1
    have h2n : e.2 ∈ G.nodes := (hen e hold).2
    have h1new : e.1 ∉ newIds := fun h => hfresh _ h h1n
    have h2new : e.2 ∉ newIds := fun h => hfresh _ h h2n
    rw [if_neg h1new, if_neg h2new]
    by_cases hs1 : e.1 ∈ succsOf G S fuel
    · have hs2 : e.2 ∈ succsOf G S fuel := by
        refine hsC e.1 hs1 e.2 (Relation.ReflTransGen.single ?_)
        exact (mem_gadj G e.1 e.2).mpr (by simpa using hold)
      rw [if_pos hs1, if_pos hs2]
      have := hrk e hold
      omega
    · rw [if_neg hs1]
      by_cases hs2 : e.2 ∈ succsOf G S fuel
      · rw [if_pos hs2]
        have := hrb e.1
        omega
      · rw [if_neg hs2]
        exact hrk e hold
  · obtain ⟨i, hi, j, hj, heq⟩ := (mem_cin_internal_edges newIds cinCollisions e).mp hint
    obtain ⟨hij, hjlen⟩ := hcc i j hj
    have hmi : newIds.getD i 0 ∈ newIds := by
      rw [List.getD_eq_getElem newIds 0 hi]
      exact List.getElem_mem hi
    have hmj : newIds.getD j 0 ∈ newIds := by
      rw [List.getD_eq_getElem newIds 0 hjlen]
      exact List.getElem_mem hjlen
    subst heq
    dsimp only
    rw [if_pos hmi, if_pos hmj]
    have hidxi : newIds.indexOf (newIds.getD i 0) = i := by
      rw [List.getD_eq_getElem newIds 0 hi]
      exact List.indexOf_getElem hnd i hi
    have hidxj : newIds.indexOf (newIds.getD j 0) = j := by
      rw [List.getD_eq_getElem newIds 0 hjlen]
      exact List.indexOf_getElem hnd j hjlen
    rw [hidxi, hidxj]
    omega
  · obtain ⟨p, hp, nc, hnc, _, heq⟩ :=
      (mem_colliding_edges_from gateOf newIds cinGates (predsOf G S fuel) e).mp hfromP
    subst heq
    dsimp only
    have hc1 : nc.1 ∈ newIds := (List.of_mem_zip hnc).1
    have hpn : p ∈ G.nodes := hsubn.1 p hp
    have hpnew : p ∉ newIds := fun h => hfresh _ h hpn
    have hps : p ∉ succsOf G S fuel := fun h => hdisj p hp h
    rw [if_neg hpnew, if_neg hps, if_pos hc1]
    have := hrb p
    omega
  · obtain ⟨q, hq, nc, hnc, _, heq⟩ :=
      (mem_colliding_edges_to gateOf newIds cinGates (succsOf G S fuel) e).mp htoS
    subst heq
    dsimp only
    have hc1 : nc.1 ∈ newIds := (List.of_mem_zip hnc).1
    have hqn : q ∈ G.nodes := hsubn.2 q hq
    have hqnew : q ∉ newIds := fun h => hfresh _ h hqn
    rw [if_pos hc1, if_neg hqnew, if_pos hq]
    have hidx : newIds.indexOf nc.1 < newIds.length := List.indexOf_lt_length.mpr hc1
    omega
  · obtain ⟨o, ho, nc, hnc, _, heq⟩ :=
      (mem_colliding_edges_from gateOf newIds cinGates
        (outsidersOf G S newIds fuel) e).mp hfromO
    subst heq
    dsimp only
    obtain ⟨_, _, hos, _, honew⟩ := (mem_outsidersOf G S newIds fuel o).mp ho
    have hc1 : nc.1 ∈ newIds := (List.of_mem_zip hnc).1
    rw [if_neg honew, if_neg hos, if_pos hc1]
    have := hrb o
    omega

/-- C5: every splice preserves acyclicity.  If the skeleton graph admits a
rank function (is a DAG), `S` is convex, and the `C_in` node ids are fresh,
then the graph after `local_mixing_splice` again admits a rank function:
the new edges toward/from `C_in` and the removal of the `C_out` nodes never
create a directed cycle. -/
theorem local_mixing_splice_acyclic
    (G : GGraph) (S newIds : List Nat) (cinGates : List BaseGate)
    (cinCollisions : List (List Nat)) (gateOf : Nat → BaseGate)
    (rho : Nat → Nat) (Nb fuel : Nat)
    (hrk : ∀ e ∈ G.edges, rho e.1 < rho e.2)
    (hrb : ∀ v, rho v ≤ Nb)
    (hfuel : Nb + 1 ≤ fuel)
    (hconv : IsConvex (gadj G) S)
    (hen : ∀ e ∈ G.edges, e.1 ∈ G.nodes ∧ e.2 ∈ G.nodes)
    (hfresh : ∀ c ∈ newIds, c ∉ G.nodes)
    (hnd : newIds.Nodup)
    (hcc : ∀ i j, j ∈ cinCollisions.getD i [] → i < j ∧ j < newIds.length) :
    ∃ sigma : Nat → Nat,
      ∀ e ∈ (local_mixing_splice G S newIds cinGates cinCollisions gateOf fuel).edges,
        sigma e.1 < sigma e.2 :=
  ⟨spliceSigma rho Nb newIds (succsOf G S fuel),
    spliceSigma_strict G S newIds cinGates cinCollisions gateOf rho Nb fuel
      hrk hrb hfuel hconv hen hfresh hnd hcc⟩

/-- Witness for C5: a concrete splice instance (chain `0 → 1 → 2`, convex
set `{1}`, two fresh `C_in` nodes) satisfying every hypothesis. -/
theorem local_mixing_splice_acyclic_witness :
    ∃ sigma : Nat → Nat,
      ∀ e ∈ (local_mixing_splice ⟨[0, 1, 2], [(0, 1), (1, 2)]⟩ [1] [10, 11]
          [⟨10, 0, 1, 2, 0⟩, ⟨11, 1, 0, 2, 0⟩] [[1], []]
          (fun _ => ⟨0, 0, 1, 2, 0⟩) 4).edges,
        sigma e.1 < sigma e.2 := by
  refine local_mixing_splice_acyclic _ _ _ _ _ _ (fun v => v % 4) 3 _
    ?_ ?_ ?_ ?_ ?_ ?_ ?_ ?_
  · intro e he
    simp at he
    rcases he with rfl | rfl <;> decide
  · intro v
    show v % 4 ≤ 3
    omega
  · decide
  · intro u hu v hv z h1 h2
    simp at hu hv
    subst hu
    subst hv
    have hen' : ∀ e ∈ (⟨[0, 1, 2], [(0, 1), (1, 2)]⟩ : GGraph).edges,
        e.1 ∈ (⟨[0, 1, 2], [(0, 1), (1, 2)]⟩ : GGraph).nodes ∧
        e.2 ∈ (⟨[0, 1, 2], [(0, 1), (1, 2)]⟩ : GGraph).nodes := by
      intro e he
      simp at he
      rcases he with rfl | rfl <;> decide
    have hzn := reaches_gadj_mem ⟨[0, 1, 2], [(0, 1), (1, 2)]⟩ hen' 1 z h1 (by decide)
    have hr : IsRanking (gadj ⟨[0, 1, 2], [(0, 1), (1, 2)]⟩) (fun v => v % 4) := by
      intro a b hb
      have hab := (mem_gadj ⟨[0, 1, 2], [(0, 1), (1, 2)]⟩ a b).mp hb
      simp at hab
      rcases hab with ⟨rfl, rfl⟩ | ⟨rfl, rfl⟩ <;> decide
    have hle1 : 1 % 4 ≤ z % 4 := reaches_rank_le _ _ hr 1 z h1
    have hle2 : z % 4 ≤ 1 % 4 := reaches_rank_le _ _ hr z 1 h2
    simp at hzn
    rcases hzn with rfl | rfl | rfl
    · omega
    · simp
    · omega
  · intro e he
    simp at he
    rcases he with rfl | rfl <;> decide
  · decide
  · decide
  · intro i j hj
    match i with
    | 0 =>
      simp at hj
      subst hj
      decide
    | 1 => simp at hj
    | n + 2 =>
      rw [List.getD_eq_default] at hj
      · simp at hj
      · simp

theorem check_collision_symm (a b : BaseGate) :
    a.check_collision b = b.check_collision a := by
  unfold BaseGate.check_collision
  exact Bool.or_comm _ _

/-- The gate map after the splice: `C_in` ids map to the corresponding
`C_in` gate, surviving ids keep their old gate (lib.rs 1086, 1222-1226). -/
def spliceGateOf (gateOf : Nat → BaseGate) (newIds : List Nat)
    (cinGates : List BaseGate) : Nat → BaseGate := fun x =>
  if x ∈ newIds then cinGates.getD (newIds.indexOf x) (gateOf x) else gateOf x

theorem splice_nodes_mem (G : GGraph) (S newIds : List Nat)
    (cinGates : List BaseGate) (cinCollisions : List (List Nat))
    (gateOf : Nat → BaseGate) (fuel : Nat) (x : Nat) :
    x ∈ (local_mixing_splice G S newIds cinGates cinCollisions gateOf fuel).nodes ↔
      (x ∈ G.nodes ∧ x ∉ S) ∨ x ∈ newIds := by
  unfold local_mixing_splice
  simp [List.mem_append, List.mem_filter]

/-- Collision completeness of the spliced graph: every pair of distinct
colliding nodes of the new graph is joined by an edge in one direction. -/
theorem splice_complete_or
    (G : GGraph) (S newIds : List Nat) (cinGates : List BaseGate)
    (cinCollisions : List (List Nat)) (gateOf : Nat → BaseGate)
    (rho : Nat → Nat) (Nb fuel : Nat)
    (hrk : ∀ e ∈ G.edges, rho e.1 < rho e.2)
    (hrb : ∀ v, rho v ≤ Nb)
    (hfuel : Nb + 1 ≤ fuel)
    (hconv : IsConvex (gadj G) S)
    (hen : ∀ e ∈ G.edges, e.1 ∈ G.nodes ∧ e.2 ∈ G.nodes)
    (hfresh : ∀ c ∈ newIds, c ∉ G.nodes)
    (hnd : newIds.Nodup)
    (hcc : ∀ i j, j ∈ cinCollisions.getD i [] → i < j ∧ j < newIds.length)
    (hSsub : ∀ s ∈ S, s ∈ G.nodes)
    (hlen : newIds.length = cinGates.length)
    (hcinC : ∀ i j, (hi : i < cinGates.length) → (hj : j < cinGates.length) →
        i < j → (cinGates[i].check_collision cinGates[j] = true ↔
          j ∈ cinCollisions.getD i []))
    (hpre : ∀ u v, u ∈ G.nodes → v ∈ G.nodes → u ≠ v →
        (gateOf u).check_collision (gateOf v) = true →
        (u, v) ∈ G.edges ∨ (v, u) ∈ G.edges) :
    ∀ u v,
      u ∈ (local_mixing_splice G S newIds cinGates cinCollisions gateOf fuel).nodes →
      v ∈ (local_mixing_splice G S newIds cinGates cinCollisions gateOf fuel).nodes →
      u ≠ v →
      (spliceGateOf gateOf newIds cinGates u).check_collision
        (spliceGateOf gateOf newIds cinGates v) = true →
      ((u, v) ∈ (local_mixing_splice G S newIds cinGates cinCollisions gateOf fuel).edges ∨
        (v, u) ∈ (local_mixing_splice G S newIds cinGates cinCollisions gateOf fuel).edges) := by
  classical
  intro u v hu hv hne hcol
  have hSnew : ∀ c ∈ newIds, c ∉ S := fun c hc hcS => hfresh c hc (hSsub c hcS)
  have hgold : ∀ x, x ∉ newIds → spliceGateOf gateOf newIds cinGates x = gateOf x := by
    intro x hx
    unfold spliceGateOf
    rw [if_neg hx]
  have hcover : ∀ x, x ∈ G.nodes → x ∉ S → x ∉ newIds →
      x ∈ predsOf G S fuel ∨ x ∈ succsOf G S fuel ∨
      x ∈ outsidersOf G S newIds fuel := by
    intro x hxn hxS hxnew
    by_cases hp : x ∈ predsOf G S fuel
    · exact Or.inl hp
    · by_cases hs : x ∈ succsOf G S fuel
      · exact Or.inr (Or.inl hs)
      · exact Or.inr (Or.inr
          ((mem_outsidersOf G S newIds fuel x).mpr ⟨hxn, hp, hs, hxS, hxnew⟩))
  have hedge_sn : ∀ x c, x ∈ G.nodes → x ∉ S → x ∉ newIds → c ∈ newIds →
      (gateOf x).check_collision (spliceGateOf gateOf newIds cinGates c) = true →
      ((x, c) ∈ (local_mixing_splice G S newIds cinGates cinCollisions gateOf fuel).edges ∨
       (c, x) ∈ (local_mixing_splice G S newIds cinGates cinCollisions gateOf fuel).edges) := by
    intro x c hxn hxS hxnew hc hcolxc
    have hic : newIds.indexOf c < newIds.length := List.indexOf_lt_length.mpr hc
    have hicg : newIds.indexOf c < cinGates.length := by omega
    have hgc : spliceGateOf gateOf newIds cinGates c = cinGates[newIds.indexOf c] := by
      unfold spliceGateOf
      rw [if_pos hc]
      exact List.getD_eq_getElem cinGates _ hicg
    have hkz : newIds.indexOf c < (newIds.zip cinGates).length := by
      rw [List.length_zip newIds cinGates]
      omega
    have hzipmem : (c, cinGates[newIds.indexOf c]) ∈ newIds.zip cinGates := by
      have hgz : (newIds.zip cinGates)[newIds.indexOf c] = (c, cinGates[newIds.indexOf c]) := by
        rw [List.getElem_zip, List.getElem_indexOf hic]
      rw [← hgz]
      exact List.getElem_mem hkz
    have hcS : c ∉ S := hSnew c hc
    have hcol' : (gateOf x).check_collision cinGates[newIds.indexOf c] = true := by
      rw [← hgc]
      exact hcolxc
    rcases hcover x hxn hxS hxnew with hp | hs | ho
    · left
      refine (splice_edges_mem G S newIds cinGates cinCollisions gateOf fuel (x, c)).mpr
        ⟨Or.inr (Or.inr (Or.inl ?_)), hxS, hcS⟩
      exact (mem_colliding_edges_from gateOf newIds cinGates (predsOf G S fuel) (x, c)).mpr
        ⟨x, hp, (c, cinGates[newIds.indexOf c]), hzipmem, hcol', rfl⟩
    · right
      refine (splice_edges_mem G S newIds cinGates cinCollisions gateOf fuel (c, x)).mpr
        ⟨Or.inr (Or.inr (Or.inr (Or.inl ?_))), hcS, hxS⟩
      exact (mem_colliding_edges_to gateOf newIds cinGates (succsOf G S fuel) (c, x)).mpr
        ⟨x, hs, (c, cinGates[newIds.indexOf c]), hzipmem, hcol', rfl⟩
    · left
      refine (splice_edges_mem G S newIds cinGates cinCollisions gateOf fuel (x, c)).mpr
        ⟨Or.inr (Or.inr (Or.inr (Or.inr ?_))), hxS, hcS⟩
      exact (mem_colliding_edges_from gateOf newIds cinGates
        (outsidersOf G S newIds fuel) (x, c)).mpr
        ⟨x, ho, (c, cinGates[newIds.indexOf c]), hzipmem, hcol', rfl⟩
  have hboth : ((u, v) ∈ (local_mixing_splice G S newIds cinGates cinCollisions gateOf fuel).edges ∨
      (v, u) ∈ (local_mixing_splice G S newIds cinGates cinCollisions gateOf fuel).edges) := by
    rcases (splice_nodes_mem G S newIds cinGates cinCollisions gateOf fuel u).mp hu with
      ⟨hun, hunS⟩ | hunew
    · have hunew' : u ∉ newIds := fun h => hfresh u h hun
      rcases (splice_nodes_mem G S newIds cinGates cinCollisions gateOf fuel v).mp hv with
        ⟨hvn, hvnS⟩ | hvnew
      · have hvnew' : v ∉ newIds := fun h => hfresh v h hvn
        have hcol' : (gateOf u).check_collision (gateOf v) = true := by
          rw [hgold u hunew', hgold v hvnew'] at hcol
          exact hcol
        rcases hpre u v hun hvn hne hcol' with h | h
        · exact Or.inl ((splice_edges_mem G S newIds cinGates cinCollisions gateOf fuel
            (u, v)).mpr ⟨Or.inl h, hunS, hvnS⟩)
        · exact Or.inr ((splice_edges_mem G S newIds cinGates cinCollisions gateOf fuel
            (v, u)).mpr ⟨Or.inl h, hvnS, hunS⟩)
      · have hcol' : (gateOf u).check_collision
            (spliceGateOf gateOf newIds cinGates v) = true := by
          rw [hgold u hunew'] at hcol
          exact hcol
        exact hedge_sn u v hun hunS hunew' hvnew hcol'
    · rcases (splice_nodes_mem G S newIds cinGates cinCollisions gateOf fuel v).mp hv with
        ⟨hvn, hvnS⟩ | hvnew
      · have hvnew' : v ∉ newIds := fun h => hfresh v h hvn
        have hcol' : (gateOf v).check_collision
            (spliceGateOf gateOf newIds cinGates u) = true := by
          rw [hgold v hvnew'] at hcol
          rw [check_collision_symm] at hcol
          exact hcol
        exact (hedge_sn v u hvn hvnS hvnew' hunew hcol').symm
      · have hi : newIds.indexOf u < newIds.length := List.indexOf_lt_length.mpr hunew
        have hj : newIds.indexOf v < newIds.length := List.indexOf_lt_length.mpr hvnew
        have hig : newIds.indexOf u < cinGates.length := by omega
        have hjg : newIds.indexOf v < cinGates.length := by omega
        have hui : newIds[newIds.indexOf u] = u := List.getElem_indexOf hi
        have hvj : newIds[newIds.indexOf v] = v := List.getElem_indexOf hj
        have hgu : spliceGateOf gateOf newIds cinGates u = cinGates[newIds.indexOf u] := by
          unfold spliceGateOf
          rw [if_pos hunew]
          exact List.getD_eq_getElem cinGates _ hig
        have hgv : spliceGateOf gateOf newIds cinGates v = cinGates[newIds.indexOf v] := by
          unfold spliceGateOf
          rw [if_pos hvnew]
          exact List.getD_eq_getElem cinGates _ hjg
        have hcolij : cinGates[newIds.indexOf u].check_collision
            cinGates[newIds.indexOf v] = true := by
          rw [hgu, hgv] at hcol
          exact hcol
        have hij : newIds.indexOf u ≠ newIds.indexOf v := by
          intro h
          apply hne
          simp only [h] at hui
          exact hui.symm.trans hvj
        have huS : u ∉ S := hSnew u hunew
        have hvS : v ∉ S := hSnew v hvnew
        rcases Nat.lt_or_ge (newIds.indexOf u) (newIds.indexOf v) with hlt | hge
        · left
          have hjmem : newIds.indexOf v ∈ cinCollisions.getD (newIds.indexOf u) [] :=
            (hcinC _ _ hig hjg hlt).mp hcolij
          refine (splice_edges_mem G S newIds cinGates cinCollisions gateOf fuel
            (u, v)).mpr ⟨Or.inr (Or.inl ?_), huS, hvS⟩
          refine (mem_cin_internal_edges newIds cinCollisions (u, v)).mpr
            ⟨newIds.indexOf u, hi, newIds.indexOf v, hjmem, ?_⟩
          rw [List.getD_eq_getElem newIds 0 hi, List.getD_eq_getElem newIds 0 hj, hui, hvj]
        · have hlt' : newIds.indexOf v < newIds.indexOf u := by omega
          right
          have hcolji : cinGates[newIds.indexOf v].check_collision
              cinGates[newIds.indexOf u] = true := by
            rw [check_collision_symm] at hcolij
            exact hcolij
          have himem : newIds.indexOf u ∈ cinCollisions.getD (newIds.indexOf v) [] :=
            (hcinC _ _ hjg hig hlt').mp hcolji
          refine (splice_edges_mem G S newIds cinGates cinCollisions gateOf fuel
            (v, u)).mpr ⟨Or.inr (Or.inl ?_), hvS, huS⟩
          refine (mem_cin_internal_edges newIds cinCollisions (v, u)).mpr
            ⟨newIds.indexOf v, hj, newIds.indexOf u, himem, ?_⟩
          rw [List.getD_eq_getElem newIds 0 hj, List.getD_eq_getElem newIds 0 hi, hvj, hui]
  exact hboth

/-- C4: the splice preserves collision completeness.  Under the same DAG,
convexity and freshness hypotheses as C5, if before the splice every pair of
distinct colliding gates is joined by an edge, and `cinCollisions` are the
collision sets of the `C_in` gates, then after the splice every pair of
distinct colliding nodes is joined by an edge, and whenever `u` is
topologically before `v` (reaches `v`) that edge is `(u, v)`. -/
theorem local_mixing_splice_collision_complete
    (G : GGraph) (S newIds : List Nat) (cinGates : List BaseGate)
    (cinCollisions : List (List Nat)) (gateOf : Nat → BaseGate)
    (rho : Nat → Nat) (Nb fuel : Nat)
    (hrk : ∀ e ∈ G.edges, rho e.1 < rho e.2)
    (hrb : ∀ v, rho v ≤ Nb)
    (hfuel : Nb + 1 ≤ fuel)
    (hconv : IsConvex (gadj G) S)
    (hen : ∀ e ∈ G.edges, e.1 ∈ G.nodes ∧ e.2 ∈ G.nodes)
    (hfresh : ∀ c ∈ newIds, c ∉ G.nodes)
    (hnd : newIds.Nodup)
    (hcc : ∀ i j, j ∈ cinCollisions.getD i [] → i < j ∧ j < newIds.length)
    (hSsub : ∀ s ∈ S, s ∈ G.nodes)
    (hlen : newIds.length = cinGates.length)
    (hcinC : ∀ i j, (hi : i < cinGates.length) → (hj : j < cinGates.length) →
        i < j → (cinGates[i].check_collision cinGates[j] = true ↔
          j ∈ cinCollisions.getD i []))
    (hpre : ∀ u v, u ∈ G.nodes → v ∈ G.nodes → u ≠ v →
        (gateOf u).check_collision (gateOf v) = true →
        (u, v) ∈ G.edges ∨ (v, u) ∈ G.edges) :
    ∀ u v,
      u ∈ (local_mixing_splice G S newIds cinGates cinCollisions gateOf fuel).nodes →
      v ∈ (local_mixing_splice G S newIds cinGates cinCollisions gateOf fuel).nodes →
      u ≠ v →
      (spliceGateOf gateOf newIds cinGates u).check_collision
        (spliceGateOf gateOf newIds cinGates v) = true →
      (((u, v) ∈ (local_mixing_splice G S newIds cinGates cinCollisions gateOf fuel).edges ∨
        (v, u) ∈ (local_mixing_splice G S newIds cinGates cinCollisions gateOf fuel).edges) ∧
       (Reaches (gadj (local_mixing_splice G S newIds cinGates cinCollisions gateOf fuel)) u v →
         (u, v) ∈ (local_mixing_splice G S newIds cinGates cinCollisions gateOf fuel).edges)) := by
  intro u v hu hv hne hcol
  have hboth := splice_complete_or G S newIds cinGates cinCollisions gateOf rho Nb fuel
    hrk hrb hfuel hconv hen hfresh hnd hcc hSsub hlen hcinC hpre u v hu hv hne hcol
  refine ⟨hboth, ?_⟩
  intro hreach
  rcases hboth with h | h
  · exact h
  · exfalso
    have hsig := spliceSigma_strict G S newIds cinGates cinCollisions gateOf rho Nb fuel
      hrk hrb hfuel hconv hen hfresh hnd hcc
    have hrank : IsRanking
        (gadj (local_mixing_splice G S newIds cinGates cinCollisions gateOf fuel))
        (spliceSigma rho Nb newIds (succsOf G S fuel)) := by
      intro a b hb
      exact hsig (a, b) ((mem_gadj _ a b).mp hb)
    have h1 := reaches_rank_le _ _ hrank u v hreach
    have h2 : spliceSigma rho Nb newIds (succsOf G S fuel) v <
        spliceSigma rho Nb newIds (succsOf G S fuel) u := hsig (v, u) h
    omega

/-- Concrete splice instance for exercising collision completeness. -/
def c4G : GGraph := ⟨[0, 1, 2], [(0, 1), (1, 2)]⟩

/-- The two `C_in` gates of the instance: they collide with each other and
the first collides with every old gate. -/
def c4cin : List BaseGate := [⟨10, 1, 0, 2, 0⟩, ⟨11, 0, 1, 2, 0⟩]

/-- The old gate map of the instance (all old nodes carry the same gate). -/
def c4gateOf : Nat → BaseGate := fun _ => ⟨0, 0, 1, 2, 0⟩

/-- Witness for C4: in the concrete instance, survivor `0` and `C_in` node
`10` collide, so the splice joins them by an edge, directed `0 → 10`
whenever `0` reaches `10`. -/
theorem local_mixing_splice_collision_complete_witness :
    (((0, 10) ∈ (local_mixing_splice c4G [1] [10, 11] c4cin [[1], []]
        c4gateOf 4).edges ∨
      (10, 0) ∈ (local_mixing_splice c4G [1] [10, 11] c4cin [[1], []]
        c4gateOf 4).edges) ∧
     (Reaches (gadj (local_mixing_splice c4G [1] [10, 11] c4cin [[1], []]
         c4gateOf 4)) 0 10 →
       (0, 10) ∈ (local_mixing_splice c4G [1] [10, 11] c4cin [[1], []]
         c4gateOf 4).edges)) := by
  refine local_mixing_splice_collision_complete c4G [1] [10, 11] c4cin [[1], []]
    c4gateOf (fun v => v % 4) 3 4 ?_ ?_ ?_ ?_ ?_ ?_ ?_ ?_ ?_ ?_ ?_ ?_ 0 10
    (by decide) (by decide) (by decide) (by decide)
  · intro e he
    simp [c4G] at he
    rcases he with rfl | rfl <;> decide
  · intro v
    show v % 4 ≤ 3
    omega
  · decide
  · intro u hu v hv z h1 h2
    simp at hu hv
    subst hu
    subst hv
    have hen' : ∀ e ∈ c4G.edges, e.1 ∈ c4G.nodes ∧ e.2 ∈ c4G.nodes := by
      intro e he
      simp [c4G] at he
      rcases he with rfl | rfl <;> decide
    have hzn := reaches_gadj_mem c4G hen' 1 z h1 (by decide)
    have hr : IsRanking (gadj c4G) (fun v => v % 4) := by
      intro a b hb
      have hab := (mem_gadj c4G a b).mp hb
      simp [c4G] at hab
      rcases hab with ⟨rfl, rfl⟩ | ⟨rfl, rfl⟩ <;> decide
    have hle1 : 1 % 4 ≤ z % 4 := reaches_rank_le _ _ hr 1 z h1
    have hle2 : z % 4 ≤ 1 % 4 := reaches_rank_le _ _ hr z 1 h2
    simp [c4G] at hzn
    rcases hzn with rfl | rfl | rfl
    · omega
    · simp
    · omega
  · intro e he
    simp [c4G] at he
    rcases he with rfl | rfl <;> decide
  · decide
  · decide
  · intro i j hj
    match i with
    | 0 =>
      simp at hj
      subst hj
      decide
    | 1 => simp at hj
    | n + 2 =>
      rw [List.getD_eq_default] at hj
      · simp at hj
      · simp
  · decide
  · decide
  · intro i j hi hj hij
    simp [c4cin] at hi hj
    have hij' : i = 0 ∧ j = 1 := by omega
    obtain ⟨rfl, rfl⟩ := hij'
    show (c4cin.get ⟨0, by decide⟩).check_collision (c4cin.get ⟨1, by decide⟩) = true ↔
      1 ∈ [[1], []].getD 0 []
    decide
  · intro u v _ _ _ hcol
    simp [c4gateOf, BaseGate.check_collision] at hcol

/-- The active-wire set `omega_out` of the convex subcircuit
(lib.rs 969-977): target and both controls of every gate, as a
deduplicated insertion set. -/
def active_wires (gates : List BaseGate) : List Nat :=
  gates.foldl
    (fun acc g => linsert g.control1 (linsert g.control0 (linsert g.target acc))) []

/-- A six-gate collision chain: gate `i+1` collides with gate `i`, and the
gates together touch the 13 wires `0..12`. -/
def c7gates : List BaseGate :=
  [⟨0, 0, 1, 2, 0⟩, ⟨1, 3, 0, 4, 0⟩, ⟨2, 5, 3, 6, 0⟩,
   ⟨3, 7, 5, 8, 0⟩, ⟨4, 9, 7, 10, 0⟩, ⟨5, 11, 9, 12, 0⟩]

/-- C7 (refuted — the code can panic): the six-gate collision chain
`c7gates` is a legitimate `C_out` shape (its collision graph is weakly
connected), its active-wire count `|omega_out|` is 13, and with that wire
count the dispatch of `find_replacement_circuit_fast` (lib.rs 453-464)
reaches the `unimplemented!()` arm — modelled as `none` — for every
subcircuit and candidate stream, so `local_mixing_step` panics instead of
returning `false`. -/
theorem local_mixing_step_wide_subcircuit_panics :
    is_collisions_set_weakly_connected
      (circuit_to_collision_sets ⟨c7gates, 13⟩) = true ∧
    (active_wires c7gates).length = 13 ∧
    ∀ cOut candidates,
      find_replacement_circuit_fast_dispatch cOut (active_wires c7gates).length
        candidates = none := by
  refine ⟨by decide, by decide, ?_⟩
  intro cOut candidates
  show find_replacement_circuit_fast_dispatch cOut 13 candidates = none
  unfold find_replacement_circuit_fast_dispatch
  rw [if_neg]
  decide

/-! ## C1: functional invariance of the splice -/

theorem getD_set_ne (s : List Bool) (i j : Nat) (x : Bool) (h : i ≠ j) :
    (s.set i x).getD j false = s.getD j false := by
  unfold List.getD
  rw [List.get?_set_ne _ _ h]

theorem getD_set_self (s : List Bool) (i : Nat) (x : Bool) (h : i < s.length) :
    (s.set i x).getD i false = x := by
  rw [List.getD_eq_getElem?_getD, List.getElem?_set_self h]
  rfl

/-- Running a gate sequence: the common foldl of `Circuit.run` over an
explicit gate list. -/
def runGates (gs : List BaseGate) (s : List Bool) : List Bool :=
  gs.foldl (fun st g => g.step st) s

theorem step_length (g : BaseGate) (s : List Bool) :
    (g.step s).length = s.length := by
  unfold BaseGate.step
  exact List.length_set _ _ _

theorem runGates_length (gs : List BaseGate) (s : List Bool) :
    (runGates gs s).length = s.length := by
  induction gs generalizing s with
  | nil => rfl
  | cons g rest ih =>
    show (runGates rest (g.step s)).length = s.length
    rw [ih (g.step s), step_length]

theorem runGates_append (l1 l2 : List BaseGate) (s : List Bool) :
    runGates (l1 ++ l2) s = runGates l2 (runGates l1 s) := by
  unfold runGates
  exact List.foldl_append _ _ l1 l2

/-- Non-colliding gates commute as state transformers. -/
theorem step_comm (a b : BaseGate) (h : a.check_collision b = false)
    (s : List Bool) : b.step (a.step s) = a.step (b.step s) := by
  have hcs : (a.target = b.control0 ∨ a.target = b.control1) ∨
      b.target = a.control0 ∨ b.target = a.control1 → False := by
    intro hc
    unfold BaseGate.check_collision at h
    rcases hc with hc | hc
    · rcases hc with hc | hc <;> simp [hc] at h
    · rcases hc with hc | hc <;> simp [hc] at h
  have h1 : a.target ≠ b.control0 := fun hx => hcs (Or.inl (Or.inl hx))
  have h2 : a.target ≠ b.control1 := fun hx => hcs (Or.inl (Or.inr hx))
  have h3 : b.target ≠ a.control0 := fun hx => hcs (Or.inr (Or.inl hx))
  have h4 : b.target ≠ a.control1 := fun hx => hcs (Or.inr (Or.inr hx))
  by_cases hts : a.target = b.target
  · by_cases hlen : a.target < s.length
    · unfold BaseGate.step
      rw [getD_set_ne s a.target b.control0 _ h1,
        getD_set_ne s a.target b.control1 _ h2,
        getD_set_ne s b.target a.control0 _ h3,
        getD_set_ne s b.target a.control1 _ h4]
      rw [hts]
      rw [getD_set_self s b.target _ (hts ▸ hlen),
        getD_set_self s b.target _ (hts ▸ hlen), List.set_set, List.set_set]
      congr 1
      generalize s.getD b.target false = x
      generalize (s.getD a.control0 false && s.getD a.control1 false) = p
      generalize (s.getD b.control0 false && s.getD b.control1 false) = q
      cases x <;> cases p <;> cases q <;> rfl
    · have hle : s.length ≤ a.target := le_of_not_lt hlen
      have hcollapse : ∀ v, s.set b.target v = s := fun v =>
        List.set_eq_of_length_le (hts ▸ hle)
      unfold BaseGate.step
      rw [hts]
      simp only [hcollapse]
  · unfold BaseGate.step
    rw [getD_set_ne s a.target b.control0 _ h1,
      getD_set_ne s a.target b.control1 _ h2,
      getD_set_ne s a.target b.target _ hts,
      getD_set_ne s b.target a.control0 _ h3,
      getD_set_ne s b.target a.control1 _ h4,
      getD_set_ne s b.target a.target _ (fun hx => hts hx.symm)]
    exact List.set_comm _ _ s hts

/-- A gate that collides with nothing before it can be moved to the front
without changing the computed function. -/
theorem runGates_bubble (g : BaseGate) (pre post : List BaseGate)
    (h : ∀ x ∈ pre, x.check_collision g = false) (s : List Bool) :
    runGates (pre ++ g :: post) s = runGates (g :: (pre ++ post)) s := by
  induction pre generalizing s with
  | nil => rfl
  | cons x rest ih =>
    show runGates (rest ++ g :: post) (x.step s) =
      runGates ((x :: rest) ++ post) (g.step s)
    rw [ih (fun y hy => h y (List.mem_cons_of_mem _ hy)) (x.step s)]
    show runGates (rest ++ post) (g.step (x.step s)) =
      runGates (rest ++ post) (x.step (g.step s))
    rw [step_comm x g (h x (by simp)) s]

/-- A topological order of a graph: a permutation of the nodes with no
back edge. -/
def IsTopoOrder (G : GGraph) (ord : List Nat) : Prop :=
  List.Perm ord G.nodes ∧ List.Pairwise (fun a b => (b, a) ∉ G.edges) ord

/-- Two linear extensions of a collision-complete precedence relation
compute the same function: any pair ordered differently must be
non-colliding, hence commutes. -/
theorem runGates_eq_of_toposorts (gateOf : Nat → BaseGate) (E : Nat → Nat → Prop)
    (l1 : List Nat) :
    ∀ l2 : List Nat, List.Perm l1 l2 → l1.Nodup →
    (∀ u ∈ l1, ∀ v ∈ l1, u ≠ v →
      (gateOf u).check_collision (gateOf v) = true → E u v ∨ E v u) →
    List.Pairwise (fun a b => ¬ E b a) l1 →
    List.Pairwise (fun a b => ¬ E b a) l2 →
    ∀ s, runGates (l1.map gateOf) s = runGates (l2.map gateOf) s := by
  induction l1 with
  | nil =>
    intro l2 hperm _ _ _ _ s
    rw [hperm.nil_eq]
  | cons u t1 ih =>
    intro l2 hperm hnd hcomp h1 h2 s
    have hu2 : u ∈ l2 := hperm.mem_iff.mp (by simp)
    obtain ⟨pre, post, rfl⟩ := List.append_of_mem hu2
    have hnd2 : (pre ++ u :: post).Nodup := hperm.nodup hnd
    have hupre : u ∉ pre := by
      intro hup
      rw [List.nodup_append] at hnd2
      exact hnd2.2.2 hup (by simp)
    have hnocol : ∀ x ∈ pre, (gateOf x).check_collision (gateOf u) = false := by
      intro x hx
      by_contra hcol
      have hcol' : (gateOf x).check_collision (gateOf u) = true := by
        cases hcx : (gateOf x).check_collision (gateOf u)
        · exact absurd hcx hcol
        · rfl
      have hxu : x ≠ u := fun hxe => hupre (hxe ▸ hx)
      have hx1 : x ∈ u :: t1 := hperm.mem_iff.mpr (List.mem_append_left _ hx)
      have hx1' : x ∈ t1 := by
        rcases List.mem_cons.mp hx1 with hxe | hxt
        · exact absurd hxe hxu
        · exact hxt
      rcases hcomp x hx1 u (by simp) hxu hcol' with hE | hE
      · -- E x u with x after u in l1
        exact (List.pairwise_cons.mp h1).1 x hx1' hE
      · -- E u x with x before u in l2
        have := (List.pairwise_append.mp h2).2.2 x hx u (by simp)
        exact this hE
    have hperm' : List.Perm t1 (pre ++ post) := by
      have hmid : List.Perm (pre ++ u :: post) (u :: (pre ++ post)) :=
        List.perm_middle
      exact (hperm.trans hmid).cons_inv
    have hsub : List.Sublist (pre ++ post) (pre ++ u :: post) :=
      List.Sublist.append_left (List.sublist_cons_self u post) pre
    have ih' := ih (pre ++ post) hperm' (List.Nodup.of_cons hnd)
      (fun a ha b hb hab hc => hcomp a (List.mem_cons_of_mem _ ha)
        b (List.mem_cons_of_mem _ hb) hab hc)
      (List.Pairwise.of_cons h1) (h2.sublist hsub)
    have hbub : runGates ((pre ++ u :: post).map gateOf) s =
        runGates (gateOf u :: (pre ++ post).map gateOf) s := by
      rw [List.map_append, List.map_cons]
      have := runGates_bubble (gateOf u) (pre.map gateOf) (post.map gateOf)
        (by
          intro x hx
          obtain ⟨y, hy, rfl⟩ := List.mem_map.mp hx
          exact hnocol y hy) s
      rw [this]
      rw [← List.map_append]
    rw [hbub]
    show runGates (t1.map gateOf) ((gateOf u).step s) =
      runGates ((pre ++ post).map gateOf) ((gateOf u).step s)
    exact ih' ((gateOf u).step s)

/-- The full ancestor closure of `S` (including `S` itself), as computed by
the embedded `dfs` walking `Incoming` edges from `S`. -/
def ancOf (G : GGraph) (S : List Nat) (fuel : Nat) : List Nat :=
  dfsAll (gpadj G) fuel S

theorem ancOf_spec (G : GGraph) (S : List Nat) (rho : Nat → Nat) (Nb fuel : Nat)
    (hrk : ∀ e ∈ G.edges, rho e.1 < rho e.2) (hrb : ∀ v, rho v ≤ Nb)
    (hfuel : Nb + 1 ≤ fuel) :
    (∀ s ∈ S, s ∈ ancOf G S fuel) ∧
    (∀ x ∈ ancOf G S fuel, ∃ s ∈ S, Reaches (gadj G) x s) ∧
    (∀ x ∈ ancOf G S fuel, ∀ y, Reaches (gadj G) y x → y ∈ ancOf G S fuel) := by
  have hr' : ∀ u v, v ∈ gpadj G u → Nb - rho u < Nb - rho v := by
    intro u v hv
    have h1 := hrk (v, u) ((mem_gpadj G v u).mp hv)
    have h2 := hrb u
    simp only at h1
    omega
  have h := dfsAll_spec (gpadj G) (fun v => Nb - rho v) Nb hr'
    (fun v => Nat.sub_le Nb (rho v)) fuel hfuel S
  refine ⟨h.1, ?_, ?_⟩
  · intro x hx
    obtain ⟨s, hs, hreach⟩ := h.2.1 x hx
    exact ⟨s, hs, (reaches_gpadj_iff G s x).mp hreach⟩
  · intro x hx y hy
    exact h.2.2 x hx y ((reaches_gpadj_iff G x y).mpr hy)

theorem ancOf_mem_nodes (G : GGraph) (S : List Nat) (rho : Nat → Nat) (Nb fuel : Nat)
    (hrk : ∀ e ∈ G.edges, rho e.1 < rho e.2) (hrb : ∀ v, rho v ≤ Nb)
    (hfuel : Nb + 1 ≤ fuel)
    (hen : ∀ e ∈ G.edges, e.1 ∈ G.nodes ∧ e.2 ∈ G.nodes)
    (hSsub : ∀ s ∈ S, s ∈ G.nodes) :
    ∀ x ∈ ancOf G S fuel, x ∈ G.nodes := by
  have hr' : ∀ u v, v ∈ gpadj G u → Nb - rho u < Nb - rho v := by
    intro u v hv
    have h1 := hrk (v, u) ((mem_gpadj G v u).mp hv)
    have h2 := hrb u
    simp only at h1
    omega
  have h := dfsAll_spec (gpadj G) (fun v => Nb - rho v) Nb hr'
    (fun v => Nat.sub_le Nb (rho v)) fuel hfuel S
  intro x hx
  obtain ⟨s, hs, hreach⟩ := h.2.1 x hx
  exact reaches_gpadj_mem G hen s x hreach (hSsub s hs)

theorem succs_not_S (G : GGraph) (S : List Nat) (rho : Nat → Nat) (Nb fuel : Nat)
    (hrk : ∀ e ∈ G.edges, rho e.1 < rho e.2) (hrb : ∀ v, rho v ≤ Nb)
    (hfuel : Nb + 1 ≤ fuel) (hconv : IsConvex (gadj G) S) :
    ∀ x ∈ succsOf G S fuel, x ∉ S := by
  intro x hx hxS
  obtain ⟨isq, his, hreach⟩ := (succsOf_spec G S rho Nb fuel hrk hrb hfuel).1 x hx
  obtain ⟨_, hisS, s', hs', hedge⟩ := (mem_immSuccs G S isq).mp his
  exact hisS (hconv s' hs' x hxS isq
    (Relation.ReflTransGen.single ((mem_gadj G s' isq).mpr hedge)) hreach)

theorem preds_not_S (G : GGraph) (S : List Nat) (rho : Nat → Nat) (Nb fuel : Nat)
    (hrk : ∀ e ∈ G.edges, rho e.1 < rho e.2) (hrb : ∀ v, rho v ≤ Nb)
    (hfuel : Nb + 1 ≤ fuel) (hconv : IsConvex (gadj G) S) :
    ∀ p ∈ predsOf G S fuel, p ∉ S := by
  intro p hp hpS
  obtain ⟨ip, hip, hreach⟩ := (predsOf_spec G S rho Nb fuel hrk hrb hfuel).1 p hp
  obtain ⟨_, hipS, s, hs, hedge⟩ := (mem_immPreds G S ip).mp hip
  exact hipS (hconv p hpS s hs ip hreach
    (Relation.ReflTransGen.single ((mem_gadj G ip s).mpr hedge)))

theorem succs_not_anc (G : GGraph) (S : List Nat) (rho : Nat → Nat) (Nb fuel : Nat)
    (hrk : ∀ e ∈ G.edges, rho e.1 < rho e.2) (hrb : ∀ v, rho v ≤ Nb)
    (hfuel : Nb + 1 ≤ fuel) (hconv : IsConvex (gadj G) S) :
    ∀ x ∈ succsOf G S fuel, x ∉ ancOf G S fuel := by
  intro x hx hxa
  obtain ⟨isq, his, hreach⟩ := (succsOf_spec G S rho Nb fuel hrk hrb hfuel).1 x hx
  obtain ⟨_, hisS, s', hs', hedge⟩ := (mem_immSuccs G S isq).mp his
  obtain ⟨s'', hs'', hreach2⟩ := (ancOf_spec G S rho Nb fuel hrk hrb hfuel).2.1 x hxa
  exact hisS (hconv s' hs' s'' hs'' isq
    (Relation.ReflTransGen.single ((mem_gadj G s' isq).mpr hedge))
    (hreach.trans hreach2))

theorem anc_to_preds_or_S (G : GGraph) (S : List Nat) (rho : Nat → Nat)
    (Nb fuel : Nat)
    (hrk : ∀ e ∈ G.edges, rho e.1 < rho e.2) (hrb : ∀ v, rho v ≤ Nb)
    (hfuel : Nb + 1 ≤ fuel)
    (hen : ∀ e ∈ G.edges, e.1 ∈ G.nodes ∧ e.2 ∈ G.nodes) :
    ∀ x ∈ ancOf G S fuel, x ∈ S ∨ x ∈ predsOf G S fuel := by
  have hgen : ∀ s0 x, Reaches (gadj G) x s0 → s0 ∈ S →
      x ∈ S ∨ x ∈ predsOf G S fuel := by
    intro s0 x hreach hs0
    induction hreach using Relation.ReflTransGen.head_induction_on with
    | refl => exact Or.inl hs0
    | @head a y hstep hrest ih =>
      rcases ih with hyS | hyP
      · by_cases haS : a ∈ S
        · exact Or.inl haS
        · have hedge : (a, y) ∈ G.edges := (mem_gadj G a y).mp hstep
          have haN : a ∈ G.nodes := (hen _ hedge).1
          have himm : a ∈ immPreds G S :=
            (mem_immPreds G S a).mpr ⟨haN, haS, y, hyS, hedge⟩
          have hr' : ∀ u v, v ∈ gpadj G u → Nb - rho u < Nb - rho v := by
            intro u v hv
            have h1 := hrk (v, u) ((mem_gpadj G v u).mp hv)
            have h2 := hrb u
            simp only at h1
            omega
          exact Or.inr ((dfsAll_spec (gpadj G) (fun v => Nb - rho v) Nb hr'
            (fun v => Nat.sub_le Nb (rho v)) fuel hfuel (immPreds G S)).1 a himm)
      · exact Or.inr ((predsOf_spec G S rho Nb fuel hrk hrb hfuel).2 y hyP a
          (Relation.ReflTransGen.single hstep))
  intro x hx
  obtain ⟨s, hs, hreach⟩ := (ancOf_spec G S rho Nb fuel hrk hrb hfuel).2.1 x hx
  exact hgen s x hreach hs

theorem descendants_in_succs (G : GGraph) (S : List Nat) (rho : Nat → Nat)
    (Nb fuel : Nat)
    (hrk : ∀ e ∈ G.edges, rho e.1 < rho e.2) (hrb : ∀ v, rho v ≤ Nb)
    (hfuel : Nb + 1 ≤ fuel)
    (hen : ∀ e ∈ G.edges, e.1 ∈ G.nodes ∧ e.2 ∈ G.nodes) :
    ∀ s0 ∈ S, ∀ x, Reaches (gadj G) s0 x → x ∈ S ∨ x ∈ succsOf G S fuel := by
  intro s0 hs0 x hreach
  induction hreach with
  | refl => exact Or.inl hs0
  | @tail y a hrest hstep ih =>
    rcases ih with hyS | hyP
    · by_cases haS : a ∈ S
      · exact Or.inl haS
      · have hedge : (y, a) ∈ G.edges := (mem_gadj G y a).mp hstep
        have haN : a ∈ G.nodes := (hen _ hedge).2
        have himm : a ∈ immSuccs G S :=
          (mem_immSuccs G S a).mpr ⟨haN, haS, y, hyS, hedge⟩
        exact Or.inr ((dfsAll_spec (gadj G) rho Nb
          (fun u v hv => hrk (u, v) ((mem_gadj G u v).mp hv)) hrb fuel hfuel
          (immSuccs G S)).1 a himm)
    · exact Or.inr ((succsOf_spec G S rho Nb fuel hrk hrb hfuel).2 y hyP a
        (Relation.ReflTransGen.single hstep))

theorem splice_edge_old_old (G : GGraph) (S newIds : List Nat)
    (cinGates : List BaseGate) (cinCollisions : List (List Nat))
    (gateOf : Nat → BaseGate) (fuel : Nat)
    (hcc : ∀ i j, j ∈ cinCollisions.getD i [] → i < j ∧ j < newIds.length)
    (e : Nat × Nat)
    (he : e ∈ (local_mixing_splice G S newIds cinGates cinCollisions gateOf fuel).edges)
    (h1 : e.1 ∉ newIds) (h2 : e.2 ∉ newIds) : e ∈ G.edges := by
  obtain ⟨hcase, _, _⟩ :=
    (splice_edges_mem G S newIds cinGates cinCollisions gateOf fuel e).mp he
  rcases hcase with h | h | h | h | h
  · exact h
  · obtain ⟨i, hi, j, hj, heq⟩ := (mem_cin_internal_edges newIds cinCollisions e).mp h
    exfalso
    apply h1
    rw [heq]
    rw [List.getD_eq_getElem newIds 0 hi]
    exact List.getElem_mem hi
  · obtain ⟨p, _, nc, hnc, _, heq⟩ :=
      (mem_colliding_edges_from gateOf newIds cinGates (predsOf G S fuel) e).mp h
    exact absurd (heq ▸ (List.of_mem_zip hnc).1) h2
  · obtain ⟨q, _, nc, hnc, _, heq⟩ :=
      (mem_colliding_edges_to gateOf newIds cinGates (succsOf G S fuel) e).mp h
    exact absurd (heq ▸ (List.of_mem_zip hnc).1) h1
  · obtain ⟨p, _, nc, hnc, _, heq⟩ :=
      (mem_colliding_edges_from gateOf newIds cinGates
        (outsidersOf G S newIds fuel) e).mp h
    exact absurd (heq ▸ (List.of_mem_zip hnc).1) h2

/-- Sort a list of nodes by rank (used to pick a canonical topological
order inside each block). -/
def rhoSort (rho : Nat → Nat) (l : List Nat) : List Nat :=
  l.mergeSort (fun a b => decide (rho a ≤ rho b))

theorem rhoSort_perm (rho : Nat → Nat) (l : List Nat) :
    List.Perm (rhoSort rho l) l :=
  List.mergeSort_perm l _

theorem rhoSort_pairwise (rho : Nat → Nat) (l : List Nat) :
    List.Pairwise (fun a b => rho a ≤ rho b) (rhoSort rho l) := by
  have htrans : ∀ a b c : Nat, decide (rho a ≤ rho b) = true →
      decide (rho b ≤ rho c) = true → decide (rho a ≤ rho c) = true := by
    intro a b c hab hbc
    simp at hab hbc ⊢
    omega
  have htotal : ∀ a b : Nat, (decide (rho a ≤ rho b) || decide (rho b ≤ rho a)) = true := by
    intro a b
    simp
    omega
  have h := List.sorted_mergeSort htrans htotal l
  exact h.imp (fun hab => of_decide_eq_true hab)

/-- The ancestors-of-`S` block of the canonical order. -/
def blockPre (G : GGraph) (S : List Nat) (fuel : Nat) (rho : Nat → Nat) : List Nat :=
  rhoSort rho (G.nodes.filter fun x =>
    decide (x ∈ ancOf G S fuel) && decide (x ∉ S))

/-- The neither-ancestor-nor-descendant block of the canonical order. -/
def blockOut (G : GGraph) (S : List Nat) (fuel : Nat) (rho : Nat → Nat) : List Nat :=
  rhoSort rho (G.nodes.filter fun x =>
    decide (x ∉ ancOf G S fuel) && decide (x ∉ succsOf G S fuel))

/-- The descendants block of the canonical order. -/
def blockSucc (G : GGraph) (S : List Nat) (fuel : Nat) (rho : Nat → Nat) : List Nat :=
  rhoSort rho (G.nodes.filter fun x => decide (x ∈ succsOf G S fuel))

theorem mem_blockPre (G : GGraph) (S : List Nat) (fuel : Nat) (rho : Nat → Nat)
    (x : Nat) : x ∈ blockPre G S fuel rho ↔
      x ∈ G.nodes ∧ x ∈ ancOf G S fuel ∧ x ∉ S := by
  unfold blockPre
  rw [(rhoSort_perm rho _).mem_iff, List.mem_filter]
  simp

theorem mem_blockOut (G : GGraph) (S : List Nat) (fuel : Nat) (rho : Nat → Nat)
    (x : Nat) : x ∈ blockOut G S fuel rho ↔
      x ∈ G.nodes ∧ x ∉ ancOf G S fuel ∧ x ∉ succsOf G S fuel := by
  unfold blockOut
  rw [(rhoSort_perm rho _).mem_iff, List.mem_filter]
  simp

theorem mem_blockSucc (G : GGraph) (S : List Nat) (fuel : Nat) (rho : Nat → Nat)
    (x : Nat) : x ∈ blockSucc G S fuel rho ↔
      x ∈ G.nodes ∧ x ∈ succsOf G S fuel := by
  unfold blockSucc
  rw [(rhoSort_perm rho _).mem_iff, List.mem_filter]
  simp

theorem nodup_blockPre (G : GGraph) (S : List Nat) (fuel : Nat) (rho : Nat → Nat)
    (h : G.nodes.Nodup) : (blockPre G S fuel rho).Nodup :=
  ((rhoSort_perm rho _).nodup_iff).mpr (h.filter _)

theorem nodup_blockOut (G : GGraph) (S : List Nat) (fuel : Nat) (rho : Nat → Nat)
    (h : G.nodes.Nodup) : (blockOut G S fuel rho).Nodup :=
  ((rhoSort_perm rho _).nodup_iff).mpr (h.filter _)

theorem nodup_blockSucc (G : GGraph) (S : List Nat) (fuel : Nat) (rho : Nat → Nat)
    (h : G.nodes.Nodup) : (blockSucc G S fuel rho).Nodup :=
  ((rhoSort_perm rho _).nodup_iff).mpr (h.filter _)

/-- A rank-sorted block has no internal back edge. -/
theorem pairwise_no_back_of_sorted (G : GGraph) (rho : Nat → Nat)
    (hrk : ∀ e ∈ G.edges, rho e.1 < rho e.2) (l : List Nat)
    (hs : List.Pairwise (fun a b => rho a ≤ rho b) l) :
    List.Pairwise (fun a b => (b, a) ∉ G.edges) l := by
  refine hs.imp ?_
  intro a b hab hedge
  have := hrk (b, a) hedge
  simp only at this
  omega

theorem immSuccs_subset_succsOf (G : GGraph) (S : List Nat) (rho : Nat → Nat)
    (Nb fuel : Nat)
    (hrk : ∀ e ∈ G.edges, rho e.1 < rho e.2) (hrb : ∀ v, rho v ≤ Nb)
    (hfuel : Nb + 1 ≤ fuel) :
    ∀ x ∈ immSuccs G S, x ∈ succsOf G S fuel :=
  (dfsAll_spec (gadj G) rho Nb
    (fun u v hv => hrk (u, v) ((mem_gadj G u v).mp hv)) hrb fuel hfuel
    (immSuccs G S)).1

theorem ancOf_closed_edge (G : GGraph) (S : List Nat) (rho : Nat → Nat)
    (Nb fuel : Nat)
    (hrk : ∀ e ∈ G.edges, rho e.1 < rho e.2) (hrb : ∀ v, rho v ≤ Nb)
    (hfuel : Nb + 1 ≤ fuel) :
    ∀ x y, (y, x) ∈ G.edges → x ∈ ancOf G S fuel → y ∈ ancOf G S fuel := by
  intro x y hedge hx
  exact (ancOf_spec G S rho Nb fuel hrk hrb hfuel).2.2 x hx y
    (Relation.ReflTransGen.single ((mem_gadj G y x).mpr hedge))

theorem succsOf_closed_edge (G : GGraph) (S : List Nat) (rho : Nat → Nat)
    (Nb fuel : Nat)
    (hrk : ∀ e ∈ G.edges, rho e.1 < rho e.2) (hrb : ∀ v, rho v ≤ Nb)
    (hfuel : Nb + 1 ≤ fuel) :
    ∀ x y, (y, x) ∈ G.edges → y ∈ succsOf G S fuel → x ∈ succsOf G S fuel := by
  intro x y hedge hy
  exact (succsOf_spec G S rho Nb fuel hrk hrb hfuel).2 y hy x
    (Relation.ReflTransGen.single ((mem_gadj G y x).mpr hedge))

/-- No edge leaves `S` into a strict ancestor of `S`. -/
theorem no_edge_S_to_anc (G : GGraph) (S : List Nat) (rho : Nat → Nat)
    (Nb fuel : Nat)
    (hrk : ∀ e ∈ G.edges, rho e.1 < rho e.2) (hrb : ∀ v, rho v ≤ Nb)
    (hfuel : Nb + 1 ≤ fuel) (hconv : IsConvex (gadj G) S) :
    ∀ s ∈ S, ∀ a, a ∈ ancOf G S fuel → a ∉ S → (s, a) ∉ G.edges := by
  intro s hs a ha haS hedge
  obtain ⟨s2, hs2, hreach⟩ := (ancOf_spec G S rho Nb fuel hrk hrb hfuel).2.1 a ha
  exact haS (hconv s hs s2 hs2 a
    (Relation.ReflTransGen.single ((mem_gadj G s a).mpr hedge)) hreach)

/-- No edge returns from a strict descendant of `S` into `S`. -/
theorem no_edge_succ_to_S (G : GGraph) (S : List Nat) (rho : Nat → Nat)
    (Nb fuel : Nat)
    (hrk : ∀ e ∈ G.edges, rho e.1 < rho e.2) (hrb : ∀ v, rho v ≤ Nb)
    (hfuel : Nb + 1 ≤ fuel) (hconv : IsConvex (gadj G) S) :
    ∀ b ∈ succsOf G S fuel, ∀ s ∈ S, (b, s) ∉ G.edges := by
  intro b hb s hs hedge
  obtain ⟨isq, his, hreach⟩ := (succsOf_spec G S rho Nb fuel hrk hrb hfuel).1 b hb
  obtain ⟨_, hisS, s', hs', hedge'⟩ := (mem_immSuccs G S isq).mp his
  exact hisS (hconv s' hs' s hs isq
    (Relation.ReflTransGen.single ((mem_gadj G s' isq).mpr hedge'))
    (hreach.trans (Relation.ReflTransGen.single ((mem_gadj G b s).mpr hedge))))

/-- The canonical contiguous order of the skeleton before the splice:
ancestors, then unrelated nodes, then `S` in its given topological order,
then descendants. -/
theorem ordBefore_topo (G : GGraph) (S : List Nat) (fuel : Nat)
    (rho : Nat → Nat) (Nb : Nat) (sOrder : List Nat)
    (hrk : ∀ e ∈ G.edges, rho e.1 < rho e.2) (hrb : ∀ v, rho v ≤ Nb)
    (hfuel : Nb + 1 ≤ fuel) (hconv : IsConvex (gadj G) S)
    (hen : ∀ e ∈ G.edges, e.1 ∈ G.nodes ∧ e.2 ∈ G.nodes)
    (hSsub : ∀ s ∈ S, s ∈ G.nodes)
    (hGnd : G.nodes.Nodup) (hSnd : S.Nodup)
    (hsperm : List.Perm sOrder S)
    (hsback : List.Pairwise (fun a b => (b, a) ∉ G.edges) sOrder) :
    IsTopoOrder G (blockPre G S fuel rho ++
      (blockOut G S fuel rho ++ (sOrder ++ blockSucc G S fuel rho))) := by
  have hSanc : ∀ s ∈ S, s ∈ ancOf G S fuel :=
    (ancOf_spec G S rho Nb fuel hrk hrb hfuel).1
  have hsuccA : ∀ x ∈ succsOf G S fuel, x ∉ ancOf G S fuel :=
    succs_not_anc G S rho Nb fuel hrk hrb hfuel hconv
  have hsuccS : ∀ x ∈ succsOf G S fuel, x ∉ S :=
    succs_not_S G S rho Nb fuel hrk hrb hfuel hconv
  have hsnd : sOrder.Nodup := hsperm.nodup_iff.mpr hSnd
  constructor
  · have hmem : ∀ x, x ∈ (blockPre G S fuel rho ++
        (blockOut G S fuel rho ++ (sOrder ++ blockSucc G S fuel rho))) ↔
        x ∈ G.nodes := by
      intro x
      simp only [List.mem_append, mem_blockPre, mem_blockOut, mem_blockSucc,
        hsperm.mem_iff]
      constructor
      · rintro (⟨h, _⟩ | ⟨h, _⟩ | h | ⟨h, _⟩)
        · exact h
        · exact h
        · exact hSsub x h
        · exact h
      · intro hx
        by_cases hxS : x ∈ S
        · exact Or.inr (Or.inr (Or.inl hxS))
        · by_cases hxa : x ∈ ancOf G S fuel
          · exact Or.inl ⟨hx, hxa, hxS⟩
          · by_cases hxs : x ∈ succsOf G S fuel
            · exact Or.inr (Or.inr (Or.inr ⟨hx, hxs⟩))
            · exact Or.inr (Or.inl ⟨hx, hxa, hxs⟩)
    have hnd : (blockPre G S fuel rho ++
        (blockOut G S fuel rho ++ (sOrder ++ blockSucc G S fuel rho))).Nodup := by
      rw [List.nodup_append]
      refine ⟨nodup_blockPre G S fuel rho hGnd, ?_, ?_⟩
      · rw [List.nodup_append]
        refine ⟨nodup_blockOut G S fuel rho hGnd, ?_, ?_⟩
        · rw [List.nodup_append]
          refine ⟨hsnd, nodup_blockSucc G S fuel rho hGnd, ?_⟩
          intro a ha hb
          exact hsuccS a ((mem_blockSucc G S fuel rho a).mp hb).2 (hsperm.subset ha)
        · intro a ha hb
          obtain ⟨_, hana, hasucc⟩ := (mem_blockOut G S fuel rho a).mp ha
          rcases List.mem_append.mp hb with h | h
          · exact hana (hSanc a (hsperm.subset h))
          · exact hasucc ((mem_blockSucc G S fuel rho a).mp h).2
      · intro a ha hb
        obtain ⟨_, haa, haS⟩ := (mem_blockPre G S fuel rho a).mp ha
        rcases List.mem_append.mp hb with h | h
        · exact ((mem_blockOut G S fuel rho a).mp h).2.1 haa
        · rcases List.mem_append.mp h with h | h
          · exact haS (hsperm.subset h)
          · exact hsuccA a ((mem_blockSucc G S fuel rho a).mp h).2 haa
    exact (hnd.subperm (fun x hx => (hmem x).mp hx)).antisymm
      (hGnd.subperm (fun x hx => (hmem x).mpr hx))
  · rw [List.pairwise_append]
    refine ⟨?_, ?_, ?_⟩
    · exact pairwise_no_back_of_sorted G rho hrk _ (rhoSort_pairwise rho _)
    · rw [List.pairwise_append]
      refine ⟨?_, ?_, ?_⟩
      · exact pairwise_no_back_of_sorted G rho hrk _ (rhoSort_pairwise rho _)
      · rw [List.pairwise_append]
        refine ⟨hsback, ?_, ?_⟩
        · exact pairwise_no_back_of_sorted G rho hrk _ (rhoSort_pairwise rho _)
        · intro a ha b hb hedge
          exact no_edge_succ_to_S G S rho Nb fuel hrk hrb hfuel hconv b
            ((mem_blockSucc G S fuel rho b).mp hb).2 a (hsperm.subset ha) hedge
      · intro a ha b hb hedge
        obtain ⟨han, hana, hasucc⟩ := (mem_blockOut G S fuel rho a).mp ha
        rcases List.mem_append.mp hb with h | h
        · have haS : a ∉ S := fun haS => hana (hSanc a haS)
          have himm : a ∈ immSuccs G S :=
            (mem_immSuccs G S a).mpr ⟨han, haS, b, hsperm.subset h, hedge⟩
          exact hasucc (immSuccs_subset_succsOf G S rho Nb fuel hrk hrb hfuel a himm)
        · exact hasucc (succsOf_closed_edge G S rho Nb fuel hrk hrb hfuel a b hedge
            ((mem_blockSucc G S fuel rho b).mp h).2)
    · intro a ha b hb hedge
      obtain ⟨_, haa, haS⟩ := (mem_blockPre G S fuel rho a).mp ha
      rcases List.mem_append.mp hb with h | h
      · exact ((mem_blockOut G S fuel rho b).mp h).2.1
          (ancOf_closed_edge G S rho Nb fuel hrk hrb hfuel a b hedge haa)
      · rcases List.mem_append.mp h with h | h
        · exact no_edge_S_to_anc G S rho Nb fuel hrk hrb hfuel hconv b
            (hsperm.subset h) a haa haS hedge
        · exact hsuccA b ((mem_blockSucc G S fuel rho b).mp h).2
            (ancOf_closed_edge G S rho Nb fuel hrk hrb hfuel a b hedge haa)

/-- An edge of the spliced graph leaving a `C_in` node and ending outside
`C_in` comes from the successors pass. -/
theorem splice_edge_from_new (G : GGraph) (S newIds : List Nat)
    (cinGates : List BaseGate) (cinCollisions : List (List Nat))
    (gateOf : Nat → BaseGate) (fuel : Nat)
    (hen : ∀ e ∈ G.edges, e.1 ∈ G.nodes ∧ e.2 ∈ G.nodes)
    (hfresh : ∀ c ∈ newIds, c ∉ G.nodes)
    (hcc : ∀ i j, j ∈ cinCollisions.getD i [] → i < j ∧ j < newIds.length)
    (c x : Nat)
    (he : (c, x) ∈ (local_mixing_splice G S newIds cinGates cinCollisions gateOf fuel).edges)
    (hc : c ∈ newIds) (hx : x ∉ newIds) : x ∈ succsOf G S fuel := by
  obtain ⟨hcase, _, _⟩ :=
    (splice_edges_mem G S newIds cinGates cinCollisions gateOf fuel (c, x)).mp he
  rcases hcase with h | h | h | h | h
  · exact absurd (hen _ h).1 (fun hn => hfresh c hc hn)
  · obtain ⟨i, hi, j, hj, heq⟩ :=
      (mem_cin_internal_edges newIds cinCollisions (c, x)).mp h
    exfalso
    apply hx
    have hx2 : x = newIds.getD j 0 := congrArg Prod.snd heq
    obtain ⟨_, hjlen⟩ := hcc i j hj
    rw [hx2, List.getD_eq_getElem newIds 0 hjlen]
    exact List.getElem_mem hjlen
  · obtain ⟨p, _, nc, hnc, _, heq⟩ :=
      (mem_colliding_edges_from gateOf newIds cinGates (predsOf G S fuel) (c, x)).mp h
    have hxe : x = nc.1 := congrArg Prod.snd heq
    exact absurd (by rw [hxe]; exact (List.of_mem_zip hnc).1) hx
  · obtain ⟨q, hq, nc, hnc, _, heq⟩ :=
      (mem_colliding_edges_to gateOf newIds cinGates (succsOf G S fuel) (c, x)).mp h
    have : x = q := congrArg Prod.snd heq
    exact this ▸ hq
  · obtain ⟨p, _, nc, hnc, _, heq⟩ :=
      (mem_colliding_edges_from gateOf newIds cinGates
        (outsidersOf G S newIds fuel) (c, x)).mp h
    have hxe : x = nc.1 := congrArg Prod.snd heq
    exact absurd (by rw [hxe]; exact (List.of_mem_zip hnc).1) hx

/-- An edge of the spliced graph entering a `C_in` node from outside `C_in`
comes from the predecessors or outsiders pass. -/
theorem splice_edge_to_new (G : GGraph) (S newIds : List Nat)
    (cinGates : List BaseGate) (cinCollisions : List (List Nat))
    (gateOf : Nat → BaseGate) (fuel : Nat)
    (hen : ∀ e ∈ G.edges, e.1 ∈ G.nodes ∧ e.2 ∈ G.nodes)
    (hfresh : ∀ c ∈ newIds, c ∉ G.nodes)
    (x c : Nat)
    (he : (x, c) ∈ (local_mixing_splice G S newIds cinGates cinCollisions gateOf fuel).edges)
    (hc : c ∈ newIds) (hx : x ∉ newIds) :
    x ∈ predsOf G S fuel ∨ x ∈ outsidersOf G S newIds fuel := by
  obtain ⟨hcase, _, _⟩ :=
    (splice_edges_mem G S newIds cinGates cinCollisions gateOf fuel (x, c)).mp he
  rcases hcase with h | h | h | h | h
  · exact absurd (hen _ h).2 (fun hn => hfresh c hc hn)
  · obtain ⟨i, hi, j, hj, heq⟩ :=
      (mem_cin_internal_edges newIds cinCollisions (x, c)).mp h
    exfalso
    apply hx
    have hx1 : x = newIds.getD i 0 := congrArg Prod.fst heq
    rw [hx1, List.getD_eq_getElem newIds 0 hi]
    exact List.getElem_mem hi
  · obtain ⟨p, hp, nc, hnc, _, heq⟩ :=
      (mem_colliding_edges_from gateOf newIds cinGates (predsOf G S fuel) (x, c)).mp h
    have : x = p := congrArg Prod.fst heq
    exact Or.inl (this ▸ hp)
  · obtain ⟨q, _, nc, hnc, _, heq⟩ :=
      (mem_colliding_edges_to gateOf newIds cinGates (succsOf G S fuel) (x, c)).mp h
    have hxe : x = nc.1 := congrArg Prod.fst heq
    exact absurd (by rw [hxe]; exact (List.of_mem_zip hnc).1) hx
  · obtain ⟨p, hp, nc, hnc, _, heq⟩ :=
      (mem_colliding_edges_from gateOf newIds cinGates
        (outsidersOf G S newIds fuel) (x, c)).mp h
    have : x = p := congrArg Prod.fst heq
    exact Or.inr (this ▸ hp)

/-- Edges of the spliced graph between two `C_in` nodes are exactly the
internal collision edges, ordered by position. -/
theorem splice_edge_new_new (G : GGraph) (S newIds : List Nat)
    (cinGates : List BaseGate) (cinCollisions : List (List Nat))
    (gateOf : Nat → BaseGate) (fuel : Nat)
    (hen : ∀ e ∈ G.edges, e.1 ∈ G.nodes ∧ e.2 ∈ G.nodes)
    (hfresh : ∀ c ∈ newIds, c ∉ G.nodes)
    (hcc : ∀ i j, j ∈ cinCollisions.getD i [] → i < j ∧ j < newIds.length)
    (rho : Nat → Nat) (Nb : Nat)
    (hrk2 : ∀ e ∈ G.edges, rho e.1 < rho e.2) (hrb : ∀ v, rho v ≤ Nb)
    (hfuel : Nb + 1 ≤ fuel)
    (b a : Nat)
    (he : (b, a) ∈ (local_mixing_splice G S newIds cinGates cinCollisions gateOf fuel).edges)
    (hb : b ∈ newIds) (ha : a ∈ newIds) :
    ∃ i j, i < j ∧ i < newIds.length ∧ j < newIds.length ∧
      b = newIds.getD i 0 ∧ a = newIds.getD j 0 := by
  obtain ⟨hcase, _, _⟩ :=
    (splice_edges_mem G S newIds cinGates cinCollisions gateOf fuel (b, a)).mp he
  have hsubn := closures_subset_nodes G S rho Nb fuel hrk2 hrb hfuel hen
  rcases hcase with h | h | h | h | h
  · exact absurd (hen _ h).1 (fun hn => hfresh b hb hn)
  · obtain ⟨i, hi, j, hj, heq⟩ :=
      (mem_cin_internal_edges newIds cinCollisions (b, a)).mp h
    obtain ⟨hij, hjlen⟩ := hcc i j hj
    exact ⟨i, j, hij, hi, hjlen, congrArg Prod.fst heq, congrArg Prod.snd heq⟩
  · obtain ⟨p, hp, nc, hnc, _, heq⟩ :=
      (mem_colliding_edges_from gateOf newIds cinGates (predsOf G S fuel) (b, a)).mp h
    have : b = p := congrArg Prod.fst heq
    exact absurd (hsubn.1 p hp) (fun hn => hfresh b hb (this ▸ hn))
  · obtain ⟨q, hq, nc, hnc, _, heq⟩ :=
      (mem_colliding_edges_to gateOf newIds cinGates (succsOf G S fuel) (b, a)).mp h
    have : a = q := congrArg Prod.snd heq
    exact absurd (hsubn.2 q hq) (fun hn => hfresh a ha (this ▸ hn))
  · obtain ⟨p, hp, nc, hnc, _, heq⟩ :=
      (mem_colliding_edges_from gateOf newIds cinGates
        (outsidersOf G S newIds fuel) (b, a)).mp h
    have : b = p := congrArg Prod.fst heq
    exact absurd ((mem_outsidersOf G S newIds fuel p).mp hp).1
      (fun hn => hfresh b hb (this ▸ hn))

/-- A rank-sorted block of old nodes has no internal back edge in the
spliced graph either. -/
theorem pairwise_no_back_splice_of_sorted (G : GGraph) (S newIds : List Nat)
    (cinGates : List BaseGate) (cinCollisions : List (List Nat))
    (gateOf : Nat → BaseGate) (fuel : Nat) (rho : Nat → Nat)
    (hrk : ∀ e ∈ G.edges, rho e.1 < rho e.2)
    (hfresh : ∀ c ∈ newIds, c ∉ G.nodes)
    (hcc : ∀ i j, j ∈ cinCollisions.getD i [] → i < j ∧ j < newIds.length)
    (l : List Nat) (hl : ∀ x ∈ l, x ∈ G.nodes)
    (hs : List.Pairwise (fun a b => rho a ≤ rho b) l) :
    List.Pairwise (fun a b =>
      (b, a) ∉ (local_mixing_splice G S newIds cinGates cinCollisions gateOf fuel).edges)
      l := by
  refine hs.imp_of_mem ?_
  intro a b ha hb hab hedge
  have hba : (b, a) ∈ G.edges :=
    splice_edge_old_old G S newIds cinGates cinCollisions gateOf fuel hcc (b, a) hedge
      (fun h => hfresh b h (hl b hb)) (fun h => hfresh a h (hl a ha))
  have := hrk (b, a) hba
  simp only at this
  omega

/-- The canonical contiguous order of the skeleton after the splice:
ancestors, then unrelated nodes, then the `C_in` nodes in insertion order,
then descendants. -/
theorem ordAfter_topo (G : GGraph) (S newIds : List Nat)
    (cinGates : List BaseGate) (cinCollisions : List (List Nat))
    (gateOf : Nat → BaseGate) (fuel : Nat) (rho : Nat → Nat) (Nb : Nat)
    (hrk : ∀ e ∈ G.edges, rho e.1 < rho e.2) (hrb : ∀ v, rho v ≤ Nb)
    (hfuel : Nb + 1 ≤ fuel) (hconv : IsConvex (gadj G) S)
    (hen : ∀ e ∈ G.edges, e.1 ∈ G.nodes ∧ e.2 ∈ G.nodes)
    (hSsub : ∀ s ∈ S, s ∈ G.nodes)
    (hGnd : G.nodes.Nodup)
    (hfresh : ∀ c ∈ newIds, c ∉ G.nodes)
    (hnd : newIds.Nodup)
    (hcc : ∀ i j, j ∈ cinCollisions.getD i [] → i < j ∧ j < newIds.length) :
    IsTopoOrder (local_mixing_splice G S newIds cinGates cinCollisions gateOf fuel)
      (blockPre G S fuel rho ++
        (blockOut G S fuel rho ++ (newIds ++ blockSucc G S fuel rho))) := by
  have hSanc : ∀ s ∈ S, s ∈ ancOf G S fuel :=
    (ancOf_spec G S rho Nb fuel hrk hrb hfuel).1
  have hsuccA : ∀ x ∈ succsOf G S fuel, x ∉ ancOf G S fuel :=
    succs_not_anc G S rho Nb fuel hrk hrb hfuel hconv
  have hsuccS : ∀ x ∈ succsOf G S fuel, x ∉ S :=
    succs_not_S G S rho Nb fuel hrk hrb hfuel hconv
  have hdisj := preds_succs_disjoint G S rho Nb fuel hrk hrb hfuel hconv
  constructor
  · have hmem : ∀ x, x ∈ (blockPre G S fuel rho ++
        (blockOut G S fuel rho ++ (newIds ++ blockSucc G S fuel rho))) ↔
        ((x ∈ G.nodes ∧ x ∉ S) ∨ x ∈ newIds) := by
      intro x
      simp only [List.mem_append, mem_blockPre, mem_blockOut, mem_blockSucc]
      constructor
      · rintro (⟨h, ha, hS⟩ | ⟨h, ha, _⟩ | h | ⟨h, hs⟩)
        · exact Or.inl ⟨h, hS⟩
        · exact Or.inl ⟨h, fun hS => ha (hSanc x hS)⟩
        · exact Or.inr h
        · exact Or.inl ⟨h, hsuccS x hs⟩
      · rintro (⟨hx, hxS⟩ | hx)
        · by_cases hxa : x ∈ ancOf G S fuel
          · exact Or.inl ⟨hx, hxa, hxS⟩
          · by_cases hxs : x ∈ succsOf G S fuel
            · exact Or.inr (Or.inr (Or.inr ⟨hx, hxs⟩))
            · exact Or.inr (Or.inl ⟨hx, hxa, hxs⟩)
        · exact Or.inr (Or.inr (Or.inl hx))
    have hnd2 : (blockPre G S fuel rho ++
        (blockOut G S fuel rho ++ (newIds ++ blockSucc G S fuel rho))).Nodup := by
      rw [List.nodup_append]
      refine ⟨nodup_blockPre G S fuel rho hGnd, ?_, ?_⟩
      · rw [List.nodup_append]
        refine ⟨nodup_blockOut G S fuel rho hGnd, ?_, ?_⟩
        · rw [List.nodup_append]
          refine ⟨hnd, nodup_blockSucc G S fuel rho hGnd, ?_⟩
          intro a ha hb
          exact hfresh a ha ((mem_blockSucc G S fuel rho a).mp hb).1
        · intro a ha hb
          obtain ⟨han, hana, hasucc⟩ := (mem_blockOut G S fuel rho a).mp ha
          rcases List.mem_append.mp hb with h | h
          · exact hfresh a h han
          · exact hasucc ((mem_blockSucc G S fuel rho a).mp h).2
      · intro a ha hb
        obtain ⟨han, haa, haS⟩ := (mem_blockPre G S fuel rho a).mp ha
        rcases List.mem_append.mp hb with h | h
        · exact ((mem_blockOut G S fuel rho a).mp h).2.1 haa
        · rcases List.mem_append.mp h with h | h
          · exact hfresh a h han
          · exact hsuccA a ((mem_blockSucc G S fuel rho a).mp h).2 haa
    have hndN : (local_mixing_splice G S newIds cinGates cinCollisions
        gateOf fuel).nodes.Nodup := by
      unfold local_mixing_splice
      rw [List.nodup_append]
      refine ⟨hGnd.filter _, hnd, ?_⟩
      intro a ha hb
      exact hfresh a hb (List.mem_of_mem_filter ha)
    refine (hnd2.subperm ?_).antisymm (hndN.subperm ?_)
    · intro x hx
      exact (splice_nodes_mem G S newIds cinGates cinCollisions gateOf fuel x).mpr
        ((hmem x).mp hx)
    · intro x hx
      exact (hmem x).mpr
        ((splice_nodes_mem G S newIds cinGates cinCollisions gateOf fuel x).mp hx)
  · have hPmem : ∀ x ∈ blockPre G S fuel rho, x ∈ G.nodes :=
      fun x hx => ((mem_blockPre G S fuel rho x).mp hx).1
    have hOmem : ∀ x ∈ blockOut G S fuel rho, x ∈ G.nodes :=
      fun x hx => ((mem_blockOut G S fuel rho x).mp hx).1
    have hScmem : ∀ x ∈ blockSucc G S fuel rho, x ∈ G.nodes :=
      fun x hx => ((mem_blockSucc G S fuel rho x).mp hx).1
    rw [List.pairwise_append]
    refine ⟨?_, ?_, ?_⟩
    · exact pairwise_no_back_splice_of_sorted G S newIds cinGates cinCollisions
        gateOf fuel rho hrk hfresh hcc _ hPmem (rhoSort_pairwise rho _)
    · rw [List.pairwise_append]
      refine ⟨?_, ?_, ?_⟩
      · exact pairwise_no_back_splice_of_sorted G S newIds cinGates cinCollisions
          gateOf fuel rho hrk hfresh hcc _ hOmem (rhoSort_pairwise rho _)
      · rw [List.pairwise_append]
        refine ⟨?_, ?_, ?_⟩
        · -- within the C_in block: internal edges follow insertion order
          rw [List.pairwise_iff_getElem]
          intro i j hi hj hij hedge
          obtain ⟨i', j', hij', hi', hj', hb, ha⟩ :=
            splice_edge_new_new G S newIds cinGates cinCollisions gateOf fuel
              hen hfresh hcc rho Nb hrk hrb hfuel newIds[j] newIds[i] hedge
              (List.getElem_mem hj) (List.getElem_mem hi)
          rw [List.getD_eq_getElem newIds 0 hi'] at hb
          rw [List.getD_eq_getElem newIds 0 hj'] at ha
          have hinj := List.nodup_iff_injective_getElem.mp hnd
          have hji : j = i' := by
            have h2 : (⟨j, hj⟩ : Fin newIds.length) = ⟨i', hi'⟩ := by
              apply hinj
              show newIds[j] = newIds[i']
              exact hb
            exact congrArg Fin.val h2
          have hij2 : i = j' := by
            have h2 : (⟨i, hi⟩ : Fin newIds.length) = ⟨j', hj'⟩ := by
              apply hinj
              show newIds[i] = newIds[j']
              exact ha
            exact congrArg Fin.val h2
          omega
        · exact pairwise_no_back_splice_of_sorted G S newIds cinGates cinCollisions
            gateOf fuel rho hrk hfresh hcc _ hScmem (rhoSort_pairwise rho _)
        · -- C_in block before descendants
          intro a ha b hb hedge
          have hbn : b ∉ newIds := fun h => hfresh b h (hScmem b hb)
          rcases splice_edge_to_new G S newIds cinGates cinCollisions gateOf fuel
              hen hfresh b a hedge ha hbn with h | h
          · exact hdisj b h ((mem_blockSucc G S fuel rho b).mp hb).2
          · exact ((mem_outsidersOf G S newIds fuel b).mp h).2.2.1
              ((mem_blockSucc G S fuel rho b).mp hb).2
      · -- blockOut before C_in and descendants
        intro a ha b hb hedge
        obtain ⟨han, hana, hasucc⟩ := (mem_blockOut G S fuel rho a).mp ha
        have han2 : a ∉ newIds := fun h => hfresh a h han
        rcases List.mem_append.mp hb with h | h
        · exact hasucc (splice_edge_from_new G S newIds cinGates cinCollisions
            gateOf fuel hen hfresh hcc b a hedge h han2)
        · have hbn : b ∉ newIds := fun hh => hfresh b hh (hScmem b h)
          have hba : (b, a) ∈ G.edges :=
            splice_edge_old_old G S newIds cinGates cinCollisions gateOf fuel hcc
              (b, a) hedge hbn han2
          exact hasucc (succsOf_closed_edge G S rho Nb fuel hrk hrb hfuel a b hba
            ((mem_blockSucc G S fuel rho b).mp h).2)
    · -- blockPre before everything else
      intro a ha b hb hedge
      obtain ⟨han, haa, haS⟩ := (mem_blockPre G S fuel rho a).mp ha
      have han2 : a ∉ newIds := fun h => hfresh a h han
      rcases List.mem_append.mp hb with h | h
      · have hbn : b ∉ newIds := fun hh => hfresh b hh (hOmem b h)
        have hba : (b, a) ∈ G.edges :=
          splice_edge_old_old G S newIds cinGates cinCollisions gateOf fuel hcc
            (b, a) hedge hbn han2
        exact ((mem_blockOut G S fuel rho b).mp h).2.1
          (ancOf_closed_edge G S rho Nb fuel hrk hrb hfuel a b hba haa)
      · rcases List.mem_append.mp h with h | h
        · have := splice_edge_from_new G S newIds cinGates cinCollisions gateOf fuel
            hen hfresh hcc b a hedge h han2
          exact hsuccA a this haa
        · have hbn : b ∉ newIds := fun hh => hfresh b hh (hScmem b h)
          have hba : (b, a) ∈ G.edges :=
            splice_edge_old_old G S newIds cinGates cinCollisions gateOf fuel hcc
              (b, a) hedge hbn han2
          exact hsuccA b ((mem_blockSucc G S fuel rho b).mp h).2
            (ancOf_closed_edge G S rho Nb fuel hrk hrb hfuel a b hba haa)

/-- On the `C_in` ids, the spliced gate map reads off exactly the `C_in`
gates in insertion order. -/
theorem map_spliceGateOf (gateOf : Nat → BaseGate) (newIds : List Nat)
    (cinGates : List BaseGate) (hnd : newIds.Nodup)
    (hlen : newIds.length = cinGates.length) :
    newIds.map (spliceGateOf gateOf newIds cinGates) = cinGates := by
  apply List.ext_getElem
  · simp [hlen]
  · intro i h1 h2
    rw [List.getElem_map]
    unfold spliceGateOf
    have hmem : newIds[i] ∈ newIds := List.getElem_mem (by simpa using h1)
    rw [if_pos hmem]
    have hidx : newIds.indexOf newIds[i] = i :=
      List.indexOf_getElem hnd i (by simpa using h1)
    rw [hidx]
    exact List.getD_eq_getElem cinGates _ h2

theorem splice_nodes_nodup (G : GGraph) (S newIds : List Nat)
    (cinGates : List BaseGate) (cinCollisions : List (List Nat))
    (gateOf : Nat → BaseGate) (fuel : Nat)
    (hGnd : G.nodes.Nodup) (hnd : newIds.Nodup)
    (hfresh : ∀ c ∈ newIds, c ∉ G.nodes) :
    (local_mixing_splice G S newIds cinGates cinCollisions gateOf fuel).nodes.Nodup := by
  unfold local_mixing_splice
  rw [List.nodup_append]
  refine ⟨hGnd.filter _, hnd, ?_⟩
  intro a ha hb
  exact hfresh a hb (List.mem_of_mem_filter ha)

/-- C1: functional invariance of a successful local mixing step.  Under the
structural hypotheses of C4/C5 (skeleton DAG, `S` convex, fresh `C_in` ids,
correct `C_in` collision sets, collision completeness before the step), if
the replacement block computes the same function as the removed block on
`n`-bit states (`hfun`, the guarantee of the accepted replacement search),
then the circuit read off from ANY topological order of the spliced
skeleton computes the same function on `n`-bit states as the circuit read
off from any topological order of the skeleton before the step. -/
theorem local_mixing_step_functional_invariance
    (G : GGraph) (S newIds : List Nat) (cinGates : List BaseGate)
    (cinCollisions : List (List Nat)) (gateOf : Nat → BaseGate)
    (rho : Nat → Nat) (Nb fuel n : Nat) (sOrder : List Nat)
    (hrk : ∀ e ∈ G.edges, rho e.1 < rho e.2)
    (hrb : ∀ v, rho v ≤ Nb)
    (hfuel : Nb + 1 ≤ fuel)
    (hconv : IsConvex (gadj G) S)
    (hen : ∀ e ∈ G.edges, e.1 ∈ G.nodes ∧ e.2 ∈ G.nodes)
    (hfresh : ∀ c ∈ newIds, c ∉ G.nodes)
    (hnd : newIds.Nodup)
    (hcc : ∀ i j, j ∈ cinCollisions.getD i [] → i < j ∧ j < newIds.length)
    (hSsub : ∀ s ∈ S, s ∈ G.nodes)
    (hGnd : G.nodes.Nodup) (hSnd : S.Nodup)
    (hlen : newIds.length = cinGates.length)
    (hcinC : ∀ i j, (hi : i < cinGates.length) → (hj : j < cinGates.length) →
        i < j → (cinGates[i].check_collision cinGates[j] = true ↔
          j ∈ cinCollisions.getD i []))
    (hpre : ∀ u v, u ∈ G.nodes → v ∈ G.nodes → u ≠ v →
        (gateOf u).check_collision (gateOf v) = true →
        (u, v) ∈ G.edges ∨ (v, u) ∈ G.edges)
    (hsperm : List.Perm sOrder S)
    (hsback : List.Pairwise (fun a b => (b, a) ∉ G.edges) sOrder)
    (hfun : ∀ s : List Bool, s.length = n →
        runGates (sOrder.map gateOf) s = runGates cinGates s) :
    ∀ ordB ordA,
      IsTopoOrder G ordB →
      IsTopoOrder (local_mixing_splice G S newIds cinGates cinCollisions gateOf fuel)
        ordA →
      ∀ s : List Bool, s.length = n →
        runGates (ordB.map gateOf) s =
        runGates (ordA.map (spliceGateOf gateOf newIds cinGates)) s := by
  intro ordB ordA hB hA s hs
  have hcanB := ordBefore_topo G S fuel rho Nb sOrder hrk hrb hfuel hconv hen
    hSsub hGnd hSnd hsperm hsback
  have hcanA := ordAfter_topo G S newIds cinGates cinCollisions gateOf fuel rho Nb
    hrk hrb hfuel hconv hen hSsub hGnd hfresh hnd hcc
  have h1 : runGates (ordB.map gateOf) s =
      runGates ((blockPre G S fuel rho ++
        (blockOut G S fuel rho ++ (sOrder ++ blockSucc G S fuel rho))).map gateOf) s := by
    refine runGates_eq_of_toposorts gateOf (fun u v => (u, v) ∈ G.edges) ordB
      _ (hB.1.trans hcanB.1.symm) (hB.1.nodup_iff.mpr hGnd) ?_ hB.2 hcanB.2 s
    intro u hu v hv hne hcol
    exact hpre u v (hB.1.subset hu) (hB.1.subset hv) hne hcol
  have hgold : ∀ x, x ∈ G.nodes →
      spliceGateOf gateOf newIds cinGates x = gateOf x := by
    intro x hx
    unfold spliceGateOf
    rw [if_neg (fun h => hfresh x h hx)]
  have hmapPre : (blockPre G S fuel rho).map (spliceGateOf gateOf newIds cinGates) =
      (blockPre G S fuel rho).map gateOf :=
    List.map_congr_left (fun x hx => hgold x ((mem_blockPre G S fuel rho x).mp hx).1)
  have hmapOut : (blockOut G S fuel rho).map (spliceGateOf gateOf newIds cinGates) =
      (blockOut G S fuel rho).map gateOf :=
    List.map_congr_left (fun x hx => hgold x ((mem_blockOut G S fuel rho x).mp hx).1)
  have hmapSucc : (blockSucc G S fuel rho).map (spliceGateOf gateOf newIds cinGates) =
      (blockSucc G S fuel rho).map gateOf :=
    List.map_congr_left (fun x hx => hgold x ((mem_blockSucc G S fuel rho x).mp hx).1)
  have hmapNew := map_spliceGateOf gateOf newIds cinGates hnd hlen
  have h2 : runGates ((blockPre G S fuel rho ++
        (blockOut G S fuel rho ++ (sOrder ++ blockSucc G S fuel rho))).map gateOf) s =
      runGates ((blockPre G S fuel rho ++
        (blockOut G S fuel rho ++ (newIds ++ blockSucc G S fuel rho))).map
          (spliceGateOf gateOf newIds cinGates)) s := by
    rw [List.map_append, List.map_append, List.map_append,
      List.map_append, List.map_append, List.map_append]
    rw [runGates_append, runGates_append, runGates_append,
      runGates_append, runGates_append, runGates_append]
    rw [hmapPre, hmapOut, hmapSucc, hmapNew]
    have hlen2 : (runGates ((blockOut G S fuel rho).map gateOf)
        (runGates ((blockPre G S fuel rho).map gateOf) s)).length = n := by
      rw [runGates_length, runGates_length, hs]
    rw [hfun _ hlen2]
  have hndA : (local_mixing_splice G S newIds cinGates cinCollisions
      gateOf fuel).nodes.Nodup :=
    splice_nodes_nodup G S newIds cinGates cinCollisions gateOf fuel hGnd hnd hfresh
  have h3 : runGates ((blockPre G S fuel rho ++
        (blockOut G S fuel rho ++ (newIds ++ blockSucc G S fuel rho))).map
          (spliceGateOf gateOf newIds cinGates)) s =
      runGates (ordA.map (spliceGateOf gateOf newIds cinGates)) s := by
    refine runGates_eq_of_toposorts (spliceGateOf gateOf newIds cinGates)
      (fun u v => (u, v) ∈
        (local_mixing_splice G S newIds cinGates cinCollisions gateOf fuel).edges)
      _ ordA (hcanA.1.trans hA.1.symm) (hcanA.1.nodup_iff.mpr hndA) ?_ hcanA.2 hA.2 s
    intro u hu v hv hne hcol
    exact splice_complete_or G S newIds cinGates cinCollisions gateOf rho Nb fuel
      hrk hrb hfuel hconv hen hfresh hnd hcc hSsub hlen hcinC hpre u v
      (hcanA.1.subset hu) (hcanA.1.subset hv) hne hcol
  exact h1.trans (h2.trans h3)

/-- Tiny instance for the functional-invariance theorem: chain `0 → 1`,
`S = {1}` replaced by one fresh gate with swapped (functionally equal)
controls. -/
def c1G : GGraph := ⟨[0, 1], [(0, 1)]⟩

/-- Old gate map: node 0 targets wire 1; node 1 computes
`s[0] ^= s[1] && s[2]`. -/
def c1gateOf : Nat → BaseGate := fun i =>
  if i = 0 then ⟨0, 1, 0, 2, 0⟩ else ⟨1, 0, 1, 2, 0⟩

/-- Replacement gate: same function as the node-1 gate, controls swapped. -/
def c1cin : List BaseGate := [⟨5, 0, 2, 1, 0⟩]

theorem c1_succsOf_empty : succsOf c1G [1] 4 = [] := rfl

theorem c1_no_back_edge :
    (5, 0) ∉ (local_mixing_splice c1G [1] [5] c1cin [[]] c1gateOf 4).edges := by
  intro he
  obtain ⟨hcase, _, _⟩ :=
    (splice_edges_mem c1G [1] [5] c1cin [[]] c1gateOf 4 (5, 0)).mp he
  rcases hcase with h | h | h | h | h
  · simp [c1G] at h
  · obtain ⟨i, hi, j, hj, _⟩ := (mem_cin_internal_edges [5] [[]] (5, 0)).mp h
    have hi0 : i = 0 := by simpa using hi
    subst hi0
    simp at hj
  · obtain ⟨p, _, nc, hnc, _, heq⟩ :=
      (mem_colliding_edges_from c1gateOf [5] c1cin (predsOf c1G [1] 4) (5, 0)).mp h
    have hnc' : nc = (5, ⟨5, 0, 2, 1, 0⟩) := by simpa [c1cin] using hnc
    have h0 : (0 : Nat) = nc.1 := congrArg Prod.snd heq
    rw [hnc'] at h0
    simp at h0
  · obtain ⟨q, hq, nc, hnc, _, heq⟩ :=
      (mem_colliding_edges_to c1gateOf [5] c1cin (succsOf c1G [1] 4) (5, 0)).mp h
    rw [c1_succsOf_empty] at hq
    simp at hq
  · obtain ⟨p, _, nc, hnc, _, heq⟩ :=
      (mem_colliding_edges_from c1gateOf [5] c1cin
        (outsidersOf c1G [1] [5] 4) (5, 0)).mp h
    have hnc' : nc = (5, ⟨5, 0, 2, 1, 0⟩) := by simpa [c1cin] using hnc
    have h0 : (0 : Nat) = nc.1 := congrArg Prod.snd heq
    rw [hnc'] at h0
    simp at h0

/-- Witness for C1: in the tiny instance, running the before-order
`[0, 1]` and the after-order `[0, 5]` on the state `[true, false, true]`
gives the same result. -/
theorem local_mixing_step_functional_invariance_witness :
    runGates ([0, 1].map c1gateOf) [true, false, true] =
    runGates (([0, 5].map (spliceGateOf c1gateOf [5] c1cin))) [true, false, true] := by
  refine local_mixing_step_functional_invariance c1G [1] [5] c1cin [[]] c1gateOf
    (fun v => v % 4) 3 4 3 [1] ?_ ?_ ?_ ?_ ?_ ?_ ?_ ?_ ?_ ?_ ?_ ?_ ?_ ?_ ?_ ?_ ?_
    [0, 1] [0, 5] ?_ ?_ [true, false, true] (by decide)
  · intro e he
    simp [c1G] at he
    subst he
    decide
  · intro v
    show v % 4 ≤ 3
    omega
  · decide
  · intro u hu v hv z h1 h2
    simp at hu hv
    subst hu
    subst hv
    have hen' : ∀ e ∈ c1G.edges, e.1 ∈ c1G.nodes ∧ e.2 ∈ c1G.nodes := by
      intro e he
      simp [c1G] at he
      subst he
      decide
    have hzn := reaches_gadj_mem c1G hen' 1 z h1 (by decide)
    have hr : IsRanking (gadj c1G) (fun v => v % 4) := by
      intro a b hb
      have hab := (mem_gadj c1G a b).mp hb
      simp [c1G] at hab
      obtain ⟨rfl, rfl⟩ := hab
      decide
    have hle1 : 1 % 4 ≤ z % 4 := reaches_rank_le _ _ hr 1 z h1
    have hle2 : z % 4 ≤ 1 % 4 := reaches_rank_le _ _ hr z 1 h2
    simp [c1G] at hzn
    rcases hzn with rfl | rfl
    · omega
    · simp
  · intro e he
    simp [c1G] at he
    subst he
    decide
  · decide
  · decide
  · intro i j hj
    match i with
    | 0 => simp at hj
    | n + 1 =>
      rw [List.getD_eq_default] at hj
      · simp at hj
      · simp
  · decide
  · decide
  · decide
  · decide
  · intro i j hi hj hij
    exfalso
    simp [c1cin] at hi hj
    omega
  · intro u v hu hv hne hcol
    simp [c1G] at hu hv
    rcases hu with rfl | rfl <;> rcases hv with rfl | rfl
    · exact absurd rfl hne
    · left
      decide
    · right
      decide
    · exact absurd rfl hne
  · exact List.Perm.refl _
  · simp [c1G]
  · intro s hs
    rcases s with _ | ⟨a, s⟩
    · simp at hs
    rcases s with _ | ⟨b, s⟩
    · simp at hs
    rcases s with _ | ⟨c, s⟩
    · simp at hs
    rcases s with _ | ⟨d, s⟩
    · cases a <;> cases b <;> cases c <;> rfl
    · simp at hs
  · constructor
    · exact List.Perm.refl _
    · decide
  · constructor
    · exact List.Perm.refl _
    · refine List.pairwise_cons.mpr ⟨?_, ?_⟩
      · intro b hb
        have hb5 : b = 5 := by simpa using hb
        subst hb5
        exact c1_no_back_edge
      · simp
